import Mathlib

/-! # A shallow embedding of `wuyq101/pdf` (`pdf.go`, `image.go`)

Go byte slices and strings are lists of byte values (`Nat`, each below 256 in
a real run).  Go `int` is `Int`; the only place where its width matters is
`strconv.Atoi`, whose range check is modelled explicitly.  Methods that mutate
the receiver `*PDF` are functions that return the new state.  A Go `error`
return is `Res.err`, a runtime panic or a `log.Fatalf` is `Res.crash`, and
loops that Go runs without a bound take a fuel argument (`Res.fuel` when it
runs out).
-/

namespace Pdf

/-- A Go `[]byte` or `string`. -/
abbrev Bytes := List Nat

/-- The bytes of an ASCII string literal of the source. -/
def B (s : String) : Bytes := s.toList.map Char.toNat

/-! ## Data model (`pdf.go` lines 15-96) -/

/-- A Go `interface{}` as the parser fills it and the writer inspects it:
`*NameObj`, `[]*Pair`, `*Obj` (an indirect reference, only `ID` and `GenID`
set), `[]interface{}`, `int`, `string`. -/
inductive Value where
  | name (n : Bytes)
  | dict (d : List (Bytes × Value))
  | ref (id gen : Int)
  | array (a : List Value)
  | int (v : Int)
  | str (s : Bytes)

/-- A Go `Pair`: `Key.Name` and `Value`. -/
abbrev Pair := Bytes × Value

/-- The `Key.Name` of a pair. -/
abbrev Pair.Key (p : Pair) : Bytes := p.1

/-- The `Value` of a pair. -/
abbrev Pair.Value (p : Pair) : Value := p.2

/-- The `ElementType...` constants (`pdf.go` lines 1078-1095). -/
inductive ElementType where
  | Unkown | Obj | Dict | Name | Num | ObjRef | CmdEndObj | Stream | Array
  | CmdEndDict | CmdEndArray | String | Xref | Trailer | HexString | EOF
  deriving DecidableEq, Repr

/-- A Go `Stream`. -/
structure Stream where
  body : Bytes
  deriving DecidableEq, Repr

/-- A Go `Obj`.  `typ` is zero (`ElementTypeObj`) unless the parser read a bare
integer. -/
structure Obj where
  ID : Int
  GenID : Int
  Dict : List Pair
  Stream : Option Stream
  Array : List Value
  typ : ElementType
  Int : Int

/-- A Go `XrefItem`. -/
structure XrefItem where
  ID : Int
  Offset : Int
  GID : Int
  Flag : Bytes
  deriving DecidableEq, Repr

/-- A Go `Trailer`. -/
structure Trailer where
  Dict : List Pair
  StartXref : Int

/-- A Go `PDF`. -/
structure PDF where
  bytes : Bytes
  Header : Bytes
  Objects : List Obj
  Xref : List XrefItem
  Trailer : Option Trailer

/-- Outcome of a Go function: a value, a returned `error`, a stop of the
process (panic or `log.Fatalf`), or the model running out of fuel. -/
inductive Res (α : Type) where
  | ok (a : α)
  | err (msg : String)
  | crash (msg : String)
  | fuel

/-! ## `Obj.IsImageStream` (`pdf.go` lines 34-53) -/

/-- The loop of `IsImageStream` over `obj.Dict`. -/
def isImageLoop : List Pair → Bool
  | [] => false
  | pair :: rest =>
    if pair.Key = B "/Subtype" then
      match pair.Value with
      | .name n => if n = B "/Image" then true else isImageLoop rest
      | _ => isImageLoop rest
    else isImageLoop rest

/-- `func (obj *Obj) IsImageStream() bool`. -/
def Obj.IsImageStream (obj : Obj) : Bool :=
  match obj.Stream with
  | none => false
  | some _ => isImageLoop obj.Dict

/-! ## Library functions of Go used by the parser

`unicode/utf8`, `strings` and `strconv` as the Go standard library defines
them, on byte lists. -/

/-- The rune `utf8.RuneError`. -/
def RuneError : Nat := 0xFFFD

/-- A UTF-8 continuation byte, `0x80` to `0xBF`. -/
def isCont (b : Nat) : Bool := decide (0x80 ≤ b ∧ b ≤ 0xBF)

/-- Lowest second byte `utf8.acceptRanges` allows after the lead byte `s0`. -/
def acceptLo (s0 : Nat) : Nat :=
  if s0 = 0xE0 then 0xA0 else if s0 = 0xF0 then 0x90 else 0x80

/-- Highest second byte `utf8.acceptRanges` allows after the lead byte `s0`. -/
def acceptHi (s0 : Nat) : Nat :=
  if s0 = 0xED then 0x9F else if s0 = 0xF4 then 0x8F else 0xBF

/-- The branch of `utf8.DecodeRuneInString` for a lead byte `s0` of a two-byte
encoding (`0xC2` to `0xDF`), `t` being the bytes after it. -/
def decode2 (s0 : Nat) (t : Bytes) : Nat × Nat :=
  match t with
  | s1 :: _ =>
    if isCont s1 = true then ((s0 % 32) * 64 + s1 % 64, 2) else (RuneError, 1)
  | [] => (RuneError, 1)

/-- The branch for a lead byte of a three-byte encoding (`0xE0` to `0xEF`). -/
def decode3 (s0 : Nat) (t : Bytes) : Nat × Nat :=
  match t with
  | s1 :: s2 :: _ =>
    if acceptLo s0 ≤ s1 ∧ s1 ≤ acceptHi s0 ∧ isCont s2 = true then
      ((s0 % 16) * 4096 + (s1 % 64) * 64 + s2 % 64, 3)
    else (RuneError, 1)
  | _ => (RuneError, 1)

/-- The branch for a lead byte of a four-byte encoding (`0xF0` to `0xF4`). -/
def decode4 (s0 : Nat) (t : Bytes) : Nat × Nat :=
  match t with
  | s1 :: s2 :: s3 :: _ =>
    if acceptLo s0 ≤ s1 ∧ s1 ≤ acceptHi s0 ∧ isCont s2 = true ∧ isCont s3 = true then
      ((s0 % 8) * 262144 + (s1 % 64) * 4096 + (s2 % 64) * 64 + s3 % 64, 4)
    else (RuneError, 1)
  | _ => (RuneError, 1)

/-- `utf8.DecodeRuneInString`: the first rune and its width in bytes;
`(RuneError, 1)` for an invalid or truncated encoding, `(RuneError, 0)` for the
empty string. -/
def DecodeRune : Bytes → Nat × Nat
  | [] => (RuneError, 0)
  | s0 :: t =>
    if s0 < 0x80 then (s0, 1)
    else if s0 < 0xC2 then (RuneError, 1)
    else if s0 ≤ 0xDF then decode2 s0 t
    else if s0 ≤ 0xEF then decode3 s0 t
    else if s0 ≤ 0xF4 then decode4 s0 t
    else (RuneError, 1)

/-- Length of the segment `s[start:end]` that `utf8.DecodeLastRuneInString`
hands to `DecodeRuneInString`, computed on the reversed string: it steps back
over at most three bytes looking for one that is not a continuation byte. -/
def lastRuneSegment : Bytes → Nat
  | _ :: b1 :: rest =>
    if isCont b1 = false then 2
    else match rest with
      | b2 :: rest2 =>
        if isCont b2 = false then 3
        else match rest2 with
          | b3 :: rest3 =>
            if isCont b3 = false then 4
            else match rest3 with
              | [] => 4
              | _ :: _ => 5
          | [] => 3
      | [] => 2
  | _ => 1

/-- `utf8.DecodeLastRuneInString` on the reversed string `rev`: the last rune
and its width. -/
def DecodeLastRune (rev : Bytes) : Nat × Nat :=
  match rev with
  | [] => (RuneError, 0)
  | r :: _ =>
    if r < 0x80 then (r, 1)
    else
      let n := lastRuneSegment rev
      let d := DecodeRune (rev.take n).reverse
      if d.2 ≠ n then (RuneError, 1) else d

/-- The table `asciiSpace` of package `strings`. -/
def asciiSpace (c : Nat) : Bool :=
  decide (c = 9 ∨ c = 10 ∨ c = 11 ∨ c = 12 ∨ c = 13 ∨ c = 32)

/-- `unicode.IsSpace`. -/
def IsSpace (r : Nat) : Bool :=
  if r ≤ 0xFF then
    decide (r = 9 ∨ r = 10 ∨ r = 11 ∨ r = 12 ∨ r = 13 ∨ r = 32 ∨ r = 0x85 ∨ r = 0xA0)
  else
    decide (r = 0x1680 ∨ (0x2000 ≤ r ∧ r ≤ 0x200a) ∨ r = 0x2028 ∨ r = 0x2029
      ∨ r = 0x202f ∨ r = 0x205f ∨ r = 0x3000)

/-- `strings.TrimLeftFunc(s, unicode.IsSpace)`; the first argument counts the
bytes of the current rune still to skip. -/
def TrimLeftFunc : Nat → Bytes → Bytes
  | _, [] => []
  | k + 1, _ :: t => TrimLeftFunc k t
  | 0, c :: t =>
    let d := DecodeRune (c :: t)
    if IsSpace d.1 then TrimLeftFunc (d.2 - 1) t else c :: t

/-- The loop of `lastIndexFunc(s, unicode.IsSpace, false)` on the reversed
string: the index at which the last rune that is not a space starts, or `none`
for -1. -/
def lastIndexNotSpace : Nat → Bytes → Option Nat
  | _, [] => none
  | k + 1, _ :: t => lastIndexNotSpace k t
  | 0, c :: t =>
    let d := DecodeLastRune (c :: t)
    if IsSpace d.1 then lastIndexNotSpace (d.2 - 1) t
    else some ((c :: t).length - d.2)

/-- `strings.TrimRightFunc(s, unicode.IsSpace)`. -/
def TrimRightFunc (s : Bytes) : Bytes :=
  match lastIndexNotSpace 0 s.reverse with
  | none => []
  | some i =>
    if 0x80 ≤ (s.drop i).headD 0 then s.take (i + (DecodeRune (s.drop i)).2)
    else s.take (i + 1)

/-- The second loop of `strings.TrimSpace`, on the reversed rest of the
string. -/
def trimSpaceRight : Bytes → Bytes
  | [] => []
  | c :: t =>
    if 0x80 ≤ c then (TrimRightFunc (c :: t).reverse).reverse
    else if asciiSpace c then trimSpaceRight t
    else c :: t

/-- `strings.TrimSpace`. -/
def TrimSpace : Bytes → Bytes
  | [] => []
  | c :: t =>
    if 0x80 ≤ c then TrimRightFunc (TrimLeftFunc 0 (c :: t))
    else if asciiSpace c then TrimSpace t
    else (trimSpaceRight (c :: t).reverse).reverse

/-- `strings.Split(s, sep)` and `bytes.Split(s, sep)` for a one-byte `sep`. -/
def Split (sep : Nat) : Bytes → List Bytes
  | [] => [[]]
  | c :: t =>
    if c = sep then [] :: Split sep t
    else match Split sep t with
      | w :: ws => (c :: w) :: ws
      | [] => [[c]]

/-- `strings.ReplaceAll(s, "\n", " ")`. -/
def ReplaceNL (s : Bytes) : Bytes := s.map (fun c => if c = 10 then 32 else c)

/-- The values `byte(ch)` that `for _, ch := range str` yields: one per rune,
the rune truncated to its low eight bits; the first argument counts the bytes
of the current rune still to skip. -/
def rangeBytes : Nat → Bytes → Bytes
  | _, [] => []
  | k + 1, _ :: t => rangeBytes k t
  | 0, c :: t =>
    let d := DecodeRune (c :: t)
    (d.1 % 256) :: rangeBytes (d.2 - 1) t

/-- A decimal digit, `'0'` to `'9'`. -/
def isDigit (b : Nat) : Bool := decide (48 ≤ b ∧ b ≤ 57)

/-- Value of a string of decimal digits, most significant first. -/
def digitsVal (ds : Bytes) : Nat := ds.foldl (fun n d => n * 10 + (d - 48)) 0

/-- `strconv.Atoi` on a 64-bit platform: the value and whether an error is
returned with it.  A syntax error returns 0; a range error returns the nearest
bound. -/
def Atoi (s : Bytes) : Int × Bool :=
  let neg := s.head? = some 45
  let ds := if s.head? = some 45 ∨ s.head? = some 43 then s.tail else s
  if ds = [] ∨ ¬ (ds.all isDigit = true) then (0, false)
  else
    let n := digitsVal ds
    if neg then
      if n ≤ 2 ^ 63 then (- (n : Int), true) else (- (2 ^ 63 : Int), false)
    else
      if n < 2 ^ 63 then ((n : Int), true) else ((2 ^ 63 - 1 : Int), false)

/-- The decimal digits of a natural number, with fuel. -/
def natDigits : Nat → Nat → Bytes
  | 0, _ => []
  | f + 1, n => if n < 10 then [48 + n] else natDigits f (n / 10) ++ [48 + n % 10]

/-- `strconv.Itoa`, also what `fmt` prints for the verb d. -/
def Itoa (v : Int) : Bytes :=
  match v with
  | .ofNat n => natDigits (n + 1) n
  | .negSucc n => 45 :: natDigits (n + 2) (n + 1)

/-- What `fmt` prints for a verb d with a zero flag and a width `w`
(as in 010d): zeros after the sign, up to the width. -/
def padInt (w : Nat) (v : Int) : Bytes :=
  match v with
  | .ofNat n =>
    let ds := natDigits (n + 1) n
    List.replicate (w - ds.length) 48 ++ ds
  | .negSucc n =>
    let ds := natDigits (n + 2) (n + 1)
    45 :: (List.replicate (w - 1 - ds.length) 48 ++ ds)

/-! ## The lookahead classifier (`pdf.go` lines 1097-1238) -/

/-- `func (p *PDF) isNumber(str string) bool`. -/
def isNumber (str : Bytes) : Bool :=
  let str := if (B "-").isPrefixOf str then str.drop 1 else str
  (rangeBytes 0 str).all isDigit

/-- `func (p *PDF) isHex(str string) bool`. -/
def isHex (str : Bytes) : Bool :=
  let str := if (B "<").isPrefixOf str then str.drop 1 else str
  let str := if (B ">").isSuffixOf str then str.take (str.length - 1) else str
  (rangeBytes 0 str).all (fun b => isDigit b || decide (97 ≤ b ∧ b ≤ 102))

/-- The decisions of `detectType` on the first word alone, from the test
for `<<` on. -/
def classifyWord (w0 : Bytes) : ElementType :=
  if w0 = B "<<" then .Dict
  else if w0 = B ">>" then .CmdEndDict
  else if w0 = B "endobj" then .CmdEndObj
  else if (B "stream").isPrefixOf w0 then .Stream
  else if (B "[").isPrefixOf w0 then .Array
  else if (B "/").isPrefixOf w0 then .Name
  else if (B "]").isSuffixOf w0 then .CmdEndArray
  else if (B "(").isPrefixOf w0 then .String
  else if (B "<").isPrefixOf w0 && isHex w0 then .HexString
  else if w0 = B "xref" then .Xref
  else if w0 = B "trailer" then .Trailer
  else if w0 = B "%%EOF" then .EOF
  else .Unkown

/-- The third word when there are three words or more and the first two pass
`isNumber`: what `detectType` compares with `R` and `obj`. -/
def thirdWord (words : List Bytes) : Option Bytes :=
  match words with
  | w0 :: w1 :: w2 :: _ => if isNumber w0 && isNumber w1 then some w2 else none
  | _ => none

/-- The decisions of `detectType` once the window is split into `words`. -/
def classify (words : List Bytes) : ElementType :=
  match words with
  | [] => .Unkown
  | w0 :: ws =>
    if thirdWord (w0 :: ws) = some (B "R") then .ObjRef
    else if thirdWord (w0 :: ws) = some (B "obj") then .Obj
    else if isNumber w0 then .Num
    else classifyWord w0

/-- `func (p *PDF) detectType() int` on `p.bytes`. -/
def detectType (bytes : Bytes) : ElementType :=
  let buf := TrimSpace (ReplaceNL (bytes.take 20))
  if buf = [] then .Unkown else classify (Split 32 buf)

/-! ## Read primitives (`pdf.go` lines 1289-1375)

Each takes `p.bytes` and returns its result with the new `p.bytes`. -/

/-- The loop of `skipSpace`: `none` when the input ends before a byte that is
neither a space nor a newline. -/
def skipSpaceLoop : Bytes → Option Bytes
  | [] => none
  | b :: t => if b = 32 ∨ b = 10 then skipSpaceLoop t else some (b :: t)

/-- `func (p *PDF) skipSpace()`: leaves `p.bytes` alone when it returns early
at the end of input. -/
def skipSpace (s : Bytes) : Bytes :=
  match skipSpaceLoop s with
  | none => s
  | some r => r

/-- The loop of `readString`: the bytes before the first space or newline and
the input from that delimiter on; `none` at the end of input. -/
def readStringLoop : Bytes → Option (Bytes × Bytes)
  | [] => none
  | b :: t =>
    if b = 32 ∨ b = 10 then some ([], b :: t)
    else match readStringLoop t with
      | some (w, r) => some (b :: w, r)
      | none => none

/-- `func (p *PDF) readString() (string, error)`. -/
def readString (s : Bytes) : Except String Bytes × Bytes :=
  let s1 := skipSpace s
  match readStringLoop s1 with
  | none => (.error "EOF", s1)
  | some (w, r) => (.ok w, r)

/-- The loop `for b == ' '` of `readInt`. -/
def skipBlanks : Bytes → Option Bytes
  | [] => none
  | b :: t => if b = 32 then skipBlanks t else some (b :: t)

/-- The loop of `readInt` over digits and `-`. -/
def readDigits : Bytes → Option (Bytes × Bytes)
  | [] => none
  | b :: t =>
    if isDigit b = true ∨ b = 45 then
      match readDigits t with
      | some (w, r) => some (b :: w, r)
      | none => none
    else some ([], b :: t)

/-- `func (p *PDF) readInt() (int, error)`: the value, whether the error is
nil, and the new `p.bytes`. -/
def readInt (s : Bytes) : (Int × Bool) × Bytes :=
  let s1 := skipSpace s
  match skipBlanks s1 with
  | none => ((0, false), s1)
  | some s2 =>
    match readDigits s2 with
    | none => ((0, false), s1)
    | some (buf, rest) => (Atoi buf, rest)

/-- The loop of `readHeader`: the bytes before the first newline and the input
after it. -/
def readHeaderLoop : Bytes → Option (Bytes × Bytes)
  | [] => none
  | b :: t =>
    if b = 10 then some ([], t)
    else match readHeaderLoop t with
      | some (w, r) => some (b :: w, r)
      | none => none

/-- The second loop of `readXString`: the bytes up to and including the first
closing parenthesis. -/
def readXStringLoop : Bytes → Option (Bytes × Bytes)
  | [] => none
  | b :: t =>
    if b = 41 then some ([b], t)
    else match readXStringLoop t with
      | some (w, r) => some (b :: w, r)
      | none => none

/-- `func (p *PDF) readXString() (string, error)`. -/
def readXString (s : Bytes) : Except String Bytes × Bytes :=
  match skipSpace s with
  | [] => (.error "EOF", [])
  | b :: t =>
    match readXStringLoop t with
    | none => (.error "EOF", b :: t)
    | some (w, r) => (.ok (b :: w), r)

/-! ## The parser (`pdf.go` lines 607-1049, 1267-1287) -/

/-- `func (p *PDF) readObjRef() (*Obj, error)`. -/
def readObjRef (s : Bytes) : Res (Value × Bytes) :=
  match readInt s with
  | ((_, false), s1) => .ok (.ref 0 0, s1)
  | ((id, true), s1) =>
    match readInt s1 with
    | ((_, false), _) => .err "strconv.Atoi"
    | ((gid, true), s2) =>
      match readString s2 with
      | (.error e, _) => .err e
      | (.ok str, s3) =>
        if str = B "R" then .ok (.ref id gid, s3) else .err "expect R"

/-- The loop of `readHexString` that looks for `>`: the byte index of the first
rune `ch` with `byte(ch) == '>'`, 0 when there is none. -/
def indexGT : Nat → Nat → Bytes → Nat
  | _, _, [] => 0
  | k + 1, i, _ :: t => indexGT k (i + 1) t
  | 0, i, c :: t =>
    if (DecodeRune (c :: t)).1 % 256 = 62 then i
    else indexGT ((DecodeRune (c :: t)).2 - 1) (i + 1) t

/-- `func (p *PDF) readHexString() (string, error)`. -/
def readHexString (s : Bytes) : Res (Bytes × Bytes) :=
  match readString s with
  | (.error e, _) => .err e
  | (.ok hex, s1) =>
    if (B "<").isPrefixOf hex then
      let idx := indexGT 0 0 hex
      .ok (hex.take (idx + 1), hex.drop (idx + 1) ++ s1)
    else .err "expect hex string: <"

/-- The loop of `readArray`. -/
def readArrayLoop : Nat → Bytes → List Value → Res (List Value × Bytes)
  | 0, _, _ => .fuel
  | fuel + 1, s, list =>
    match detectType s with
    | .Name =>
      match readString s with
      | (.error e, _) => .err e
      | (.ok str, s1) =>
        if (B "]").isSuffixOf str then
          .ok (list ++ [.name (str.take (str.length - 1))], s1)
        else readArrayLoop fuel s1 (list ++ [.name str])
    | .Num =>
      match readInt s with
      | ((_, false), _) => .err "strconv.Atoi"
      | ((v, true), s1) => readArrayLoop fuel s1 (list ++ [.int v])
    | .ObjRef =>
      match readObjRef s with
      | .ok (obj, s1) => readArrayLoop fuel s1 (list ++ [obj])
      | .err e => .err e
      | .crash e => .crash e
      | .fuel => .fuel
    | .HexString =>
      match readHexString s with
      | .ok (hex, s1) => readArrayLoop fuel s1 (list ++ [.str hex])
      | .err e => .err e
      | .crash e => .crash e
      | .fuel => .fuel
    | .CmdEndArray =>
      match readString s with
      | (.error e, _) => .err e
      | (.ok str, s1) =>
        if str = [] then .crash "slice bounds out of range"
        else
          let str := str.take (str.length - 1)
          if str = [] then .ok (list, s1)
          else if isNumber str then
            match Atoi str with
            | (_, false) => .err "strconv.Atoi"
            | (v, true) => .ok (list ++ [.int v], s1)
          else if (B "/").isPrefixOf str then .ok (list ++ [.name str], s1)
          else .crash "unknown array end typ"
    | _ => .crash "unknown typ"

/-- `func (p *PDF) readArray() ([]interface{}, error)`. -/
def readArray (fuel : Nat) (s : Bytes) : Res (List Value × Bytes) :=
  match skipSpace s with
  | [] => .crash "index out of range"
  | ch :: t =>
    if ch ≠ 91 then .err "expect [" else readArrayLoop fuel t []

/-- Go's `s[n:]`: `none` is the panic for `n > len(s)`. -/
def sliceFrom (s : Bytes) (n : Nat) : Option Bytes :=
  if n ≤ s.length then some (s.drop n) else none

/-- The loop of `readStream` over the lines after the first: every line
before one that is exactly `endstream`, each followed by a newline. -/
def readStreamLoop : List Bytes → Bytes
  | [] => []
  | line :: lines =>
    if line.length = 9 ∧ line = B "endstream" then []
    else line ++ [10] ++ readStreamLoop lines

/-- `func (p *PDF) readStream() (*Stream, error)`. -/
def readStream (s : Bytes) : Res (Stream × Bytes) :=
  match Split 10 s with
  | [] => .err "expect multi lines"
  | line :: lines =>
    if (B "stream").isPrefixOf line then .err "expect stream"
    else
      match sliceFrom s (line.length + 1) with
      | none => .crash "slice bounds out of range"
      | some s1 =>
        let buf := readStreamLoop lines
        if buf = [] then .crash "slice bounds out of range"
        else
          let buf := buf.take (buf.length - 1)
          match sliceFrom s1 (buf.length + 1) with
          | none => .crash "slice bounds out of range"
          | some s2 =>
            match sliceFrom s2 (9 + 1) with
            | none => .crash "slice bounds out of range"
            | some s3 => .ok (⟨buf⟩, s3)

/-- The loop of `readDict`; a nested dictionary is read by `readDict` itself,
which is `readString` for the opening `<<` followed by this loop. -/
def readDictLoop : Nat → Bytes → List Pair → Res (List Pair × Bytes)
  | 0, _, _ => .fuel
  | fuel + 1, s, dict =>
    match detectType s with
    | .CmdEndDict => .ok (dict, (readString s).2)
    | .Name =>
      match readString s with
      | (.error e, _) => .err e
      | (.ok key, s1) =>
        match detectType s1 with
        | .Name =>
          match readString s1 with
          | (.error e, _) => .err e
          | (.ok value, s2) => readDictLoop fuel s2 (dict ++ [(key, .name value)])
        | .Dict =>
          match readString s1 with
          | (.error e, _) => .err e
          | (.ok start, s2) =>
            if start ≠ B "<<" then .err "expect <<"
            else
              match readDictLoop fuel s2 [] with
              | .ok (value, s3) => readDictLoop fuel s3 (dict ++ [(key, .dict value)])
              | .err e => .err e
              | .crash e => .crash e
              | .fuel => .fuel
        | .ObjRef =>
          match readObjRef s1 with
          | .ok (value, s2) => readDictLoop fuel s2 (dict ++ [(key, value)])
          | .err e => .err e
          | .crash e => .crash e
          | .fuel => .fuel
        | .Array =>
          match readArray fuel s1 with
          | .ok (value, s2) => readDictLoop fuel s2 (dict ++ [(key, .array value)])
          | .err e => .err e
          | .crash e => .crash e
          | .fuel => .fuel
        | .Num =>
          match readInt s1 with
          | ((_, false), _) => .err "strconv.Atoi"
          | ((value, true), s2) => readDictLoop fuel s2 (dict ++ [(key, .int value)])
        | .String =>
          match readXString s1 with
          | (.error e, _) => .err e
          | (.ok value, s2) => readDictLoop fuel s2 (dict ++ [(key, .str value)])
        | _ => .crash "unknown type"
    | _ => .err "expect /Name object"

/-- `func (p *PDF) readDict() ([]*Pair, error)`. -/
def readDict (fuel : Nat) (s : Bytes) : Res (List Pair × Bytes) :=
  match readString s with
  | (.error e, _) => .err e
  | (.ok start, s1) =>
    if start ≠ B "<<" then .err "expect <<" else readDictLoop fuel s1 []

/-- The zero value `&Obj{}`. -/
def Obj.zero : Obj := ⟨0, 0, [], none, [], .Obj, 0⟩

/-- The loop of `readObjects`, after the header `<id> <gen> obj`. -/
def readObjectsLoop : Nat → Bytes → Obj → Res (Obj × Bytes)
  | 0, _, _ => .fuel
  | fuel + 1, s, obj =>
    match detectType s with
    | .Dict =>
      match readDict fuel s with
      | .ok (dict, s1) => readObjectsLoop fuel s1 { obj with Dict := dict }
      | .err e => .err e
      | .crash e => .crash e
      | .fuel => .fuel
    | .CmdEndObj => .ok (obj, (readString s).2)
    | .Stream =>
      match readStream s with
      | .ok (stream, s1) => readObjectsLoop fuel s1 { obj with Stream := some stream }
      | .err e => .err e
      | .crash e => .crash e
      | .fuel => .fuel
    | .Array =>
      match readArray fuel s with
      | .ok (array, s1) => readObjectsLoop fuel s1 { obj with Array := array }
      | .err e => .err e
      | .crash e => .crash e
      | .fuel => .fuel
    | .Num =>
      match readInt (skipSpace s) with
      | ((_, false), _) => .err "strconv.Atoi"
      | ((v, true), s1) => readObjectsLoop fuel s1 { obj with Int := v, typ := .Num }
    | _ => .crash "unknown typ"

/-- `func (p *PDF) readObjects() error`: the object read and the new
`p.bytes`; the caller appends the object to `p.Objects`. -/
def readObjects (fuel : Nat) (s : Bytes) : Res (Obj × Bytes) :=
  match readInt (skipSpace s) with
  | ((_, false), _) => .err "strconv.Atoi"
  | ((id, true), s1) =>
    match readInt s1 with
    | ((_, false), _) => .err "strconv.Atoi"
    | ((gid, true), s2) =>
      match readString s2 with
      | (.error e, _) => .err e
      | (.ok str, s3) =>
        if str ≠ B "obj" then .err "expect obj"
        else readObjectsLoop fuel s3 { Obj.zero with ID := id, GenID := gid }

/-- The inner loop of `readXref`: `n` entries are still to read for the
subsection that starts at `id`, the next has index `i`. -/
def readXrefEntries : Nat → Int → Int → Bytes → List XrefItem → List XrefItem × Bytes
  | 0, _, _, s, list => (list, s)
  | n + 1, id, i, s, list =>
    let offset := readInt (skipSpace s)
    let gid := readInt (skipSpace offset.2)
    let flag := readString gid.2
    let item : XrefItem :=
      ⟨id + i, offset.1.1, gid.1.1, match flag.1 with | .ok f => f | .error _ => []⟩
    readXrefEntries n id (i + 1) flag.2 (list ++ [item])

/-- The outer loop of `readXref`. -/
def readXrefLoop : Nat → Bytes → List XrefItem → Res (List XrefItem × Bytes)
  | 0, _, _ => .fuel
  | fuel + 1, s, list =>
    match readInt (skipSpace s) with
    | ((_, false), s1) => .ok (list, s1)
    | ((id, true), s1) =>
      match readInt (skipSpace s1) with
      | ((_, false), _) => .err "strconv.Atoi"
      | ((cnt, true), s2) =>
        let r := readXrefEntries cnt.toNat id 0 s2 list
        readXrefLoop fuel r.2 r.1

/-- `func (p *PDF) readXref() error`: the new `p.Xref` and `p.bytes`. -/
def readXref (fuel : Nat) (s : Bytes) : Res (List XrefItem × Bytes) :=
  match readString s with
  | (.error e, _) => .err e
  | (.ok start, s1) =>
    if start ≠ B "xref" then .err "expect xref" else readXrefLoop fuel s1 []

/-- `func (p *PDF) readTrailer() error`: the new `p.Trailer` and `p.bytes`. -/
def readTrailer (fuel : Nat) (s : Bytes) : Res (Trailer × Bytes) :=
  match readString (skipSpace s) with
  | (.error e, _) => .err e
  | (.ok str, s1) =>
    if str ≠ B "trailer" then .err "expect trailer"
    else
      match readDict fuel s1 with
      | .err e => .err e
      | .crash e => .crash e
      | .fuel => .fuel
      | .ok (dict, s2) =>
        match readString (skipSpace s2) with
        | (.error e, _) => .err e
        | (.ok str, s3) =>
          if str ≠ B "startxref" then .err "expect startxref"
          else
            match readInt (skipSpace s3) with
            | ((_, false), _) => .err "strconv.Atoi"
            | ((offset, true), s4) => .ok (⟨dict, offset⟩, s4)

/-- The loop of `Parse`. -/
def ParseLoop : Nat → PDF → Res PDF
  | 0, _ => .fuel
  | fuel + 1, p =>
    match detectType p.bytes with
    | .Obj =>
      match readObjects fuel p.bytes with
      | .ok (obj, s) => ParseLoop fuel { p with bytes := s, Objects := p.Objects ++ [obj] }
      | .err e => .err e
      | .crash e => .crash e
      | .fuel => .fuel
    | .Xref =>
      match readXref fuel p.bytes with
      | .ok (list, s) => ParseLoop fuel { p with bytes := s, Xref := list }
      | .err e => .err e
      | .crash e => .crash e
      | .fuel => .fuel
    | .Trailer =>
      match readTrailer fuel p.bytes with
      | .ok (trailer, s) => ParseLoop fuel { p with bytes := s, Trailer := some trailer }
      | .err e => .err e
      | .crash e => .crash e
      | .fuel => .fuel
    | .EOF => .ok p
    | _ => .crash "unknown type"

/-- `func (p *PDF) Parse() error`, with the state `p` it leaves. -/
def Parse (fuel : Nat) (p : PDF) : Res PDF :=
  match readHeaderLoop p.bytes with
  | none => .err "EOF"
  | some (header, rest) => ParseLoop fuel { p with bytes := rest, Header := header }

/-- The receiver `&PDF{bytes: bytes}` that `ReadFromFile` builds. -/
def PDF.ofBytes (bytes : Bytes) : PDF := ⟨bytes, [], [], [], none⟩

/-! ## The image re-encoders (`image.go`) -/

/-- The decoders and encoders of the Go image libraries that `image.go` calls;
`none` is a returned error.  A decoded image is kept as a byte list. -/
structure Codec where
  imageDecode : Bytes → Option Bytes
  jpegEncode : Bytes → Option Bytes
  tiffDecode : Bytes → Option Bytes
  tiffEncode : Bytes → Option Bytes

/-- `func CompressImage(data []byte) []byte`. -/
def CompressImage (c : Codec) (data : Bytes) : Bytes :=
  match c.imageDecode data with
  | none => data
  | some img =>
    match c.jpegEncode img with
    | none => data
    | some buf => if buf.length > data.length then data else buf

/-- `func (p *PDF) getNameObjByKey(dict []*Pair, key string) *NameObj`. -/
def getNameObjByKey : List Pair → Bytes → Option Bytes
  | [], _ => none
  | pair :: rest, key =>
    if pair.Key = key then
      match pair.Value with
      | .name n => some n
      | _ => getNameObjByKey rest key
    else getNameObjByKey rest key

/-- `func (p *PDF) getObjRefByKey(dict []*Pair, key string) *Obj`: the `ID`
and `GenID` of the reference found. -/
def getObjRefByKey : List Pair → Bytes → Option (Int × Int)
  | [], _ => none
  | pair :: rest, key =>
    if pair.Key = key then
      match pair.Value with
      | .ref id gen => some (id, gen)
      | _ => getObjRefByKey rest key
    else getObjRefByKey rest key

/-- `func (p *PDF) updateImageObjLen(obj *Obj, size int)`, on `obj.Dict`. -/
def updateImageObjLen : List Pair → Int → List Pair
  | [], _ => []
  | pair :: rest, size =>
    if pair.Key = B "/Length" then (pair.Key, .int size) :: rest
    else pair :: updateImageObjLen rest size

/-- `func (p *PDF) updateObjLen(obj *Obj, size int)`, on `p.Objects`; `key` is
the `ID` and `GenID` of `obj`. -/
def updateObjLen : List Obj → Int × Int → Int → List Obj
  | [], _, _ => []
  | v :: rest, key, size =>
    if v.ID = key.1 ∧ v.GenID = key.2 then { v with Int := size } :: rest
    else v :: updateObjLen rest key size

/-- `func (p *PDF) compressTIFFObj(obj *Obj)`: it returns at once, the code
after the `return` is never run. -/
def compressTIFFObj (objects : List Obj) (_i : Nat) : List Obj := objects

/-- The lines `buf := obj.Stream.body; if bytes.HasPrefix(buf, []byte("stream"))
{ buf = buf[8:] }` of `SaveImage`, `compressImageObj` and `compressTIFFObj`;
`none` is the panic of `buf[8:]` on a body shorter than 8 bytes. -/
def stripStreamLine (body : Bytes) : Option Bytes :=
  if (B "stream").isPrefixOf body then sliceFrom body 8 else some body

/-- The body of the loop of `compressImageObj` for the object at index `i` of
`p.Objects`: the new `p.Objects`. -/
def compressImageStep (c : Codec) (objects : List Obj) (i : Nat) : Res (List Obj) :=
  match objects.get? i with
  | none => .ok objects
  | some obj =>
    if obj.IsImageStream then
      match getNameObjByKey obj.Dict (B "/Filter") with
      | none => .crash "nil pointer dereference"
      | some filter =>
        if filter = B "/CCITTFaxDecode" then .ok (compressTIFFObj objects i)
        else
          let body := match obj.Stream with | some st => st.body | none => []
          match stripStreamLine body with
          | none => .crash "slice bounds out of range"
          | some buf =>
            let data := CompressImage c buf
            let newBody := B "stream\r\n" ++ data
            let newLen : Int := ((newBody.length : Nat) : Int) - 8
            let obj1 : Obj := { obj with Stream := some ⟨newBody⟩ }
            match getObjRefByKey obj.Dict (B "/Length") with
            | some lenObj => .ok (updateObjLen (objects.set i obj1) lenObj newLen)
            | none =>
              .ok (objects.set i { obj1 with Dict := updateImageObjLen obj.Dict newLen })
    else .ok objects

/-- The loop of `compressImageObj`: `n` objects are still to visit, the next
has index `i`. -/
def compressImageLoop (c : Codec) : Nat → Nat → List Obj → Res (List Obj)
  | 0, _, objects => .ok objects
  | n + 1, i, objects =>
    match compressImageStep c objects i with
    | .ok objects1 => compressImageLoop c n (i + 1) objects1
    | .err e => .err e
    | .crash e => .crash e
    | .fuel => .fuel

/-- `func (p *PDF) compressImageObj() error`. -/
def compressImageObj (c : Codec) (p : PDF) : Res PDF :=
  match compressImageLoop c p.Objects.length 0 p.Objects with
  | .ok objects => .ok { p with Objects := objects }
  | .err e => .err e
  | .crash e => .crash e
  | .fuel => .fuel

/-! ## The writer (`pdf.go` lines 318-605)

Each `write...` function returns the bytes it appends to the buffer `w`. -/

/-- `func (p *PDF) writeObjRef(w *bytes.Buffer, obj *Obj) error`. -/
def writeObjRef (id gen : Int) : Bytes := Itoa id ++ [32] ++ Itoa gen ++ B " R"

/-- The loop of `writeArray`: an item is followed by a space unless it is the
last; an item of another type than `int`, `*Obj`, `*NameObj` and `string`
reaches `log.Fatalf`. -/
def writeArrayItems : List Value → Res Bytes
  | [] => .ok []
  | item :: rest =>
    let sep : Bytes := if rest.isEmpty then [] else [32]
    let text : Option Bytes :=
      match item with
      | .int v => some (Itoa v)
      | .ref id gen => some (writeObjRef id gen)
      | .name n => some n
      | .str str => some str
      | _ => none
    match text with
    | none => .crash "array item unknown type"
    | some t =>
      match writeArrayItems rest with
      | .ok r => .ok (t ++ sep ++ r)
      | .err e => .err e
      | .crash e => .crash e
      | .fuel => .fuel

/-- `func (p *PDF) writeArray(w *bytes.Buffer, array []interface{}) error`. -/
def writeArray (array : List Value) : Res Bytes :=
  match writeArrayItems array with
  | .ok items => .ok (B "[ " ++ items ++ B " ]")
  | .err e => .err e
  | .crash e => .crash e
  | .fuel => .fuel

/-- Framing of `writeDict`: `<<`, the text of the pairs, `>>`, each on a line. -/
def dictFrame (pairs : Res Bytes) : Res Bytes :=
  match pairs with
  | .ok t => .ok (B "<<\n" ++ t ++ B ">>\n")
  | .err e => .err e
  | .crash e => .crash e
  | .fuel => .fuel

mutual
/-- What the loop of `writeDict` writes after the key of a pair, by the type
of the pair's value; a nested dictionary is written by `writeDict` itself. -/
def writeValue : Value → Res Bytes
  | .name n => .ok ([32] ++ n ++ [10])
  | .dict subDict =>
    match dictFrame (writePairs subDict) with
    | .ok t => .ok ([10] ++ t)
    | .err e => .err e
    | .crash e => .crash e
    | .fuel => .fuel
  | .ref id gen => .ok ([32] ++ writeObjRef id gen ++ [10])
  | .array array =>
    match writeArray array with
    | .ok t => .ok ([32] ++ t ++ [10])
    | .err e => .err e
    | .crash e => .crash e
    | .fuel => .fuel
  | .int v => .ok ([32] ++ Itoa v ++ [10])
  | .str str => .ok ([32] ++ str ++ [10])
/-- The loop of `writeDict` over the pairs. -/
def writePairs : List Pair → Res Bytes
  | [] => .ok []
  | (key, value) :: rest =>
    match writeValue value with
    | .ok t =>
      match writePairs rest with
      | .ok r => .ok (key ++ t ++ r)
      | .err e => .err e
      | .crash e => .crash e
      | .fuel => .fuel
    | .err e => .err e
    | .crash e => .crash e
    | .fuel => .fuel
end

/-- `func (p *PDF) writeDict(w *bytes.Buffer, dict []*Pair) error`. -/
def writeDict (dict : List Pair) : Res Bytes := dictFrame (writePairs dict)

/-- `func (p *PDF) writeStream(w *bytes.Buffer, obj *Obj, stream *Stream) error`. -/
def writeStream (stream : Stream) : Bytes := stream.body ++ [10] ++ B "endstream\n"

/-- `func (p *PDF) updateXref(obj *Obj, offset int)`, on `p.Xref`. -/
def updateXref : List XrefItem → Obj → Int → List XrefItem
  | [], _, _ => []
  | item :: rest, obj, offset =>
    if item.ID = obj.ID ∧ item.GID = obj.GenID then { item with Offset := offset } :: rest
    else item :: updateXref rest obj offset

/-- The bytes `writeObj` appends for `obj`. -/
def writeObjBytes (obj : Obj) : Res Bytes :=
  let start := Itoa obj.ID ++ [32] ++ Itoa obj.GenID ++ B " obj" ++ [10]
  let dict : Res Bytes := if obj.Dict.length > 0 then writeDict obj.Dict else .ok []
  let stream : Bytes := match obj.Stream with | some st => writeStream st | none => []
  let num : Bytes := if obj.typ = .Num then Itoa obj.Int ++ [10] else []
  let array : Res Bytes :=
    if obj.Array.length > 0 then
      match writeArray obj.Array with
      | .ok t => .ok (t ++ [10])
      | .err e => .err e
      | .crash e => .crash e
      | .fuel => .fuel
    else .ok []
  match dict with
  | .ok d =>
    match array with
    | .ok a => .ok (start ++ d ++ stream ++ num ++ a ++ B "endobj\n")
    | .err e => .err e
    | .crash e => .crash e
    | .fuel => .fuel
  | .err e => .err e
  | .crash e => .crash e
  | .fuel => .fuel

/-- `func (p *PDF) writeObj(w *bytes.Buffer, obj *Obj) error`: the new buffer
and the new `p.Xref`. -/
def writeObj (w : Bytes) (xref : List XrefItem) (obj : Obj) : Res (Bytes × List XrefItem) :=
  let offset : Int := (w.length : Nat)
  match writeObjBytes obj with
  | .ok t => .ok (w ++ t, updateXref xref obj offset)
  | .err e => .err e
  | .crash e => .crash e
  | .fuel => .fuel

/-- The loop of `SaveFile` over `p.Objects`. -/
def writeObjects : List Obj → Bytes → List XrefItem → Res (Bytes × List XrefItem)
  | [], w, xref => .ok (w, xref)
  | obj :: rest, w, xref =>
    match writeObj w xref obj with
    | .ok (w1, xref1) => writeObjects rest w1 xref1
    | .err e => .err e
    | .crash e => .crash e
    | .fuel => .fuel

/-- The loop of `getXrefSegment`, from index `i` on. -/
def getXrefSegmentLoop (id : Int) : Nat → List XrefItem → List XrefItem
  | _, [] => []
  | i, item :: rest =>
    if item.ID = id + (i : Int) then item :: getXrefSegmentLoop id (i + 1) rest else []

/-- `func (p *PDF) getXrefSegment(list []*XrefItem) []*XrefItem`. -/
def getXrefSegment : List XrefItem → List XrefItem
  | [] => []
  | first :: rest => first :: getXrefSegmentLoop first.ID 1 rest

/-- One line of a cross-reference subsection, `"%010d %05d %s\n"`. -/
def xrefLine (item : XrefItem) : Bytes :=
  padInt 10 item.Offset ++ [32] ++ padInt 5 item.GID ++ [32] ++ item.Flag ++ [10]

/-- `func (p *PDF) writeXrefSegment(w *bytes.Buffer, list []*XrefItem) error`;
`list[0]` is a panic on an empty list. -/
def writeXrefSegment : List XrefItem → Res Bytes
  | [] => .crash "index out of range"
  | first :: rest =>
    .ok (Itoa first.ID ++ [32] ++ Itoa ((first :: rest).length : Nat) ++ [10]
      ++ ((first :: rest).map xrefLine).flatten)

/-- The loop of `writeXref`. -/
def writeXrefLoop : Nat → List XrefItem → Res Bytes
  | _, [] => .ok []
  | 0, _ :: _ => .fuel
  | fuel + 1, item :: rest =>
    let list := getXrefSegment (item :: rest)
    if list.length = 0 then .ok []
    else
      match writeXrefSegment list with
      | .ok t =>
        match writeXrefLoop fuel ((item :: rest).drop list.length) with
        | .ok r => .ok (t ++ r)
        | .err e => .err e
        | .crash e => .crash e
        | .fuel => .fuel
      | .err e => .err e
      | .crash e => .crash e
      | .fuel => .fuel

/-- `func (p *PDF) writeXref(w *bytes.Buffer) error`: the bytes appended and
the new `p.Trailer`; `p.Trailer.StartXref = w.Len()` is a panic when
`p.Trailer` is nil.  Every turn of the loop drops an entry, so `len(p.Xref)`
turns are enough fuel. -/
def writeXref (w : Bytes) (xref : List XrefItem) (trailer : Option Trailer) :
    Res (Bytes × Trailer) :=
  match trailer with
  | none => .crash "nil pointer dereference"
  | some tr =>
    match writeXrefLoop xref.length xref with
    | .ok t => .ok (B "xref\n" ++ t, { tr with StartXref := (w.length : Nat) })
    | .err e => .err e
    | .crash e => .crash e
    | .fuel => .fuel

/-- `func (p *PDF) writeTrailer(w *bytes.Buffer) error`. -/
def writeTrailer (trailer : Trailer) : Res Bytes :=
  match writeDict trailer.Dict with
  | .ok d => .ok (B "trailer\n" ++ d ++ B "startref\n" ++ Itoa trailer.StartXref ++ [10])
  | .err e => .err e
  | .crash e => .crash e
  | .fuel => .fuel

/-- The serialization of `SaveFile`, after the optional mutation pass: the
bytes handed to `os.WriteFile` and the state of `p`. -/
def serialize (p : PDF) : Res (Bytes × PDF) :=
  match writeObjects p.Objects (p.Header ++ [10]) p.Xref with
  | .ok (w1, xref1) =>
    match writeXref w1 xref1 p.Trailer with
    | .ok (x, tr) =>
      match writeTrailer tr with
      | .ok t => .ok (w1 ++ x ++ t ++ B "%%EOF", { p with Xref := xref1, Trailer := some tr })
      | .err e => .err e
      | .crash e => .crash e
      | .fuel => .fuel
    | .err e => .err e
    | .crash e => .crash e
    | .fuel => .fuel
  | .err e => .err e
  | .crash e => .crash e
  | .fuel => .fuel

/-- `func (p *PDF) SaveFile(file string, compress bool) error`: the bytes
written to the file (`os.WriteFile` is taken to succeed) and the state of
`p`. -/
def SaveFile (c : Codec) (p : PDF) (compress : Bool) : Res (Bytes × PDF) :=
  if compress then
    match compressImageObj c p with
    | .ok p1 => serialize p1
    | .err e => .err e
    | .crash e => .crash e
    | .fuel => .fuel
  else serialize p

end Pdf

namespace Pdf

/-! ## Definitions used to state the theorems -/

/-- Index of the first entry of `p.Xref` with the `ID` and `GID` of `obj`, when
there is one: the entry `updateXref` overwrites. -/
def matchIndex : List XrefItem → Obj → Option Nat
  | [], _ => none
  | item :: rest, obj =>
    if item.ID = obj.ID ∧ item.GID = obj.GenID then some 0
    else (matchIndex rest obj).map (· + 1)

/-- No two objects of the list have the same (ID, GenID). -/
def distinctKeys (objects : List Obj) : Prop :=
  objects.Pairwise (fun a b => ¬ (a.ID = b.ID ∧ a.GenID = b.GenID))


/-- Index of the first object of `p.Objects` with the given `ID` and `GenID`,
when there is one: the object `updateObjLen` overwrites. -/
def keyIndex : List Obj → Int × Int → Option Nat
  | [], _ => none
  | v :: rest, key =>
    if v.ID = key.1 ∧ v.GenID = key.2 then some 0
    else (keyIndex rest key).map (· + 1)

/-- The values of the pairs of `dict` whose key is `key`, in order. -/
def valuesOf (dict : List Pair) (key : Bytes) : List Value :=
  (dict.filter (fun pair => decide (pair.Key = key))).map (fun pair => pair.Value)

/-- The list of (ID, GenID) of the objects. -/
def keysOf (objects : List Obj) : List (Int × Int) := objects.map (fun o => (o.ID, o.GenID))

/-! ## Concrete documents -/

/-- Whether an outcome is a value. -/
def Res.isOk {α : Type} : Res α → Bool
  | .ok _ => true
  | _ => false

/-- A codec whose decoders reject every input, so that `CompressImage` and
`CompressTIFFImage` return their argument. -/
def failCodec : Codec := ⟨fun _ => none, fun _ => none, fun _ => none, fun _ => none⟩

/-- A file of two objects; the `stream` keyword of object 2 is on a line of
its own. -/
def fileOwnLine : Bytes :=
  B "%PDF-1.4\n1 0 obj\n<< /Type /Catalog >>\nendobj\n2 0 obj\n<< /Length 4 >>\nstream\nABCD\nendstream\nendobj\nxref\n1 2\n0000000009 00000 n \n0000000045 00000 n \ntrailer\n<< /Size 3 /Root 1 0 R >>\nstartxref\n98\n%%EOF"

/-- The document `Parse` builds from `fileOwnLine`. -/
def docOwnLine : PDF :=
  { bytes := B "\n%%EOF"
    Header := B "%PDF-1.4"
    Objects :=
      [ { Obj.zero with ID := 1, Dict := [(B "/Type", .name (B "/Catalog"))] },
        { Obj.zero with ID := 2, Dict := [(B "/Length", .int 4)],
                        Stream := some ⟨B "stream\nABCD"⟩ } ]
    Xref := [⟨1, 9, 0, B "n"⟩, ⟨2, 45, 0, B "n"⟩]
    Trailer := some ⟨[(B "/Size", .int 3), (B "/Root", .ref 1 0)], 98⟩ }

/-- What `SaveFile` writes for `docOwnLine`. -/
def outOwnLine : Bytes :=
  B "%PDF-1.4\n1 0 obj\n<<\n/Type /Catalog\n>>\nendobj\n2 0 obj\n<<\n/Length 4\n>>\nstream\nABCD\nendstream\nendobj\nxref\n1 2\n0000000009 00000 n\n0000000045 00000 n\ntrailer\n<<\n/Size 3\n/Root 1 0 R\n>>\nstartref\n98\n%%EOF"

/-- The same file with the `stream` keyword of object 2 on the line of the
closing `>>` of its dictionary. -/
def fileSameLine : Bytes :=
  B "%PDF-1.4\n1 0 obj\n<< /Type /Catalog >>\nendobj\n2 0 obj\n<< /Length 4 >> stream\nABCD\nendstream\nendobj\nxref\n1 2\n0000000009 00000 n \n0000000045 00000 n \ntrailer\n<< /Size 3 /Root 1 0 R >>\nstartxref\n98\n%%EOF"

/-- The document `Parse` builds from `fileSameLine`. -/
def docSameLine : PDF :=
  { docOwnLine with
    Objects :=
      [ { Obj.zero with ID := 1, Dict := [(B "/Type", .name (B "/Catalog"))] },
        { Obj.zero with ID := 2, Dict := [(B "/Length", .int 4)],
                        Stream := some ⟨B "ABCD"⟩ } ] }

/-- What `SaveFile` writes for `docSameLine`: the keyword `stream` of object 2
is gone. -/
def outSameLine : Bytes :=
  B "%PDF-1.4\n1 0 obj\n<<\n/Type /Catalog\n>>\nendobj\n2 0 obj\n<<\n/Length 4\n>>\nABCD\nendstream\nendobj\nxref\n1 2\n0000000009 00000 n\n0000000045 00000 n\ntrailer\n<<\n/Size 3\n/Root 1 0 R\n>>\nstartref\n91\n%%EOF"

/-- The two-object scenario of the specification, its objects written as the
specification quotes them: `endstream` and `endobj` share a line. -/
def fileScenario : Bytes :=
  B "%PDF-1.4\n1 0 obj << /Type /Catalog >> endobj\n2 0 obj << /Length 4 >> stream\nABCD\nendstream endobj\nxref\n1 2\n0000000009 00000 n \n0000000045 00000 n \ntrailer\n<< /Size 3 /Root 1 0 R >>\nstartxref\n98\n%%EOF"

/-- The scenario with `endobj` moved to a line of its own. -/
def fileScenarioNL : Bytes :=
  B "%PDF-1.4\n1 0 obj << /Type /Catalog >> endobj\n2 0 obj << /Length 4 >> stream\nABCD\nendstream\nendobj\nxref\n1 2\n0000000009 00000 n \n0000000045 00000 n \ntrailer\n<< /Size 3 /Root 1 0 R >>\nstartxref\n98\n%%EOF"

end Pdf

namespace Pdf

/-! ## Documents with image streams -/

/-- The dictionary of an image stream with the given `/Length` value. -/
def imageDict (len : Value) : List Pair :=
  [(B "/Subtype", .name (B "/Image")), (B "/Filter", .name (B "/DCTDecode")), (B "/Length", len)]

/-- A codec that decodes everything and re-encodes a payload that starts with
the byte `A` to two bytes and any other payload to three. -/
def shareCodec : Codec :=
  ⟨fun data => some data, fun img => if img.head? = some 65 then some [1, 2] else some [1, 2, 3],
    fun _ => none, fun _ => none⟩

/-- A codec that decodes everything and re-encodes to the reversed bytes: as
long as its input. -/
def reverseCodec : Codec :=
  ⟨fun data => some data, fun img => some img.reverse, fun _ => none, fun _ => none⟩

/-- Two image streams whose `/Length` is the same indirect reference `5 0 R`,
and the object `5 0` holding the length 4. -/
def docShare : PDF :=
  { bytes := []
    Header := B "%PDF-1.4"
    Objects :=
      [ { Obj.zero with ID := 1, Dict := imageDict (.ref 5 0),
                        Stream := some ⟨B "stream\r\nABCD"⟩ },
        { Obj.zero with ID := 2, Dict := imageDict (.ref 5 0),
                        Stream := some ⟨B "stream\r\nWXYZ"⟩ },
        { Obj.zero with ID := 5, typ := .Num, Int := 4 } ]
    Xref := []
    Trailer := some ⟨[], 0⟩ }

/-- One image stream with the payload `ABCD` and a literal `/Length`. -/
def docLiteral (len : Int) : PDF :=
  { bytes := []
    Header := B "%PDF-1.4"
    Objects :=
      [ { Obj.zero with ID := 1, Dict := imageDict (.int len),
                        Stream := some ⟨B "stream\r\nABCD"⟩ } ]
    Xref := []
    Trailer := some ⟨[], 0⟩ }

/-- A file with one image stream whose `stream` keyword is on the line of the
closing `>>` of its dictionary. -/
def fileImageSameLine : Bytes :=
  B "%PDF-1.4\n1 0 obj\n<< /Subtype /Image /Filter /DCTDecode /Length 4 >> stream\nABCD\nendstream\nendobj\nxref\n1 1\n0000000009 00000 n \ntrailer\n<< /Size 2 >>\nstartxref\n97\n%%EOF"

/-- The document `Parse` builds from `fileImageSameLine`. -/
def docImageSameLine : PDF :=
  { bytes := B "\n%%EOF"
    Header := B "%PDF-1.4"
    Objects := [ { Obj.zero with ID := 1, Dict := imageDict (.int 4), Stream := some ⟨B "ABCD"⟩ } ]
    Xref := [⟨1, 9, 0, B "n"⟩]
    Trailer := some ⟨[(B "/Size", .int 2)], 97⟩ }

end Pdf

namespace Pdf

/-! ## The dictionaries of the round trip `readDict` after `writeDict` -/

/-- A byte below `0x80` that is not in the table `asciiSpace`. -/
def visible (x : Nat) : Prop := x < 0x80 ∧ asciiSpace x = false

/-- A byte that is a space or a newline: what `skipSpace` skips and where
`readString` stops. -/
def isSep (c : Nat) : Prop := c = 32 ∨ c = 10

/-- The text of an integer: an optional `-` and decimal digits. -/
def isIntText (s : Bytes) : Prop :=
  ∃ ds, ds ≠ [] ∧ (∀ c ∈ ds, isDigit c = true) ∧ (s = ds ∨ s = 45 :: ds)

/-- A Go `int`: between `-2^63` and `2^63 - 1`. -/
def goodInt (v : Int) : Prop := -(2 : Int) ^ 63 ≤ v ∧ v < (2 : Int) ^ 63

/-- An indirect reference the window of `detectType` has room for: `id` and
`gen` are not negative and have at most 7 and 5 decimal digits. -/
def goodRef (id gen : Int) : Prop := 0 ≤ id ∧ id < 10 ^ 7 ∧ 0 ≤ gen ∧ gen < 10 ^ 5

/-- What follows a number on its line cannot make it look like the start of
`<id> <gen> R` or `<id> <gen> obj`: for every prefix of `rest` that the window
may show, if the first word is a number the second is neither `R` nor `obj`. -/
def noRefAhead (rest : Bytes) : Prop :=
  ∀ b, b <+: ReplaceNL rest → ∀ w1 w2 tl, Split 32 b = w1 :: w2 :: tl →
    isNumber w1 = true → w2 ≠ B "R" ∧ w2 ≠ B "obj"

/-- A name token: it begins with `/` and holds no space and no newline. -/
def goodName (n : Bytes) : Prop := n.head? = some 47 ∧ ∀ c ∈ n, c ≠ 32 ∧ c ≠ 10

/-- An array item of the round trip: a name that does not end in `]`, an
integer, or a reference. -/
def goodItem : Value → Prop
  | .name n => goodName n ∧ n.getLast? ≠ some 93
  | .int v => goodInt v
  | .ref id gen => goodRef id gen
  | _ => False

mutual
/-- A value of the round trip: a name, an integer, a reference, a nested
dictionary of the same kind, or an array of items. -/
def goodValue : Value → Prop
  | .name n => goodName n
  | .int v => goodInt v
  | .ref id gen => goodRef id gen
  | .dict d => goodDict d
  | .array a => ∀ i ∈ a, goodItem i
  | .str _ => False
/-- A dictionary of the round trip: every key is a name and every value is
a value of the round trip. -/
def goodDict : List Pair → Prop
  | [] => True
  | (k, v) :: rest => goodName k ∧ goodValue v ∧ goodDict rest
end

/-- The text `writeArray` writes for an item. -/
def itemText : Value → Bytes
  | .int v => Itoa v
  | .ref id gen => writeObjRef id gen
  | .name n => n
  | .str str => str
  | _ => []

/-- The input left in `readArray` before the items `a`: each item followed
by a space, then `]`, a newline and what follows the array. -/
def arrayTail : List Value → Bytes → Bytes
  | [], F => 93 :: 10 :: F
  | i :: r, F => itemText i ++ 32 :: arrayTail r F

/-- A dictionary with every kind of value of the round trip: names, integers,
a duplicate key, a reference, a nested dictionary, arrays. -/
def dictSample : List Pair :=
  [ (B "/Type", .name (B "/Page")),
    (B "/Count", .int 3),
    (B "/Count", .int (-7)),
    (B "/Parent", .ref 12 0),
    (B "/Resources", .dict [(B "/Kids", .array [.name (B "/A"), .int 1, .int 2, .ref 5 0])]),
    (B "/Empty", .array []) ]

end Pdf

namespace Pdf

/-! ## Inputs used to state the theorems on the writer's tables and the parser's productions -/

/-- A document with one image stream whose dictionary has no `/Filter` pair. -/
def docNoFilter : PDF :=
  { bytes := []
    Header := B "%PDF-1.4"
    Objects :=
      [ { Obj.zero with ID := 1,
                        Dict := [(B "/Subtype", .name (B "/Image")), (B "/Length", .int 4)],
                        Stream := some ⟨B "stream\r\nABCD"⟩ } ]
    Xref := [⟨1, 9, 0, B "n"⟩]
    Trailer := some ⟨[(B "/Size", .int 2)], 0⟩ }

/-- A document with one image stream whose `/Filter` is an array of filter
names. -/
def docFilterArray : PDF :=
  { docNoFilter with
    Objects :=
      [ { Obj.zero with ID := 1,
                        Dict := [(B "/Subtype", .name (B "/Image")),
                                 (B "/Filter", .array [.name (B "/ASCII85Decode"),
                                                       .name (B "/DCTDecode")]),
                                 (B "/Length", .int 4)],
                        Stream := some ⟨B "stream\r\nABCD"⟩ } ] }

/-- A file whose cross-reference entry has `-` where the offset belongs. -/
def fileBadOffset : Bytes :=
  B "%PDF-1.4\n1 0 obj\n<< /Type /Catalog >>\nendobj\nxref\n1 1\n- 00000 n \ntrailer\n<< /Size 2 >>\nstartxref\n45\n%%EOF"

/-- The document `Parse` builds from `fileBadOffset`. -/
def docBadOffset : PDF :=
  { bytes := B "\n%%EOF"
    Header := B "%PDF-1.4"
    Objects := [ { Obj.zero with ID := 1, Dict := [(B "/Type", .name (B "/Catalog"))] } ]
    Xref := [⟨1, 0, 0, B "n"⟩]
    Trailer := some ⟨[(B "/Size", .int 2)], 45⟩ }

/-- A file whose object 1 is a lone `-` where a number belongs. -/
def fileMinus : Bytes :=
  B "%PDF-1.4\n1 0 obj\n-\nendobj\nxref\n1 1\n0000000009 00000 n \ntrailer\n<< /Size 2 >>\nstartxref\n24\n%%EOF"

/-- The words of the window of `detectType`: the first 20 bytes at most,
newlines turned into spaces, trimmed, split at spaces. -/
def windowWords (bytes : Bytes) : List Bytes :=
  Split 32 (TrimSpace (ReplaceNL (bytes.take 20)))

/-- The items of an array as they stand in its text, each after one space. -/
def spacedItems : List Value → Bytes
  | [] => []
  | i :: r => 32 :: (itemText i ++ spacedItems r)

/-- The text of an array whose closing `]` follows the last item after a
space. -/
def arraySpaced (a : List Value) : Bytes := 91 :: (spacedItems a ++ [32, 93])

/-- The text of an array whose closing `]` is glued onto the last item. -/
def arrayGlued (a : List Value) : Bytes := 91 :: (spacedItems a ++ [93])

/-- The last item of the list is a name or an integer. -/
def lastNameOrInt (a : List Value) : Prop :=
  match a.getLast? with
  | some (.name _) => True
  | some (.int _) => True
  | _ => False

/-- An array of a name, two integers, a reference and a last integer. -/
def arraySample : List Value := [.name (B "/A"), .int 1, .int (-2), .ref 5 0, .int 7]

/-- An array whose last item is a name. -/
def arraySampleName : List Value := [.int 3, .name (B "/Last")]

end Pdf

namespace Pdf

/-! ## Inputs used to state the theorems on hex strings, the frame of the mutation pass, the trailer and termination -/

/-- A file whose object 1 is an array of one hex string with upper-case
digits. -/
def fileHexUpper : Bytes :=
  B "%PDF-1.4\n1 0 obj\n[ <4E6F> ]\nendobj\nxref\n1 1\n0000000009 00000 n \ntrailer\n<< /Size 2 >>\nstartxref\n35\n%%EOF"

/-- The same file with the digits in lower case. -/
def fileHexLower : Bytes :=
  B "%PDF-1.4\n1 0 obj\n[ <4e6f> ]\nendobj\nxref\n1 1\n0000000009 00000 n \ntrailer\n<< /Size 2 >>\nstartxref\n35\n%%EOF"

/-- The document `Parse` builds from `fileHexLower`. -/
def docHexLower : PDF :=
  { bytes := B "\n%%EOF"
    Header := B "%PDF-1.4"
    Objects := [ { Obj.zero with ID := 1, Array := [.str (B "<4e6f>")] } ]
    Xref := [⟨1, 9, 0, B "n"⟩]
    Trailer := some ⟨[(B "/Size", .int 2)], 35⟩ }

/-- A file with a cross-reference section and no trailer section. -/
def fileNoTrailer : Bytes :=
  B "%PDF-1.4\n1 0 obj\n<< /Type /Catalog >>\nendobj\nxref\n1 1\n0000000009 00000 n \n%%EOF"

/-- The document `Parse` builds from `fileNoTrailer`: its `Trailer` is nil. -/
def docNoTrailer : PDF :=
  { bytes := B "%%EOF"
    Header := B "%PDF-1.4"
    Objects := [ { Obj.zero with ID := 1, Dict := [(B "/Type", .name (B "/Catalog"))] } ]
    Xref := [⟨1, 9, 0, B "n"⟩]
    Trailer := none }

/-- A file with one image stream whose `stream` keyword line ends with a
newline alone. -/
def fileImageLF : Bytes :=
  B "%PDF-1.4\n1 0 obj\n<< /Subtype /Image /Filter /DCTDecode /Length 4 >>\nstream\nABCD\nendstream\nendobj\nxref\n1 1\n0000000009 00000 n \ntrailer\n<< /Size 2 >>\nstartxref\n97\n%%EOF"

/-- The document `Parse` builds from `fileImageLF`. -/
def docImageLF : PDF :=
  { bytes := B "\n%%EOF"
    Header := B "%PDF-1.4"
    Objects :=
      [ { Obj.zero with ID := 1, Dict := imageDict (.int 4),
                        Stream := some ⟨B "stream\nABCD"⟩ } ]
    Xref := [⟨1, 9, 0, B "n"⟩]
    Trailer := some ⟨[(B "/Size", .int 2)], 97⟩ }

/-- The same file with the keyword line ended by carriage return and
newline. -/
def fileImageCRLF : Bytes :=
  B "%PDF-1.4\n1 0 obj\n<< /Subtype /Image /Filter /DCTDecode /Length 4 >>\nstream\r\nABCD\nendstream\nendobj\nxref\n1 1\n0000000009 00000 n \ntrailer\n<< /Size 2 >>\nstartxref\n98\n%%EOF"

/-- The document `Parse` builds from `fileImageCRLF`. -/
def docImageCRLF : PDF :=
  { docImageLF with
    Objects :=
      [ { Obj.zero with ID := 1, Dict := imageDict (.int 4),
                        Stream := some ⟨B "stream\r\nABCD"⟩ } ]
    Trailer := some ⟨[(B "/Size", .int 2)], 98⟩ }

/-- An object the mutation pass has nothing to do with: it is no image
stream, or `getNameObjByKey` finds the name `/CCITTFaxDecode` as its
`/Filter`. -/
def passSkips (o : Obj) : Prop :=
  o.IsImageStream = false ∨ getNameObjByKey o.Dict (B "/Filter") = some (B "/CCITTFaxDecode")

/-- The dictionary of a fax image stream with the given `/Length` value. -/
def faxDict (len : Value) : List Pair :=
  [(B "/Subtype", .name (B "/Image")), (B "/Filter", .name (B "/CCITTFaxDecode")),
    (B "/Length", len)]

/-- A catalog, a fax image stream, an image stream whose `/Length` is the
reference `5 0 R`, and the object `5 0` holding the length. -/
def docMixed : PDF :=
  { bytes := []
    Header := B "%PDF-1.4"
    Objects :=
      [ { Obj.zero with ID := 1, Dict := [(B "/Type", .name (B "/Catalog"))] },
        { Obj.zero with ID := 2, Dict := faxDict (.int 4),
                        Stream := some ⟨B "stream\r\nFAXX"⟩ },
        { Obj.zero with ID := 3, Dict := imageDict (.ref 5 0),
                        Stream := some ⟨B "stream\r\nABCD"⟩ },
        { Obj.zero with ID := 5, typ := .Num, Int := 4 } ]
    Xref := []
    Trailer := some ⟨[], 0⟩ }

/-- What the mutation pass with `shareCodec` makes of `docMixed`: the body of
object 3 and the `Int` of object 5 are new. -/
def docMixedOut : PDF :=
  { docMixed with
    Objects :=
      [ { Obj.zero with ID := 1, Dict := [(B "/Type", .name (B "/Catalog"))] },
        { Obj.zero with ID := 2, Dict := faxDict (.int 4),
                        Stream := some ⟨B "stream\r\nFAXX"⟩ },
        { Obj.zero with ID := 3, Dict := imageDict (.ref 5 0),
                        Stream := some ⟨B "stream\r\n\x01\x02"⟩ },
        { Obj.zero with ID := 5, typ := .Num, Int := 2 } ] }

/-- The input left in `readArray` after the `[ ` of `[ İ 0 R ]`, where the
first word is the two bytes of the rune U+0130, whose low byte is `0`. -/
def loopInput : Bytes :=
  [0xC4, 0xB0] ++ B " 0 R ]\nendobj\nxref\n1 1\n0000000009 00000 n \ntrailer\n<< /Size 2 >>\nstartxref\n35\n%%EOF"

/-- A file whose object 1 is the array `[ İ 0 R ]`. -/
def fileLoop : Bytes := B "%PDF-1.4\n1 0 obj\n[ " ++ loopInput

end Pdf

/-! # Theorems -/

namespace Pdf

/-! ## `IsImageStream` -/

theorem isImageLoop_iff (dict : List Pair) :
    isImageLoop dict = true ↔
      ∃ pair ∈ dict, pair.Key = B "/Subtype" ∧ pair.Value = Value.name (B "/Image") := by
  induction dict with
  | nil => simp [isImageLoop]
  | cons pair rest ih =>
    obtain ⟨k, v⟩ := pair
    unfold isImageLoop
    by_cases hk : k = B "/Subtype"
    · cases v with
      | name n =>
        by_cases hn : n = B "/Image"
        · simp [Pair.Key, Pair.Value, hk, hn]
        · simp [Pair.Key, Pair.Value, hk, hn, ih]
      | _ => simp [Pair.Key, Pair.Value, hk, ih]
    · simp [Pair.Key, Pair.Value, hk, ih]

/-- C10: `IsImageStream` is true exactly for an object that has a stream and
whose dictionary holds a pair with key `/Subtype` and the name `/Image` as
value; so it is false for an object without a stream, and false when every
`/Subtype` pair holds something else than the name `/Image` (another name, or
a value that is not a name). -/
theorem IsImageStream_iff (obj : Obj) :
    (obj.IsImageStream = true ↔
      (obj.Stream ≠ none ∧
        ∃ pair ∈ obj.Dict, pair.Key = B "/Subtype" ∧ pair.Value = Value.name (B "/Image")))
    ∧ (obj.Stream = none → obj.IsImageStream = false)
    ∧ ((∀ pair ∈ obj.Dict, pair.Key = B "/Subtype" → pair.Value ≠ Value.name (B "/Image")) →
        obj.IsImageStream = false) := by
  have key : obj.IsImageStream = true ↔
      (obj.Stream ≠ none ∧
        ∃ pair ∈ obj.Dict, pair.Key = B "/Subtype" ∧ pair.Value = Value.name (B "/Image")) := by
    unfold Obj.IsImageStream
    cases h : obj.Stream with
    | none => simp
    | some st => simp [isImageLoop_iff]
  refine ⟨key, ?_, ?_⟩
  · intro h
    simp [Obj.IsImageStream, h]
  · intro h
    cases hb : obj.IsImageStream with
    | false => rfl
    | true =>
      obtain ⟨_, pair, hm, hk, hv⟩ := key.mp hb
      exact absurd hv (h pair hm hk)

end Pdf

namespace Pdf

/-! ## The writer: offsets and the cross-reference section -/

theorem writeObj_ok_iff (w : Bytes) (xref : List XrefItem) (obj : Obj)
    (r : Bytes × List XrefItem) :
    writeObj w xref obj = .ok r ↔
      ∃ t, writeObjBytes obj = .ok t ∧ r = (w ++ t, updateXref xref obj (w.length : Nat)) := by
  unfold writeObj
  cases h : writeObjBytes obj <;> simp [eq_comm]

theorem writeObjects_cons_ok (obj : Obj) (rest : List Obj) (w : Bytes) (xref : List XrefItem)
    (r : Bytes × List XrefItem) :
    writeObjects (obj :: rest) w xref = .ok r ↔
      ∃ t, writeObjBytes obj = .ok t ∧
        writeObjects rest (w ++ t) (updateXref xref obj (w.length : Nat)) = .ok r := by
  rw [writeObjects]
  cases h : writeObj w xref obj with
  | ok r1 =>
    obtain ⟨t, ht, rfl⟩ := (writeObj_ok_iff w xref obj r1).mp h
    simp [ht]
  | err e =>
    have : ∀ t, writeObjBytes obj ≠ .ok t := by
      intro t ht
      have := (writeObj_ok_iff w xref obj _).mpr ⟨t, ht, rfl⟩
      rw [h] at this
      cases this
    simp [this]
  | crash e =>
    have : ∀ t, writeObjBytes obj ≠ .ok t := by
      intro t ht
      have := (writeObj_ok_iff w xref obj _).mpr ⟨t, ht, rfl⟩
      rw [h] at this
      cases this
    simp [this]
  | fuel =>
    have : ∀ t, writeObjBytes obj ≠ .ok t := by
      intro t ht
      have := (writeObj_ok_iff w xref obj _).mpr ⟨t, ht, rfl⟩
      rw [h] at this
      cases this
    simp [this]

theorem updateXref_get (xref : List XrefItem) (obj : Obj) (offset : Int) (j : Nat) :
    (updateXref xref obj offset).get? j =
      (xref.get? j).map (fun item =>
        if matchIndex xref obj = some j then { item with Offset := offset } else item) := by
  induction xref generalizing j with
  | nil => simp [updateXref]
  | cons item rest ih =>
    unfold updateXref matchIndex
    by_cases hm : item.ID = obj.ID ∧ item.GID = obj.GenID
    · rw [if_pos hm, if_pos hm]
      cases j with
      | zero => simp
      | succ j => cases h : rest.get? j <;> simp [h]
    · rw [if_neg hm, if_neg hm]
      cases j with
      | zero =>
        cases h : matchIndex rest obj <;> simp
      | succ j =>
        simp only [List.get?_cons_succ, ih]
        cases h : matchIndex rest obj <;> simp

theorem matchIndex_updateXref (xref : List XrefItem) (o obj : Obj) (offset : Int) :
    matchIndex (updateXref xref o offset) obj = matchIndex xref obj := by
  induction xref with
  | nil => simp [updateXref]
  | cons item rest ih =>
    unfold updateXref
    by_cases hm : item.ID = o.ID ∧ item.GID = o.GenID
    · rw [if_pos hm]
      simp [matchIndex]
    · rw [if_neg hm]
      simp [matchIndex, ih]

theorem matchIndex_some (xref : List XrefItem) (obj : Obj) (j : Nat)
    (h : matchIndex xref obj = some j) :
    ∃ item, xref.get? j = some item ∧ item.ID = obj.ID ∧ item.GID = obj.GenID := by
  induction xref generalizing j with
  | nil => simp [matchIndex] at h
  | cons item rest ih =>
    unfold matchIndex at h
    by_cases hm : item.ID = obj.ID ∧ item.GID = obj.GenID
    · rw [if_pos hm] at h
      simp at h
      subst h
      exact ⟨item, rfl, hm⟩
    · rw [if_neg hm] at h
      cases h2 : matchIndex rest obj with
      | none => simp [h2] at h
      | some k =>
        simp [h2] at h
        subst h
        obtain ⟨it, h3, h4⟩ := ih k h2
        exact ⟨it, by simpa using h3, h4⟩

/-- Two objects with different (ID, GenID) never overwrite the same entry. -/
theorem matchIndex_ne (xref : List XrefItem) (o obj : Obj) (j : Nat)
    (hne : ¬ (o.ID = obj.ID ∧ o.GenID = obj.GenID))
    (h : matchIndex xref obj = some j) : matchIndex xref o ≠ some j := by
  intro h2
  obtain ⟨it, h3, h4, h5⟩ := matchIndex_some xref obj j h
  obtain ⟨it2, h6, h7, h8⟩ := matchIndex_some xref o j h2
  rw [h3] at h6
  cases h6
  exact hne ⟨h7.symm.trans h4, h8.symm.trans h5⟩

/-- Writing objects whose (ID, GenID) differ from that of `obj` leaves the
entry of `obj` alone. -/
theorem writeObjects_keeps (objects : List Obj) (obj : Obj) (w w1 : Bytes)
    (xref xref1 : List XrefItem) (j : Nat)
    (hne : ∀ o ∈ objects, ¬ (o.ID = obj.ID ∧ o.GenID = obj.GenID))
    (hj : matchIndex xref obj = some j)
    (h : writeObjects objects w xref = .ok (w1, xref1)) :
    xref1.get? j = xref.get? j ∧ matchIndex xref1 obj = some j := by
  induction objects generalizing w xref with
  | nil =>
    simp [writeObjects] at h
    obtain ⟨_, rfl⟩ := h
    exact ⟨rfl, hj⟩
  | cons o rest ih =>
    obtain ⟨t, _, h2⟩ := (writeObjects_cons_ok o rest w xref _).mp h
    have hj2 : matchIndex (updateXref xref o (w.length : Nat)) obj = some j := by
      rw [matchIndex_updateXref]; exact hj
    obtain ⟨h3, h4⟩ := ih (w ++ t) _ (fun o' ho' => hne o' (List.mem_cons_of_mem _ ho')) hj2 h2
    refine ⟨?_, h4⟩
    rw [h3, updateXref_get]
    have : matchIndex xref o ≠ some j :=
      matchIndex_ne xref o obj j (hne o (List.mem_cons_self _ _)) hj
    cases hx : xref.get? j <;> simp [this]

/-- The offsets `SaveFile` records: when the objects have pairwise distinct
(ID, GenID), the entry that matches the object at index `i` ends up with the
length the buffer had when `writeObj` started on that object. -/
theorem writeObjects_offset (objects : List Obj) (w w1 : Bytes)
    (xref xref1 : List XrefItem) (i j : Nat) (obj : Obj)
    (hd : distinctKeys objects)
    (hi : objects.get? i = some obj)
    (hj : matchIndex xref obj = some j)
    (h : writeObjects objects w xref = .ok (w1, xref1)) :
    ∃ pre xref0 t post item,
      writeObjects (objects.take i) w xref = .ok (pre, xref0) ∧
      writeObjBytes obj = .ok t ∧
      w1 = pre ++ t ++ post ∧
      xref.get? j = some item ∧
      xref1.get? j = some { item with Offset := (pre.length : Nat) } := by
  induction objects generalizing w xref i with
  | nil => simp at hi
  | cons o rest ih =>
    obtain ⟨t, ht, h2⟩ := (writeObjects_cons_ok o rest w xref _).mp h
    have hd' := List.pairwise_cons.mp hd
    cases i with
    | zero =>
      simp at hi
      subst hi
      obtain ⟨item, hitem, _⟩ := matchIndex_some xref o j hj
      have hj2 : matchIndex (updateXref xref o (w.length : Nat)) o = some j := by
        rw [matchIndex_updateXref]; exact hj
      have hne : ∀ o' ∈ rest, ¬ (o'.ID = o.ID ∧ o'.GenID = o.GenID) := by
        intro o' ho' hc
        exact hd'.1 o' ho' ⟨hc.1.symm, hc.2.symm⟩
      obtain ⟨h3, _⟩ := writeObjects_keeps rest o (w ++ t) w1 _ xref1 j hne hj2 h2
      obtain ⟨post, hpost⟩ : ∃ post, w1 = w ++ t ++ post := by
        clear h3 hj2 hne hd' hd ih h
        generalize updateXref xref o (w.length : Nat) = x at h2
        generalize w ++ t = u at h2
        induction rest generalizing u x with
        | nil =>
          simp [writeObjects] at h2
          exact ⟨[], by simp [h2.1]⟩
        | cons o2 rest2 ih2 =>
          obtain ⟨t2, _, h5⟩ := (writeObjects_cons_ok o2 rest2 u x _).mp h2
          obtain ⟨post, hp⟩ := ih2 _ _ h5
          exact ⟨t2 ++ post, by simp [hp]⟩
      refine ⟨w, xref, t, post, item, by simp [writeObjects], ht, hpost, hitem, ?_⟩
      rw [h3, updateXref_get, hitem]
      simp [hj]
    | succ i =>
      simp at hi
      have hj2 : matchIndex (updateXref xref o (w.length : Nat)) obj = some j := by
        rw [matchIndex_updateXref]; exact hj
      obtain ⟨pre, xref0, t', post, item, h3, h4, h5, h6, h7⟩ :=
        ih (w ++ t) _ i hd'.2 (by simpa using hi) hj2 h2
      have hne : ¬ (o.ID = obj.ID ∧ o.GenID = obj.GenID) :=
        hd'.1 obj (List.getElem?_mem hi)
      have hno : matchIndex xref o ≠ some j := matchIndex_ne xref o obj j hne hj
      rw [updateXref_get] at h6
      obtain ⟨item0, hitem0, _⟩ := matchIndex_some xref obj j hj
      rw [hitem0] at h6
      simp [hno] at h6
      subst h6
      refine ⟨pre, xref0, t', post, item0, ?_, h4, h5, hitem0, h7⟩
      simp only [List.take_succ_cons]
      exact (writeObjects_cons_ok o _ w xref _).mpr ⟨t, ht, h3⟩

theorem getXrefSegmentLoop_prefix (id : Int) (i : Nat) (list : List XrefItem) :
    ∃ r, list = getXrefSegmentLoop id i list ++ r := by
  induction list generalizing i with
  | nil => exact ⟨[], by simp [getXrefSegmentLoop]⟩
  | cons item rest ih =>
    unfold getXrefSegmentLoop
    by_cases h : item.ID = id + (i : Int)
    · obtain ⟨r, hr⟩ := ih (i + 1)
      exact ⟨r, by rw [if_pos h]; simp [← hr]⟩
    · exact ⟨item :: rest, by rw [if_neg h]; simp⟩

theorem getXrefSegmentLoop_idem (id : Int) (i : Nat) (list : List XrefItem) :
    getXrefSegmentLoop id i (getXrefSegmentLoop id i list) = getXrefSegmentLoop id i list := by
  induction list generalizing i with
  | nil => simp [getXrefSegmentLoop]
  | cons item rest ih =>
    by_cases h : item.ID = id + (i : Int)
    · simp [getXrefSegmentLoop, h, ih]
    · simp [getXrefSegmentLoop, h]

/-- The segment `getXrefSegment` returns for a list that is not empty starts
with the first entry and is a prefix of the list. -/
theorem getXrefSegment_prefix (item : XrefItem) (rest : List XrefItem) :
    ∃ s r, getXrefSegment (item :: rest) = item :: s ∧ item :: rest = (item :: s) ++ r := by
  obtain ⟨r, hr⟩ := getXrefSegmentLoop_prefix item.ID 1 rest
  exact ⟨_, r, rfl, by simp [← hr]⟩

/-- The cross-reference section `writeXref` prints: with `len(p.Xref)` turns
of fuel or more the loop ends, and what it prints is the entries cut, in
order, into segments that are not empty, each printed by `writeXrefSegment`. -/
theorem writeXrefLoop_segments (fuel : Nat) (xref : List XrefItem)
    (hf : xref.length ≤ fuel) :
    ∃ segs : List (List XrefItem), ∃ texts : List Bytes,
      segs.flatten = xref ∧ (∀ s ∈ segs, s ≠ []) ∧
      List.Forall₂ (fun s t => getXrefSegment s = s ∧ writeXrefSegment s = .ok t) segs texts ∧
      writeXrefLoop fuel xref = .ok texts.flatten := by
  induction fuel generalizing xref with
  | zero =>
    have : xref = [] := List.length_eq_zero.mp (Nat.le_zero.mp hf)
    subst this
    exact ⟨[], [], rfl, by simp, List.Forall₂.nil, by simp [writeXrefLoop]⟩
  | succ fuel ih =>
    cases xref with
    | nil => exact ⟨[], [], rfl, by simp, List.Forall₂.nil, by simp [writeXrefLoop]⟩
    | cons item rest =>
      obtain ⟨s, r, hs, hr⟩ := getXrefSegment_prefix item rest
      have hlen : r.length ≤ fuel := by
        have := congrArg List.length hr
        simp at this hf
        omega
      obtain ⟨segs, texts, h1, h2, h3, h4⟩ := ih r hlen
      have hdrop : (item :: rest).drop (item :: s).length = r := by
        rw [hr]; simp
      have hseg : getXrefSegment (item :: s) = item :: s := by
        have h5 : getXrefSegmentLoop item.ID 1 rest = s := by
          have := hs
          simp [getXrefSegment] at this
          exact this
        show item :: getXrefSegmentLoop item.ID 1 s = item :: s
        rw [← h5, getXrefSegmentLoop_idem]
      refine ⟨(item :: s) :: segs,
        (Itoa item.ID ++ [32] ++ Itoa ((item :: s).length : Nat) ++ [10]
          ++ ((item :: s).map xrefLine).flatten) :: texts, ?_, ?_, ?_, ?_⟩
      · simp [h1, hr]
      · intro s' hs'
        rcases List.mem_cons.mp hs' with h | h
        · subst h; simp
        · exact h2 s' h
      · exact List.Forall₂.cons ⟨hseg, rfl⟩ h3
      · rw [writeXrefLoop]
        simp only [hs, hdrop, h4, writeXrefSegment]
        simp

end Pdf

namespace Pdf

theorem serialize_ok (p p' : PDF) (out : Bytes) (h : serialize p = .ok (out, p')) :
    ∃ w1 xref1 tr xb d,
      writeObjects p.Objects (p.Header ++ [10]) p.Xref = .ok (w1, xref1) ∧
      p.Trailer = some tr ∧
      writeXrefLoop xref1.length xref1 = .ok xb ∧
      writeDict tr.Dict = .ok d ∧
      out = w1 ++ (B "xref\n" ++ xb)
        ++ (B "trailer\n" ++ d ++ B "startref\n" ++ Itoa (w1.length : Nat) ++ [10]) ++ B "%%EOF" ∧
      p' = { p with Xref := xref1, Trailer := some { tr with StartXref := (w1.length : Nat) } } := by
  unfold serialize at h
  cases h1 : writeObjects p.Objects (p.Header ++ [10]) p.Xref with
  | ok r =>
    obtain ⟨w1, xref1⟩ := r
    rw [h1] at h
    simp only at h
    unfold writeXref at h
    cases h2 : p.Trailer with
    | none => rw [h2] at h; simp at h
    | some tr =>
      rw [h2] at h
      simp only at h
      cases h3 : writeXrefLoop xref1.length xref1 with
      | ok xb =>
        rw [h3] at h
        simp only at h
        unfold writeTrailer at h
        cases h4 : writeDict tr.Dict with
        | ok d =>
          simp only [h4] at h
          injection h with h
          injection h with h5 h6
          exact ⟨w1, xref1, tr, xb, d, rfl, rfl, h3, h4, h5.symm, h6.symm⟩
        | err e => simp [h4] at h
        | crash e => simp [h4] at h
        | fuel => simp [h4] at h
      | err e => rw [h3] at h; simp at h
      | crash e => rw [h3] at h; simp at h
      | fuel => rw [h3] at h; simp at h
  | err e => rw [h1] at h; simp at h
  | crash e => rw [h1] at h; simp at h
  | fuel => rw [h1] at h; simp at h

theorem compressImageObj_ok (c : Codec) (p q : PDF) (h : compressImageObj c p = .ok q) :
    ∃ objects, compressImageLoop c p.Objects.length 0 p.Objects = .ok objects ∧
      q = { p with Objects := objects } := by
  unfold compressImageObj at h
  cases h1 : compressImageLoop c p.Objects.length 0 p.Objects with
  | ok objects =>
    rw [h1] at h
    injection h with h
    exact ⟨objects, rfl, h.symm⟩
  | err e => rw [h1] at h; simp at h
  | crash e => rw [h1] at h; simp at h
  | fuel => rw [h1] at h; simp at h

/-- What `SaveFile` serializes: `p` itself, or what the mutation pass made
of it. -/
theorem SaveFile_ok (c : Codec) (p p' : PDF) (compress : Bool) (out : Bytes)
    (h : SaveFile c p compress = .ok (out, p')) :
    ∃ q, (if compress = true then compressImageObj c p = .ok q else q = p) ∧
      serialize q = .ok (out, p') := by
  unfold SaveFile at h
  cases compress with
  | false => exact ⟨p, by simp, by simpa using h⟩
  | true =>
    simp only [if_true] at h
    cases h1 : compressImageObj c p with
    | ok q => rw [h1] at h; exact ⟨q, by simp, h⟩
    | err e => rw [h1] at h; simp at h
    | crash e => rw [h1] at h; simp at h
    | fuel => rw [h1] at h; simp at h

theorem writeObjBytes_start (obj : Obj) (t : Bytes) (h : writeObjBytes obj = .ok t) :
    ∃ body, t = (Itoa obj.ID ++ [32] ++ Itoa obj.GenID ++ B " obj" ++ [10]) ++ body := by
  unfold writeObjBytes at h
  simp only at h
  split at h
  · split at h
    · rename_i x1 d hd x2 a ha
      injection h with h
      refine ⟨d ++ ((match obj.Stream with | some st => writeStream st | none => [])
        ++ ((if obj.typ = .Num then Itoa obj.Int ++ [10] else []) ++ (a ++ B "endobj\n"))), ?_⟩
      rw [← h]
      simp only [List.append_assoc]
    all_goals simp at h
  all_goals simp at h

/-- C6: when `SaveFile` writes a document that has a trailer, the output is
the header and objects `w1`, then the cross-reference section that starts with
the keyword `xref`, then the trailer section, whose last line is the decimal
length of `w1` (the byte offset at which that `xref` begins, which is also
what `Trailer.StartXref` is set to), then `%%EOF` at the very end. -/
theorem SaveFile_startxref (c : Codec) (p p' : PDF) (compress : Bool) (out : Bytes)
    (tr : Trailer) (ht : p.Trailer = some tr)
    (h : SaveFile c p compress = .ok (out, p')) :
    ∃ w1 xb d,
      writeObjects p'.Objects (p'.Header ++ [10]) p.Xref = .ok (w1, p'.Xref) ∧
      writeXrefLoop p'.Xref.length p'.Xref = .ok xb ∧
      writeDict tr.Dict = .ok d ∧
      out = w1 ++ (B "xref\n" ++ xb)
        ++ (B "trailer\n" ++ d ++ B "startref\n" ++ Itoa (w1.length : Nat) ++ [10])
        ++ B "%%EOF" ∧
      p'.Trailer = some { tr with StartXref := (w1.length : Nat) } := by
  obtain ⟨q, hq, hs⟩ := SaveFile_ok c p p' compress out h
  obtain ⟨w1, xref1, tr', xb, d, h1, h2, h3, h4, h5, h6⟩ := serialize_ok q p' out hs
  have hq2 : q.Xref = p.Xref ∧ q.Trailer = p.Trailer := by
    cases compress with
    | false => simp at hq; subst hq; exact ⟨rfl, rfl⟩
    | true =>
      simp at hq
      obtain ⟨objects, _, rfl⟩ := compressImageObj_ok c p q hq
      exact ⟨rfl, rfl⟩
  rw [hq2.2, ht] at h2
  cases h2
  subst h6
  refine ⟨w1, xb, d, ?_, h3, h4, h5, rfl⟩
  rw [← hq2.1]
  exact h1

end Pdf

namespace Pdf

theorem writeObjects_matchIndex (objects : List Obj) (obj : Obj) (w w1 : Bytes)
    (xref xref1 : List XrefItem)
    (h : writeObjects objects w xref = .ok (w1, xref1)) :
    matchIndex xref1 obj = matchIndex xref obj := by
  induction objects generalizing w xref with
  | nil =>
    simp [writeObjects] at h
    rw [h.2]
  | cons o rest ih =>
    obtain ⟨t, _, h2⟩ := (writeObjects_cons_ok o rest w xref _).mp h
    rw [ih _ _ h2, matchIndex_updateXref]

/-- C2: when `SaveFile` (with compress=false) writes a document whose objects
have pairwise distinct (ID, GenID), then for the object at any index `i` whose
first matching entry of `p.Xref` is at index `j`: the output is `pre`, the
buffer as it was when `writeObj` started on the object, followed by the line
`<id> <gen> obj` of that object; entry `j` is still the matching entry and
its `Offset` is the length of `pre`; and the cross-reference section, which
follows the objects `w1`, prints the entries as they are then, cut in order
into segments, each entry by `xrefLine`, which starts with that `Offset`. -/
theorem SaveFile_offsets (c : Codec) (p p' : PDF) (out : Bytes) (i j : Nat) (obj : Obj)
    (hd : distinctKeys p.Objects)
    (h : SaveFile c p false = .ok (out, p'))
    (hi : p.Objects.get? i = some obj)
    (hj : matchIndex p.Xref obj = some j) :
    ∃ pre xref0 post item w1 segs texts tail,
      writeObjects (p.Objects.take i) (p.Header ++ [10]) p.Xref = .ok (pre, xref0) ∧
      out = pre ++ (Itoa obj.ID ++ [32] ++ Itoa obj.GenID ++ B " obj" ++ [10]) ++ post ∧
      p'.Xref.get? j = some item ∧ matchIndex p'.Xref obj = some j ∧
      item.Offset = (pre.length : Nat) ∧
      writeObjects p.Objects (p.Header ++ [10]) p.Xref = .ok (w1, p'.Xref) ∧
      out = w1 ++ B "xref\n" ++ texts.flatten ++ tail ∧
      segs.flatten = p'.Xref ∧
      List.Forall₂ (fun s t => writeXrefSegment s = .ok t) segs texts := by
  have hs : serialize p = .ok (out, p') := by simpa [SaveFile] using h
  obtain ⟨w1, xref1, tr, xb, d, h1, h2, h3, h4, h5, h6⟩ := serialize_ok p p' out hs
  obtain ⟨pre, xref0, t, post, item, g1, g2, g3, g4, g5⟩ :=
    writeObjects_offset p.Objects _ w1 p.Xref xref1 i j obj hd hi hj h1
  obtain ⟨body, hbody⟩ := writeObjBytes_start obj t g2
  obtain ⟨segs, texts, k1, _, k3, k4⟩ := writeXrefLoop_segments xref1.length xref1 (le_refl _)
  rw [h3] at k4
  injection k4 with k4
  have hx : p'.Xref = xref1 := by rw [h6]
  refine ⟨pre, xref0, body ++ post ++ (B "xref\n" ++ xb)
      ++ (B "trailer\n" ++ d ++ B "startref\n" ++ Itoa (w1.length : Nat) ++ [10]) ++ B "%%EOF",
    { item with Offset := (pre.length : Nat) }, w1, segs, texts,
    (B "trailer\n" ++ d ++ B "startref\n" ++ Itoa (w1.length : Nat) ++ [10]) ++ B "%%EOF",
    g1, ?_, ?_, ?_, rfl, ?_, ?_, ?_, ?_⟩
  · rw [h5, g3, hbody]
    simp only [List.append_assoc]
  · rw [hx]; exact g5
  · rw [hx, writeObjects_matchIndex _ obj _ _ _ _ h1]; exact hj
  · rw [hx]; exact h1
  · rw [h5, ← k4]
    simp only [List.append_assoc]
  · rw [hx]; exact k1
  · exact k3.imp (fun _ _ hh => hh.2)

end Pdf

namespace Pdf

/-! ## The stream mutation pass -/

theorem CompressImage_length_le (c : Codec) (data : Bytes) :
    (CompressImage c data).length ≤ data.length := by
  unfold CompressImage
  split
  · exact le_refl _
  · split
    · exact le_refl _
    · split
      · exact le_refl _
      · omega

theorem updateObjLen_get (objects : List Obj) (key : Int × Int) (size : Int) (m : Nat) :
    (updateObjLen objects key size)[m]? =
      (objects[m]?).map (fun o =>
        if keyIndex objects key = some m then { o with Int := size } else o) := by
  induction objects generalizing m with
  | nil => simp [updateObjLen]
  | cons v rest ih =>
    unfold updateObjLen keyIndex
    by_cases hm : v.ID = key.1 ∧ v.GenID = key.2
    · rw [if_pos hm, if_pos hm]
      cases m with
      | zero => simp
      | succ m => cases h : rest[m]? <;> simp [h]
    · rw [if_neg hm, if_neg hm]
      cases m with
      | zero => cases h : keyIndex rest key <;> simp
      | succ m =>
        simp only [List.getElem?_cons_succ, ih]
        cases h : keyIndex rest key <;> simp

theorem keyIndex_some (objects : List Obj) (key : Int × Int) (m : Nat)
    (h : keyIndex objects key = some m) :
    ∃ o, objects[m]? = some o ∧ o.ID = key.1 ∧ o.GenID = key.2 := by
  induction objects generalizing m with
  | nil => simp [keyIndex] at h
  | cons v rest ih =>
    unfold keyIndex at h
    by_cases hm : v.ID = key.1 ∧ v.GenID = key.2
    · rw [if_pos hm] at h
      simp at h
      subst h
      exact ⟨v, by simp, hm⟩
    · rw [if_neg hm] at h
      cases h2 : keyIndex rest key with
      | none => simp [h2] at h
      | some k =>
        simp [h2] at h
        subst h
        obtain ⟨o, h3, h4⟩ := ih k h2
        exact ⟨o, by simpa using h3, h4⟩

/-- `keyIndex` only looks at the `ID` and `GenID` of the objects. -/
theorem keyIndex_congr (a b : List Obj) (key : Int × Int)
    (h : a.map (fun o => (o.ID, o.GenID)) = b.map (fun o => (o.ID, o.GenID))) :
    keyIndex a key = keyIndex b key := by
  induction a generalizing b with
  | nil =>
    cases b with
    | nil => rfl
    | cons _ _ => simp at h
  | cons x xs ih =>
    cases b with
    | nil => simp at h
    | cons y ys =>
      simp at h
      obtain ⟨⟨h1, h2⟩, h3⟩ := h
      unfold keyIndex
      rw [h1, h2, ih ys (by simpa using h3)]

theorem keysOf_updateObjLen (objects : List Obj) (key : Int × Int) (size : Int) :
    keysOf (updateObjLen objects key size) = keysOf objects := by
  induction objects with
  | nil => rfl
  | cons v rest ih =>
    unfold updateObjLen
    by_cases hm : v.ID = key.1 ∧ v.GenID = key.2
    · rw [if_pos hm]; simp [keysOf]
    · rw [if_neg hm]
      simp only [keysOf, List.map_cons] at ih ⊢
      rw [ih]

theorem keysOf_set (objects : List Obj) (i : Nat) (o o1 : Obj)
    (hi : objects[i]? = some o) (h1 : o1.ID = o.ID) (h2 : o1.GenID = o.GenID) :
    keysOf (objects.set i o1) = keysOf objects := by
  induction objects generalizing i with
  | nil => rfl
  | cons v rest ih =>
    cases i with
    | zero =>
      simp at hi
      subst hi
      simp [keysOf, h1, h2]
    | succ i =>
      simp at hi
      simp only [keysOf, List.set_cons_succ, List.map_cons] at ih ⊢
      rw [ih i hi]

/-- What one turn of the loop of `compressImageObj` does when it completes:
nothing, or (for an image stream whose `/Filter` is a name other than
`/CCITTFaxDecode`) the replacement of the body and the update of the length. -/
theorem compressImageStep_ok (c : Codec) (objects objects1 : List Obj) (k : Nat)
    (h : compressImageStep c objects k = .ok objects1) :
    objects1 = objects ∨
    ∃ obj filter body buf,
      objects[k]? = some obj ∧ obj.IsImageStream = true ∧
      getNameObjByKey obj.Dict (B "/Filter") = some filter ∧ filter ≠ B "/CCITTFaxDecode" ∧
      obj.Stream = some ⟨body⟩ ∧
      stripStreamLine body = some buf ∧
      ((∃ key, getObjRefByKey obj.Dict (B "/Length") = some key ∧
          objects1 = updateObjLen
            (objects.set k { obj with Stream := some ⟨B "stream\r\n" ++ CompressImage c buf⟩ })
            key ((CompressImage c buf).length : Nat)) ∨
       (getObjRefByKey obj.Dict (B "/Length") = none ∧
          objects1 = objects.set k
            { obj with
              Stream := some ⟨B "stream\r\n" ++ CompressImage c buf⟩,
              Dict := updateImageObjLen obj.Dict ((CompressImage c buf).length : Nat) })) := by
  unfold compressImageStep at h
  cases hk : objects[k]? with
  | none =>
    simp [hk] at h
    exact Or.inl h.symm
  | some obj =>
    simp only [List.get?_eq_getElem?, hk] at h
    by_cases himg : obj.IsImageStream = true
    · simp only [himg, if_true] at h
      cases hf : getNameObjByKey obj.Dict (B "/Filter") with
      | none => simp [hf] at h
      | some filter =>
        simp only [hf] at h
        by_cases hcc : filter = B "/CCITTFaxDecode"
        · simp only [hcc, if_true, compressTIFFObj] at h
          injection h with h
          exact Or.inl h.symm
        · simp only [hcc, if_false] at h
          obtain ⟨body, hbody⟩ : ∃ body, obj.Stream = some ⟨body⟩ := by
            unfold Obj.IsImageStream at himg
            cases hs : obj.Stream with
            | none => simp [hs] at himg
            | some st => exact ⟨st.body, rfl⟩
          simp only [hbody] at h
          cases hbuf : stripStreamLine body with
          | none => simp [hbuf] at h
          | some buf =>
            simp only [hbuf] at h
            have hlen : (((B "stream\r\n" ++ CompressImage c buf).length : Nat) : Int) - 8
                = ((CompressImage c buf).length : Nat) := by
              have : (B "stream\r\n").length = 8 := by decide
              simp [this]
            rw [hlen] at h
            refine Or.inr ⟨obj, filter, body, buf, rfl, himg, hf, hcc, hbody, hbuf, ?_⟩
            cases hr : getObjRefByKey obj.Dict (B "/Length") with
            | some key =>
              simp only [hr] at h
              injection h with h
              exact Or.inl ⟨key, rfl, h.symm⟩
            | none =>
              simp only [hr] at h
              injection h with h
              exact Or.inr ⟨rfl, h.symm⟩
    · simp only [himg] at h
      simp at h
      exact Or.inl h.symm

end Pdf

namespace Pdf

theorem IsImageStream_congr (a b : Obj) (hd : a.Dict = b.Dict) (hs : a.Stream = b.Stream) :
    a.IsImageStream = b.IsImageStream := by
  unfold Obj.IsImageStream
  rw [hd, hs]

/-- Frame of one turn of the loop of `compressImageObj`: no object is added,
removed or moved, every object keeps its `ID` and `GenID`, every object but
the one at index `k` keeps its `Dict` and `Stream`, and an `Int` changes only
on an object whose (ID, GenID) is the `/Length` reference of the object at
index `k`. -/
theorem compressImageStep_frame (c : Codec) (objects objects1 : List Obj) (k : Nat)
    (h : compressImageStep c objects k = .ok objects1) :
    keysOf objects1 = keysOf objects ∧
    ∀ m o, objects[m]? = some o →
      ∃ o1, objects1[m]? = some o1 ∧ o1.ID = o.ID ∧ o1.GenID = o.GenID ∧
        (m ≠ k → o1.Dict = o.Dict ∧ o1.Stream = o.Stream) ∧
        (o1.Int = o.Int ∨
          ∃ ok, objects[k]? = some ok ∧ ok.IsImageStream = true ∧
            getObjRefByKey ok.Dict (B "/Length") = some (o.ID, o.GenID)) := by
  rcases compressImageStep_ok c objects objects1 k h with h1 | h1
  · subst h1
    exact ⟨rfl, fun m o hm => ⟨o, hm, rfl, rfl, fun _ => ⟨rfl, rfl⟩, Or.inl rfl⟩⟩
  · obtain ⟨obj, filter, body, buf, hk, himg, _, _, _, _, h2⟩ := h1
    have hklt : k < objects.length := by
      rcases Nat.lt_or_ge k objects.length with h | h
      · exact h
      · rw [List.getElem?_eq_none h] at hk; cases hk
    rcases h2 with ⟨key, hkey, rfl⟩ | ⟨_, rfl⟩
    · refine ⟨?_, ?_⟩
      · refine Eq.trans (keysOf_updateObjLen _ _ _) (keysOf_set objects k obj _ hk ?_ ?_) <;> rfl
      · intro m o hm
        rw [updateObjLen_get]
        by_cases hmk : m = k
        · subst hmk
          rw [hk] at hm
          cases hm
          simp only [List.getElem?_set_self hklt, Option.map_some']
          split
          · rename_i hidx
            obtain ⟨o', ho', hid, hgen⟩ := keyIndex_some _ _ _ hidx
            simp only [List.getElem?_set_self hklt] at ho'
            cases ho'
            refine ⟨_, rfl, rfl, rfl, fun hne => absurd rfl hne, Or.inr ⟨obj, hk, himg, ?_⟩⟩
            rw [hkey]
            simp only at hid hgen
            exact congrArg some (Prod.ext hid.symm hgen.symm)
          · exact ⟨_, rfl, rfl, rfl, fun hne => absurd rfl hne, Or.inl rfl⟩
        · have hset : (objects.set k
              { obj with Stream := some ⟨B "stream\r\n" ++ CompressImage c buf⟩ })[m]?
              = some o := by
            rw [List.getElem?_set_ne (Ne.symm hmk)]; exact hm
          rw [hset]
          simp only [Option.map_some']
          split
          · rename_i hidx
            obtain ⟨o', ho', hid, hgen⟩ := keyIndex_some _ _ _ hidx
            rw [hset] at ho'
            cases ho'
            refine ⟨_, rfl, rfl, rfl, fun _ => ⟨rfl, rfl⟩, Or.inr ⟨obj, hk, himg, ?_⟩⟩
            rw [hkey]
            exact congrArg some (Prod.ext hid.symm hgen.symm)
          · exact ⟨_, rfl, rfl, rfl, fun _ => ⟨rfl, rfl⟩, Or.inl rfl⟩
    · refine ⟨keysOf_set objects k obj _ hk (by rfl) (by rfl), ?_⟩
      intro m o hm
      by_cases hmk : m = k
      · subst hmk
        rw [hk] at hm
        cases hm
        exact ⟨_, List.getElem?_set_self hklt, rfl, rfl, fun hne => absurd rfl hne, Or.inl rfl⟩
      · refine ⟨o, ?_, rfl, rfl, fun _ => ⟨rfl, rfl⟩, Or.inl rfl⟩
        rw [List.getElem?_set_ne (Ne.symm hmk)]; exact hm

theorem compressImageLoop_succ_ok (c : Codec) (n s : Nat) (objects objects2 : List Obj)
    (h : compressImageLoop c (n + 1) s objects = .ok objects2) :
    ∃ objects1, compressImageStep c objects s = .ok objects1 ∧
      compressImageLoop c n (s + 1) objects1 = .ok objects2 := by
  rw [compressImageLoop] at h
  cases h1 : compressImageStep c objects s with
  | ok objects1 => rw [h1] at h; exact ⟨objects1, rfl, h⟩
  | err e => rw [h1] at h; cases h
  | crash e => rw [h1] at h; cases h
  | fuel => rw [h1] at h; cases h

/-- Frame of `n` turns of the loop of `compressImageObj` from index `s`: an
object outside the indices visited keeps its `Dict` and `Stream`, and an
`Int` is kept on an object to which no object visited refers through
`/Length`. -/
theorem compressImageLoop_frame (c : Codec) (n s : Nat) (objects objects2 : List Obj)
    (h : compressImageLoop c n s objects = .ok objects2) :
    keysOf objects2 = keysOf objects ∧
    ∀ m o, objects[m]? = some o →
      ∃ o2, objects2[m]? = some o2 ∧ o2.ID = o.ID ∧ o2.GenID = o.GenID ∧
        ((m < s ∨ s + n ≤ m) → o2.Dict = o.Dict ∧ o2.Stream = o.Stream) ∧
        ((∀ k ok, s ≤ k → k < s + n → objects[k]? = some ok → ok.IsImageStream = true →
            getObjRefByKey ok.Dict (B "/Length") ≠ some (o.ID, o.GenID)) → o2.Int = o.Int) := by
  induction n generalizing s objects with
  | zero =>
    simp [compressImageLoop] at h
    subst h
    exact ⟨rfl, fun m o hm => ⟨o, hm, rfl, rfl, fun _ => ⟨rfl, rfl⟩, fun _ => rfl⟩⟩
  | succ n ih =>
    obtain ⟨objects1, h1, h2⟩ := compressImageLoop_succ_ok c n s objects objects2 h
    obtain ⟨hk1, hf1⟩ := compressImageStep_frame c objects objects1 s h1
    obtain ⟨hk2, hf2⟩ := ih (s + 1) objects1 h2
    refine ⟨hk2.trans hk1, ?_⟩
    intro m o hm
    obtain ⟨o1, hm1, hid1, hgen1, hds1, hint1⟩ := hf1 m o hm
    obtain ⟨o2, hm2, hid2, hgen2, hds2, hint2⟩ := hf2 m o1 hm1
    refine ⟨o2, hm2, hid2.trans hid1, hgen2.trans hgen1, ?_, ?_⟩
    · intro hout
      have hne : m ≠ s := by omega
      obtain ⟨a1, a2⟩ := hds1 hne
      obtain ⟨b1, b2⟩ := hds2 (by omega)
      exact ⟨b1.trans a1, b2.trans a2⟩
    · intro hno
      have hi2 : o2.Int = o1.Int := by
        apply hint2
        intro k ok hk hk' hget himgk
        obtain ⟨ok0, hget0⟩ : ∃ ok0, objects[k]? = some ok0 := by
          have hlen : objects1.length = objects.length := by
            have := congrArg List.length hk1
            simpa [keysOf] using this
          have : k < objects1.length := by
            rcases Nat.lt_or_ge k objects1.length with h | h
            · exact h
            · rw [List.getElem?_eq_none h] at hget; cases hget
          exact ⟨objects[k], List.getElem?_eq_getElem (by omega)⟩
        obtain ⟨ok1, hget1, _, _, hds, _⟩ := hf1 k ok0 hget0
        rw [hget] at hget1
        cases hget1
        rw [(hds (by omega)).1, hid1, hgen1]
        refine hno k ok0 (by omega) (by omega) hget0 ?_
        rw [← IsImageStream_congr ok ok0 (hds (by omega)).1 (hds (by omega)).2]
        exact himgk
      rw [hi2]
      rcases hint1 with h | ⟨ok, hok, himgs, href⟩
      · exact h
      · exact absurd href (hno s ok (le_refl _) (by omega) hok himgs)

theorem compressImageLoop_add_ok (c : Codec) (a b s : Nat) (objects objects2 : List Obj)
    (h : compressImageLoop c (a + b) s objects = .ok objects2) :
    ∃ objects1, compressImageLoop c a s objects = .ok objects1 ∧
      compressImageLoop c b (s + a) objects1 = .ok objects2 := by
  induction a generalizing s objects with
  | zero => exact ⟨objects, by simp [compressImageLoop], by simpa using h⟩
  | succ a ih =>
    have h' : compressImageLoop c ((a + b) + 1) s objects = .ok objects2 := by
      rw [show a + b + 1 = a + 1 + b by omega]; exact h
    obtain ⟨o1, h1, h2⟩ := compressImageLoop_succ_ok c (a + b) s objects objects2 h'
    obtain ⟨o2, h3, h4⟩ := ih (s + 1) o1 h2
    refine ⟨o2, ?_, ?_⟩
    · rw [compressImageLoop, h1]; exact h3
    · rw [show s + (a + 1) = s + 1 + a by omega]; exact h4

end Pdf

namespace Pdf

/-- The pass seen from index `i`: the turns before it leave the object at `i`
as it was (but for its `Int`), then comes its own turn, and the turns after
it. -/
theorem compressImageLoop_at (c : Codec) (objects objects2 : List Obj) (i : Nat) (obj : Obj)
    (h : compressImageLoop c objects.length 0 objects = .ok objects2)
    (hi : objects[i]? = some obj) :
    ∃ mid0 mid1 o0,
      compressImageLoop c i 0 objects = .ok mid0 ∧
      compressImageStep c mid0 i = .ok mid1 ∧
      compressImageLoop c (objects.length - i - 1) (i + 1) mid1 = .ok objects2 ∧
      mid0[i]? = some o0 ∧ o0.Dict = obj.Dict ∧ o0.Stream = obj.Stream ∧
      o0.ID = obj.ID ∧ o0.GenID = obj.GenID := by
  have hlt : i < objects.length := by
    rcases Nat.lt_or_ge i objects.length with h | h
    · exact h
    · rw [List.getElem?_eq_none h] at hi; cases hi
  have h' : compressImageLoop c (i + (1 + (objects.length - i - 1))) 0 objects = .ok objects2 := by
    rw [show i + (1 + (objects.length - i - 1)) = objects.length by omega]; exact h
  obtain ⟨mid0, h1, h2⟩ := compressImageLoop_add_ok c i _ 0 objects objects2 h'
  simp only [Nat.zero_add] at h2
  have h2' : compressImageLoop c ((objects.length - i - 1) + 1) i mid0 = .ok objects2 := by
    rw [show objects.length - i - 1 + 1 = 1 + (objects.length - i - 1) by omega]; exact h2
  obtain ⟨mid1, h3, h4⟩ := compressImageLoop_succ_ok c _ i mid0 objects2 h2'
  obtain ⟨_, hf⟩ := compressImageLoop_frame c i 0 objects mid0 h1
  obtain ⟨o0, g1, g2, g3, g4, _⟩ := hf i obj hi
  obtain ⟨g5, g6⟩ := g4 (Or.inr (by omega))
  exact ⟨mid0, mid1, o0, h1, h3, h4, g1, g5, g6, g2, g3⟩

theorem stripStreamLine_crlf (P : Bytes) :
    stripStreamLine (B "stream\r\n" ++ P) = some P := by
  have h1 : (B "stream").isPrefixOf (B "stream\r\n" ++ P) = true := by
    rw [List.isPrefixOf_iff_prefix]
    exact ⟨[13, 10] ++ P, by rfl⟩
  unfold stripStreamLine
  rw [if_pos h1]
  have : (B "stream\r\n").length = 8 := by decide
  unfold sliceFrom
  rw [if_pos (by simp [this])]
  rw [← this, List.drop_left]

theorem valuesOf_cons (pair : Pair) (rest : List Pair) (key : Bytes) :
    valuesOf (pair :: rest) key =
      if pair.Key = key then pair.Value :: valuesOf rest key else valuesOf rest key := by
  unfold valuesOf
  by_cases h : pair.Key = key
  · simp [List.filter_cons, h]
  · simp [List.filter_cons, h]

theorem getObjRefByKey_of_values_ref (dict : List Pair) (key : Bytes) (id gen : Int)
    (h : valuesOf dict key = [.ref id gen]) : getObjRefByKey dict key = some (id, gen) := by
  induction dict with
  | nil => simp [valuesOf] at h
  | cons pair rest ih =>
    rw [valuesOf_cons] at h
    unfold getObjRefByKey
    by_cases hk : pair.Key = key
    · rw [if_pos hk] at h
      rw [if_pos hk]
      injection h with h1 h2
      rw [h1]
    · rw [if_neg hk] at h
      rw [if_neg hk]
      exact ih h

theorem getObjRefByKey_of_values_int (dict : List Pair) (key : Bytes) (n : Int)
    (h : valuesOf dict key = [.int n]) : getObjRefByKey dict key = none := by
  induction dict with
  | nil => rfl
  | cons pair rest ih =>
    rw [valuesOf_cons] at h
    unfold getObjRefByKey
    by_cases hk : pair.Key = key
    · rw [if_pos hk] at h
      rw [if_pos hk]
      injection h with h1 h2
      rw [h1]
      simp only
      have hnone : ∀ d : List Pair, valuesOf d key = [] → getObjRefByKey d key = none := by
        intro d
        induction d with
        | nil => intro _; rfl
        | cons q r ihd =>
          intro hq
          rw [valuesOf_cons] at hq
          unfold getObjRefByKey
          by_cases hqk : q.Key = key
          · rw [if_pos hqk] at hq; cases hq
          · rw [if_neg hqk] at hq; rw [if_neg hqk]; exact ihd hq
      exact hnone rest h2
    · rw [if_neg hk] at h
      rw [if_neg hk]
      exact ih h

theorem valuesOf_updateImageObjLen (dict : List Pair) (n size : Int)
    (h : valuesOf dict (B "/Length") = [.int n]) :
    valuesOf (updateImageObjLen dict size) (B "/Length") = [.int size] := by
  induction dict with
  | nil => simp [valuesOf] at h
  | cons pair rest ih =>
    rw [valuesOf_cons] at h
    unfold updateImageObjLen
    by_cases hk : pair.Key = B "/Length"
    · rw [if_pos hk] at h
      rw [if_pos hk, valuesOf_cons]
      injection h with h1 h2
      simp [Pair.Key, Pair.Value, h2, hk]
    · rw [if_neg hk] at h
      rw [if_neg hk, valuesOf_cons, if_neg hk]
      exact ih h

/-- The turn of the loop of `compressImageObj` for an image stream whose
`/Filter` is a name other than `/CCITTFaxDecode` and whose body yields the
payload `buf`. -/
theorem compressImageStep_image (c : Codec) (objects : List Obj) (i : Nat) (obj : Obj)
    (filter body buf : Bytes)
    (hi : objects[i]? = some obj)
    (himg : obj.IsImageStream = true)
    (hf : getNameObjByKey obj.Dict (B "/Filter") = some filter)
    (hne : filter ≠ B "/CCITTFaxDecode")
    (hbody : obj.Stream = some ⟨body⟩)
    (hbuf : stripStreamLine body = some buf) :
    compressImageStep c objects i = .ok
      (match getObjRefByKey obj.Dict (B "/Length") with
        | some key =>
          updateObjLen
            (objects.set i { obj with Stream := some ⟨B "stream\r\n" ++ CompressImage c buf⟩ })
            key ((CompressImage c buf).length : Nat)
        | none =>
          objects.set i
            { obj with
              Stream := some ⟨B "stream\r\n" ++ CompressImage c buf⟩,
              Dict := updateImageObjLen obj.Dict ((CompressImage c buf).length : Nat) }) := by
  have hlen : (((B "stream\r\n" ++ CompressImage c buf).length : Nat) : Int) - 8
      = ((CompressImage c buf).length : Nat) := by
    have : (B "stream\r\n").length = 8 := by decide
    simp [this]
  unfold compressImageStep
  simp only [List.get?_eq_getElem?, hi, himg, if_true, hf, hne, if_false, hbody, hbuf, hlen]
  cases getObjRefByKey obj.Dict (B "/Length") <;> rfl

/-- The effect of `compressImageObj` on an image stream whose `/Filter` is a
name other than `/CCITTFaxDecode` and whose body yields the payload `buf`: the
body becomes `stream\r\n` and the re-encoded payload; the dictionary is kept
when `/Length` is found as a reference, and else its first `/Length` pair is
set to the new length; the object that a `/Length` reference points to gets
the new length as its `Int`, and keeps it when no later object refers to it
through `/Length`. -/
theorem compressImageObj_at (c : Codec) (p p' : PDF) (i : Nat) (obj : Obj)
    (filter body buf : Bytes)
    (h : compressImageObj c p = .ok p')
    (hi : p.Objects[i]? = some obj)
    (himg : obj.IsImageStream = true)
    (hf : getNameObjByKey obj.Dict (B "/Filter") = some filter)
    (hne : filter ≠ B "/CCITTFaxDecode")
    (hbody : obj.Stream = some ⟨body⟩)
    (hbuf : stripStreamLine body = some buf) :
    ∃ obj', p'.Objects[i]? = some obj' ∧
      obj'.Stream = some ⟨B "stream\r\n" ++ CompressImage c buf⟩ ∧
      (getObjRefByKey obj.Dict (B "/Length") ≠ none → obj'.Dict = obj.Dict) ∧
      (getObjRefByKey obj.Dict (B "/Length") = none →
        obj'.Dict = updateImageObjLen obj.Dict ((CompressImage c buf).length : Nat)) ∧
      (∀ key m, getObjRefByKey obj.Dict (B "/Length") = some key →
        keyIndex p.Objects key = some m →
        (∀ k ok, i < k → p.Objects[k]? = some ok → ok.IsImageStream = true →
          getObjRefByKey ok.Dict (B "/Length") ≠ some key) →
        ∃ o, p'.Objects[m]? = some o ∧ o.Int = ((CompressImage c buf).length : Nat)) := by
  obtain ⟨objects2, hloop, rfl⟩ := compressImageObj_ok c p p' h
  obtain ⟨mid0, mid1, o0, h1, h2, h3, g1, g2, g3, g4, g5⟩ :=
    compressImageLoop_at c p.Objects objects2 i obj hloop hi
  obtain ⟨hk0, hf0⟩ := compressImageLoop_frame c i 0 p.Objects mid0 h1
  obtain ⟨hk3, hf3⟩ := compressImageLoop_frame c _ (i + 1) mid1 objects2 h3
  have himg0 : o0.IsImageStream = true := by
    rw [IsImageStream_congr o0 obj g2 g3]; exact himg
  have hilt : i < mid0.length := by
    rcases Nat.lt_or_ge i mid0.length with h | h
    · exact h
    · rw [List.getElem?_eq_none h] at g1; cases g1
  have hstep := compressImageStep_image c mid0 i o0 filter body buf g1 himg0
    (by rw [g2]; exact hf) hne (by rw [g3]; exact hbody) hbuf
  rw [h2] at hstep
  injection hstep with hstep
  have hrefeq : getObjRefByKey o0.Dict (B "/Length") = getObjRefByKey obj.Dict (B "/Length") := by
    rw [g2]
  -- the object at `i` right after its own turn
  have hmid1 : ∃ o1, mid1[i]? = some o1 ∧
      o1.Stream = some ⟨B "stream\r\n" ++ CompressImage c buf⟩ ∧
      (getObjRefByKey obj.Dict (B "/Length") ≠ none → o1.Dict = obj.Dict) ∧
      (getObjRefByKey obj.Dict (B "/Length") = none →
        o1.Dict = updateImageObjLen obj.Dict ((CompressImage c buf).length : Nat)) := by
    cases hr : getObjRefByKey obj.Dict (B "/Length") with
    | some key =>
      rw [hrefeq.trans hr] at hstep
      simp only at hstep
      rw [hstep, updateObjLen_get, List.getElem?_set_self hilt]
      simp only [Option.map_some']
      split
      · exact ⟨_, rfl, rfl, fun _ => g2, fun hc => by cases hc⟩
      · exact ⟨_, rfl, rfl, fun _ => g2, fun hc => by cases hc⟩
    | none =>
      rw [hrefeq.trans hr] at hstep
      simp only at hstep
      rw [hstep, List.getElem?_set_self hilt]
      exact ⟨_, rfl, rfl, fun hc => absurd rfl hc, fun _ => by simp only; rw [g2]⟩
  obtain ⟨o1, e1, e2, e3, e4⟩ := hmid1
  obtain ⟨o2, f1, _, _, f4, _⟩ := hf3 i o1 e1
  obtain ⟨f5, f6⟩ := f4 (Or.inl (by omega))
  refine ⟨o2, f1, f6.trans e2, fun hc => f5.trans (e3 hc), fun hc => f5.trans (e4 hc), ?_⟩
  intro key m hkey hm hlater
  rw [hrefeq.trans hkey] at hstep
  simp only at hstep
  have hkmid : keysOf (mid0.set i
      { o0 with Stream := some ⟨B "stream\r\n" ++ CompressImage c buf⟩ }) = keysOf p.Objects :=
    (keysOf_set mid0 i o0 _ g1 (by rfl) (by rfl)).trans hk0
  have hm0 : keyIndex (mid0.set i
      { o0 with Stream := some ⟨B "stream\r\n" ++ CompressImage c buf⟩ }) key = some m := by
    rw [keyIndex_congr _ p.Objects key hkmid]; exact hm
  obtain ⟨om, hom, hid, hgen⟩ := keyIndex_some _ _ _ hm0
  have hm1 : mid1[m]? = some { om with Int := ((CompressImage c buf).length : Nat) } := by
    rw [hstep, updateObjLen_get, hom]
    simp [hm0]
  obtain ⟨o3, r1, _, _, _, r5⟩ := hf3 m _ hm1
  refine ⟨o3, r1, ?_⟩
  rw [r5]
  intro k ok hk hk' hget himgk
  simp only
  rw [hid, hgen]
  -- the dictionary of a later object is still the one it had in `p`
  have hklt : k < p.Objects.length := by
    have hlen1 : mid1.length = p.Objects.length := by
      have e := congrArg List.length hkmid
      rw [hstep]
      have e2 := congrArg List.length (keysOf_updateObjLen (mid0.set i
        { o0 with Stream := some ⟨B "stream\r\n" ++ CompressImage c buf⟩ }) key
        ((CompressImage c buf).length : Nat))
      simp only [keysOf, List.length_map] at e e2
      omega
    rcases Nat.lt_or_ge k mid1.length with h | h
    · omega
    · rw [List.getElem?_eq_none h] at hget; cases hget
  have hk0' : p.Objects[k]? = some p.Objects[k] := List.getElem?_eq_getElem hklt
  obtain ⟨a0, a1, _, _, a4, _⟩ := hf0 k _ hk0'
  obtain ⟨a5, a6⟩ := a4 (Or.inr (by omega))
  obtain ⟨_, hfs⟩ := compressImageStep_frame c mid0 mid1 i h2
  obtain ⟨b0, b1, _, _, b4, _⟩ := hfs k a0 a1
  obtain ⟨b5, b6⟩ := b4 (by omega)
  rw [hget] at b1
  cases b1
  rw [b5, a5]
  have := hlater k _ (by omega) hk0' (by
    rw [← IsImageStream_congr ok _ (b5.trans a5) (b6.trans a6)]; exact himgk)
  intro hc
  exact this (hc.trans (congrArg some (Prod.ext rfl rfl)))

end Pdf

namespace Pdf

/-! ## The documents of the scenarios, evaluated -/

set_option maxRecDepth 100000

/-- Witness of C2: `docOwnLine` has distinct object keys and is written as
`outOwnLine`; the entry of object 2 holds the offset at which `2 0 obj`
starts. -/
theorem SaveFile_offsets_witness :
    distinctKeys docOwnLine.Objects ∧
    SaveFile failCodec docOwnLine false = .ok (outOwnLine, docOwnLine) ∧
    ∃ pre post item,
      outOwnLine = pre ++ B "2 0 obj\n" ++ post ∧
      docOwnLine.Xref.get? 1 = some item ∧ item.Offset = (pre.length : Nat) := by
  have hd : distinctKeys docOwnLine.Objects := by
    simp [distinctKeys, docOwnLine, Obj.zero]
  refine ⟨hd, rfl, ?_⟩
  obtain ⟨pre, _, post, item, _, _, _, _, _, h2, h3, _, h5, _⟩ :=
    SaveFile_offsets failCodec docOwnLine docOwnLine outOwnLine 1 1
      { Obj.zero with ID := 2, Dict := [(B "/Length", .int 4)],
                      Stream := some ⟨B "stream\nABCD"⟩ }
      hd rfl rfl rfl
  exact ⟨pre, post, item, h2, h3, h5⟩

/-- Witness of C6: `docOwnLine` has a trailer and is written as `outOwnLine`,
which is 98 bytes of header and objects, the cross-reference section, and a
trailer section that ends with the line `98` before `%%EOF`. -/
theorem SaveFile_startxref_witness :
    SaveFile failCodec docOwnLine false = .ok (outOwnLine, docOwnLine) ∧
    ∃ w1 xb d,
      outOwnLine = w1 ++ (B "xref\n" ++ xb)
        ++ (B "trailer\n" ++ d ++ B "startref\n" ++ Itoa (w1.length : Nat) ++ [10])
        ++ B "%%EOF" := by
  refine ⟨rfl, ?_⟩
  obtain ⟨w1, xb, d, _, _, _, h, _⟩ :=
    SaveFile_startxref failCodec docOwnLine docOwnLine false outOwnLine
      ⟨[(B "/Size", .int 3), (B "/Root", .ref 1 0)], 98⟩ rfl rfl
  exact ⟨w1, xb, d, h⟩

/-- C1 (the code fails it): `fileOwnLine` parses to `docOwnLine`, `SaveFile`
with compress=false writes it as `outOwnLine`, and `Parse` on `outOwnLine`
returns the error `expect startxref` (whatever the fuel, it never succeeds):
`writeTrailer` writes the keyword `startref` and `readTrailer` expects
`startxref`. -/
theorem roundtrip_fails_startref :
    (∀ n, Parse (n + 9) (PDF.ofBytes fileOwnLine) = .ok docOwnLine) ∧
    SaveFile failCodec docOwnLine false = .ok (outOwnLine, docOwnLine) ∧
    (∀ n, Parse (n + 9) (PDF.ofBytes outOwnLine) = .err "expect startxref") ∧
    (∀ fuel, (Parse fuel (PDF.ofBytes outOwnLine)).isOk = false) :=
  ⟨fun _ => rfl, rfl, fun _ => rfl,
    fun fuel => match fuel with
      | 0 => rfl | 1 => rfl | 2 => rfl | 3 => rfl | 4 => rfl | 5 => rfl | 6 => rfl
      | 7 => rfl | 8 => rfl | _ + 9 => rfl⟩

/-- C8 (the code fails it): `fileSameLine` parses to `docSameLine`, whose
object 2 has the stream payload `ABCD` as its body, and `writeObj` emits for
it the dictionary followed at once by the payload, with no keyword `stream`;
for `docOwnLine`, parsed from the same file with the keyword on its own line,
the keyword is part of the body and is written. -/
theorem stream_keyword_lost :
    (∀ n, Parse (n + 9) (PDF.ofBytes fileSameLine) = .ok docSameLine) ∧
    (docSameLine.Objects.get? 1).map (fun o => o.Stream) = some (some ⟨B "ABCD"⟩) ∧
    (docSameLine.Objects.get? 1).map (fun o => (writeObjBytes o).isOk) = some true ∧
    (docSameLine.Objects.get? 1).map writeObjBytes
      = some (.ok (B "2 0 obj\n<<\n/Length 4\n>>\n" ++ B "ABCD" ++ B "\nendstream\nendobj\n")) ∧
    (∀ n, Parse (n + 9) (PDF.ofBytes fileOwnLine) = .ok docOwnLine) ∧
    (docOwnLine.Objects.get? 1).map writeObjBytes
      = some (.ok (B "2 0 obj\n<<\n/Length 4\n>>\n" ++ B "stream\n" ++ B "ABCD"
          ++ B "\nendstream\nendobj\n")) :=
  ⟨fun _ => rfl, rfl, rfl, rfl, fun _ => rfl, rfl⟩

/-- C9 (the code fails it): on the scenario document `Parse` stops with a
slice-bounds panic in `readStream`, which finds no line that is exactly
`endstream`; with `endobj` moved to its own line `Parse` succeeds, object 2
has the body `ABCD`, and `SaveFile` writes object 2 without the keyword
`stream`. -/
theorem scenario_parse_crashes :
    (∀ n, Parse (n + 5) (PDF.ofBytes fileScenario) = .crash "slice bounds out of range") ∧
    (∀ fuel, (Parse fuel (PDF.ofBytes fileScenario)).isOk = false) ∧
    (∀ n, Parse (n + 9) (PDF.ofBytes fileScenarioNL) = .ok docSameLine) ∧
    SaveFile failCodec docSameLine false
      = .ok (outSameLine,
          { docSameLine with
            Trailer := some ⟨[(B "/Size", .int 3), (B "/Root", .ref 1 0)], 91⟩ }) :=
  ⟨fun _ => rfl,
    fun fuel => match fuel with
      | 0 => rfl | 1 => rfl | 2 => rfl | 3 => rfl | 4 => rfl | _ + 5 => rfl,
    fun _ => rfl, rfl⟩

end Pdf

namespace Pdf

set_option maxRecDepth 100000

/-- C3 as stated fails: in `docShare` the first image stream meets every
condition of the claim (an image stream, `/Filter` the name `/DCTDecode`, body
`stream\r\n` and the payload `ABCD`, re-encoded to 2 bytes, `/Length` the
reference `5 0 R`, object `5 0` at index 2), the pass completes, and the `Int`
of object `5 0` is 3, the length the second image stream left there. -/
theorem shared_length_overwritten :
    (docShare.Objects[0]?).map (fun o => (o.IsImageStream,
        getNameObjByKey o.Dict (B "/Filter"), o.Stream, valuesOf o.Dict (B "/Length")))
      = some (true, some (B "/DCTDecode"), some ⟨B "stream\r\n" ++ B "ABCD"⟩, [Value.ref 5 0]) ∧
    CompressImage shareCodec (B "ABCD") = [1, 2] ∧
    keyIndex docShare.Objects (5, 0) = some 2 ∧
    ∃ p', compressImageObj shareCodec docShare = .ok p' ∧
      (p'.Objects[0]?).map (fun o => o.Stream) = some (some ⟨B "stream\r\n" ++ [1, 2]⟩) ∧
      (p'.Objects[2]?).map (fun o => o.Int) = some 3 :=
  ⟨rfl, rfl, rfl, _, rfl, rfl, rfl⟩

/-- C3, amended: for an image stream at index `i` whose `/Filter` is a name
other than `/CCITTFaxDecode` and whose body is `stream\r\n` followed by a
payload `P`, whenever `compressImageObj` completes the body is `stream\r\n`
followed by `CompressImage(P)`; when the one `/Length` pair holds a literal
integer it then holds the length of `CompressImage(P)`; and when it holds a
reference, the first object carrying the referenced (ID, GenID) has that
length as its `Int`, provided no image stream later in `Objects` has a
`/Length` reference to the same (ID, GenID). -/
theorem compressImageObj_length (c : Codec) (p p' : PDF) (i : Nat) (obj : Obj)
    (filter P : Bytes)
    (h : compressImageObj c p = .ok p')
    (hi : p.Objects[i]? = some obj)
    (himg : obj.IsImageStream = true)
    (hf : getNameObjByKey obj.Dict (B "/Filter") = some filter)
    (hne : filter ≠ B "/CCITTFaxDecode")
    (hbody : obj.Stream = some ⟨B "stream\r\n" ++ P⟩) :
    ∃ obj', p'.Objects[i]? = some obj' ∧
      obj'.Stream = some ⟨B "stream\r\n" ++ CompressImage c P⟩ ∧
      (∀ n, valuesOf obj.Dict (B "/Length") = [.int n] →
        valuesOf obj'.Dict (B "/Length") = [.int ((CompressImage c P).length : Nat)]) ∧
      (∀ id gen m, valuesOf obj.Dict (B "/Length") = [.ref id gen] →
        keyIndex p.Objects (id, gen) = some m →
        (∀ k ok, i < k → p.Objects[k]? = some ok → ok.IsImageStream = true →
          getObjRefByKey ok.Dict (B "/Length") ≠ some (id, gen)) →
        ∃ o, p'.Objects[m]? = some o ∧ o.ID = id ∧ o.GenID = gen ∧
          keyIndex p'.Objects (id, gen) = some m ∧
          o.Int = ((CompressImage c P).length : Nat)) := by
  obtain ⟨obj', h1, h2, h3, h4, h5⟩ :=
    compressImageObj_at c p p' i obj filter _ P h hi himg hf hne hbody (stripStreamLine_crlf P)
  refine ⟨obj', h1, h2, ?_, ?_⟩
  · intro n hn
    rw [h4 (getObjRefByKey_of_values_int _ _ n hn)]
    exact valuesOf_updateImageObjLen _ n _ hn
  · intro id gen m hv hm hlater
    obtain ⟨o, ho, hint⟩ := h5 (id, gen) m (getObjRefByKey_of_values_ref _ _ id gen hv) hm hlater
    obtain ⟨objects2, hloop, rfl⟩ := compressImageObj_ok c p p' h
    obtain ⟨hk, _⟩ := compressImageLoop_frame c _ 0 p.Objects objects2 hloop
    have hm' : keyIndex objects2 (id, gen) = some m := by
      rw [keyIndex_congr objects2 p.Objects (id, gen) hk]; exact hm
    obtain ⟨o', ho', hid, hgen⟩ := keyIndex_some _ _ _ hm'
    simp only at ho ho'
    rw [ho] at ho'
    cases ho'
    exact ⟨o, ho, hid, hgen, hm', hint⟩

/-- Witness of C3 (amended): the second image stream of `docShare`, the last
one that refers to object `5 0`. -/
theorem compressImageObj_length_witness :
    ∃ p', compressImageObj shareCodec docShare = .ok p' ∧
      ∃ obj', p'.Objects[1]? = some obj' ∧
        obj'.Stream = some ⟨B "stream\r\n" ++ [1, 2, 3]⟩ ∧
        ∃ o, p'.Objects[2]? = some o ∧ o.Int = 3 := by
  refine ⟨_, rfl, ?_⟩
  obtain ⟨obj', h1, h2, _, h4⟩ :=
    compressImageObj_length shareCodec docShare _ 1
      { Obj.zero with ID := 2, Dict := imageDict (.ref 5 0),
                      Stream := some ⟨B "stream\r\nWXYZ"⟩ }
      (B "/DCTDecode") (B "WXYZ") rfl rfl rfl rfl (by decide) rfl
  obtain ⟨o, ho, _, _, _, hint⟩ := h4 5 0 2 rfl rfl (by
    intro k ok hk hget himg
    match k, hk, hget with
    | 2, _, hget =>
      simp [docShare] at hget
      subst hget
      simp [Obj.IsImageStream, Obj.zero] at himg)
  exact ⟨obj', h1, h2, o, ho, hint⟩

theorem compressImageStep_body (c : Codec) (objects objects1 : List Obj) (i : Nat)
    (o : Obj) (body : Bytes)
    (h : compressImageStep c objects i = .ok objects1)
    (hi : objects[i]? = some o) (hbody : o.Stream = some ⟨body⟩) :
    ∃ o1, objects1[i]? = some o1 ∧
      (o1.Stream = o.Stream ∨
        ∃ buf, stripStreamLine body = some buf ∧
          o1.Stream = some ⟨B "stream\r\n" ++ CompressImage c buf⟩) := by
  have hilt : i < objects.length := by
    rcases Nat.lt_or_ge i objects.length with h | h
    · exact h
    · rw [List.getElem?_eq_none h] at hi; cases hi
  rcases compressImageStep_ok c objects objects1 i h with h1 | h1
  · subst h1
    exact ⟨o, hi, Or.inl rfl⟩
  · obtain ⟨obj, filter, body', buf, hk, _, _, _, hb, hbuf, h2⟩ := h1
    rw [hi] at hk
    cases hk
    rw [hbody] at hb
    cases hb
    rcases h2 with ⟨key, _, rfl⟩ | ⟨_, rfl⟩
    · rw [updateObjLen_get, List.getElem?_set_self hilt]
      simp only [Option.map_some']
      split
      · exact ⟨_, rfl, Or.inr ⟨buf, hbuf, rfl⟩⟩
      · exact ⟨_, rfl, Or.inr ⟨buf, hbuf, rfl⟩⟩
    · rw [List.getElem?_set_self hilt]
      exact ⟨_, rfl, Or.inr ⟨buf, hbuf, rfl⟩⟩

/-- C4 as stated fails: `fileImageSameLine` parses to `docImageSameLine`, whose
object is an image stream with the 4-byte body `ABCD`; `failCodec` never
returns more bytes than it is given; and after `compressImageObj` the body is
the 12 bytes `stream\r\nABCD`. -/
theorem body_grows_without_keyword :
    (∀ n, Parse (n + 9) (PDF.ofBytes fileImageSameLine) = .ok docImageSameLine) ∧
    (docImageSameLine.Objects[0]?).map (fun o => (o.IsImageStream, o.Stream))
      = some (true, some ⟨B "ABCD"⟩) ∧
    (∀ x, (CompressImage failCodec x).length ≤ x.length) ∧
    ∃ p', compressImageObj failCodec docImageSameLine = .ok p' ∧
      (p'.Objects[0]?).map (fun o => o.Stream) = some (some ⟨B "stream\r\nABCD"⟩) :=
  ⟨fun _ => rfl, rfl, fun _ => le_refl _, _, rfl, rfl⟩

/-- C4, amended: whenever `compressImageObj` completes, a stream body that
started with the keyword `stream` is no longer than before; a body that did
not is taken as payload and framed with the 8 bytes `stream\r\n`, so it is at
most 8 bytes longer than before.  (`CompressImage` never returns more bytes
than it is given, whatever the codec.) -/
theorem compressImageObj_body_length (c : Codec) (p p' : PDF) (i : Nat) (obj : Obj)
    (body : Bytes)
    (h : compressImageObj c p = .ok p')
    (hi : p.Objects[i]? = some obj)
    (hbody : obj.Stream = some ⟨body⟩) :
    ∃ obj' body', p'.Objects[i]? = some obj' ∧ obj'.Stream = some ⟨body'⟩ ∧
      ((B "stream").isPrefixOf body = true → body'.length ≤ body.length) ∧
      body'.length ≤ body.length + 8 := by
  obtain ⟨objects2, hloop, rfl⟩ := compressImageObj_ok c p p' h
  obtain ⟨mid0, mid1, o0, h1, h2, h3, g1, g2, g3, g4, g5⟩ :=
    compressImageLoop_at c p.Objects objects2 i obj hloop hi
  obtain ⟨o1, e1, e2⟩ := compressImageStep_body c mid0 mid1 i o0 body h2 g1 (g3.trans hbody)
  obtain ⟨_, hf3⟩ := compressImageLoop_frame c _ (i + 1) mid1 objects2 h3
  obtain ⟨o2, f1, _, _, f4, _⟩ := hf3 i o1 e1
  obtain ⟨_, f6⟩ := f4 (Or.inl (by omega))
  rcases e2 with e2 | ⟨buf, hbuf, e2⟩
  · refine ⟨o2, body, f1, ?_, fun _ => le_refl _, by omega⟩
    rw [f6, e2, g3, hbody]
  · refine ⟨o2, _, f1, f6.trans e2, ?_, ?_⟩
    · intro hp
      unfold stripStreamLine at hbuf
      rw [if_pos hp] at hbuf
      unfold sliceFrom at hbuf
      split at hbuf
      · rename_i h8
        injection hbuf with hbuf
        subst hbuf
        have := CompressImage_length_le c (List.drop 8 body)
        have hl : (B "stream\r\n").length = 8 := by decide
        rw [List.length_append, hl]
        rw [List.length_drop] at this
        omega
      · cases hbuf
    · have := CompressImage_length_le c buf
      have hl : (B "stream\r\n").length = 8 := by decide
      have hb : buf.length ≤ body.length := by
        unfold stripStreamLine at hbuf
        split at hbuf
        · unfold sliceFrom at hbuf
          split at hbuf
          · injection hbuf with hbuf
            rw [← hbuf, List.length_drop]
            omega
          · cases hbuf
        · injection hbuf with hbuf
          rw [hbuf]
      rw [List.length_append, hl]
      omega

/-- Witness of C4 (amended): the image stream of `docLiteral 4`, whose body
starts with the keyword. -/
theorem compressImageObj_body_length_witness :
    ∃ p', compressImageObj reverseCodec (docLiteral 4) = .ok p' ∧
      ∃ obj' body', p'.Objects[0]? = some obj' ∧ obj'.Stream = some ⟨body'⟩ ∧
        body'.length ≤ (B "stream\r\nABCD").length := by
  refine ⟨_, rfl, ?_⟩
  obtain ⟨obj', body', h1, h2, h3, _⟩ :=
    compressImageObj_body_length reverseCodec (docLiteral 4) _ 0
      { Obj.zero with ID := 1, Dict := imageDict (.int 4),
                      Stream := some ⟨B "stream\r\nABCD"⟩ }
      (B "stream\r\nABCD") rfl rfl rfl
  exact ⟨obj', body', h1, h2, h3 rfl⟩

end Pdf

namespace Pdf

/-! ## UTF-8 decoding and `strings.TrimSpace` -/

theorem DecodeRune_ascii (s0 : Nat) (t : Bytes) (h : s0 < 0x80) :
    DecodeRune (s0 :: t) = (s0, 1) := by
  simp [DecodeRune, h]

theorem acceptLo_ge (s0 : Nat) : 0x80 ≤ acceptLo s0 := by
  unfold acceptLo
  split_ifs <;> omega

theorem decode2_spec (s0 : Nat) (t : Bytes) :
    (decode2 s0 t).2 = 1 ∨
      ((decode2 s0 t).2 = 2 ∧ ∃ s1 t1, t = s1 :: t1 ∧ 0x80 ≤ s1) := by
  unfold decode2
  split
  · rename_i s1 t1
    split_ifs with c
    · right
      simp [isCont] at c
      exact ⟨rfl, s1, t1, rfl, c.1⟩
    · left; rfl
  · left; rfl

theorem decode3_spec (s0 : Nat) (t : Bytes) :
    (decode3 s0 t).2 = 1 ∨
      ((decode3 s0 t).2 = 3 ∧ ∃ s1 s2 t2, t = s1 :: s2 :: t2 ∧ 0x80 ≤ s1 ∧ 0x80 ≤ s2) := by
  unfold decode3
  split
  · rename_i s1 s2 t2
    split
    · rename_i c
      right
      obtain ⟨c1, _, c3⟩ := c
      simp [isCont] at c3
      refine ⟨rfl, s1, s2, t2, rfl, ?_, c3.1⟩
      have := acceptLo_ge s0
      omega
    · left; rfl
  · left; rfl

theorem decode4_spec (s0 : Nat) (t : Bytes) :
    (decode4 s0 t).2 = 1 ∨
      ((decode4 s0 t).2 = 4 ∧
        ∃ s1 s2 s3 t3, t = s1 :: s2 :: s3 :: t3 ∧ 0x80 ≤ s1 ∧ 0x80 ≤ s2 ∧ 0x80 ≤ s3) := by
  unfold decode4
  split
  · rename_i s1 s2 s3 t3
    split
    · rename_i c
      right
      obtain ⟨c1, _, c3, c4⟩ := c
      simp [isCont] at c3 c4
      refine ⟨rfl, s1, s2, s3, t3, rfl, ?_, c3.1, c4.1⟩
      have := acceptLo_ge s0
      omega
    · left; rfl
  · left; rfl

/-- The width `DecodeRune` returns is 1, or the rune is made of that many
bytes, all from `0x80` up. -/
theorem DecodeRune_spec (s0 : Nat) (t : Bytes) :
    (DecodeRune (s0 :: t)).2 = 1 ∨
      (0x80 ≤ s0 ∧ ∃ w, (DecodeRune (s0 :: t)).2 = w + 1 ∧ w ≤ t.length ∧
        ∀ b ∈ t.take w, 0x80 ≤ b) := by
  simp only [DecodeRune]
  split_ifs with c1 c2 c3 c4 c5
  · left; rfl
  · left; rfl
  · rcases decode2_spec s0 t with h | ⟨h, s1, t1, rfl, h1⟩
    · left; exact h
    · right
      exact ⟨by omega, 1, h, by simp, by simp [h1]⟩
  · rcases decode3_spec s0 t with h | ⟨h, s1, s2, t2, rfl, h1, h2⟩
    · left; exact h
    · right
      exact ⟨by omega, 2, h, by simp, by simp [h1, h2]⟩
  · rcases decode4_spec s0 t with h | ⟨h, s1, s2, s3, t3, rfl, h1, h2, h3⟩
    · left; exact h
    · right
      exact ⟨by omega, 3, h, by simp, by simp [h1, h2, h3]⟩
  · left; rfl

theorem DecodeRune_width_pos (s0 : Nat) (t : Bytes) : 1 ≤ (DecodeRune (s0 :: t)).2 := by
  rcases DecodeRune_spec s0 t with h | ⟨_, w, h, _⟩ <;> omega

end Pdf

namespace Pdf

theorem lastRuneSegment_pos (rev : Bytes) : 1 ≤ lastRuneSegment rev := by
  unfold lastRuneSegment
  split
  · split_ifs
    · omega
    · split
      · split_ifs
        · omega
        · split
          · split_ifs
            · omega
            · split <;> omega
          · omega
      · omega
  · omega

/-- The width `DecodeLastRune` returns is 1, or the rune is made of that many
bytes at the end of the string, all from `0x80` up. -/
theorem DecodeLastRune_spec (c : Nat) (t : Bytes) :
    (DecodeLastRune (c :: t)).2 = 1 ∨
      ((DecodeLastRune (c :: t)).2 ≤ (c :: t).length ∧
        ∀ b ∈ (c :: t).take (DecodeLastRune (c :: t)).2, 0x80 ≤ b) := by
  unfold DecodeLastRune
  by_cases h1 : c < 0x80
  · left; simp [h1]
  · simp only [h1, if_false]
    by_cases h2 : (DecodeRune (List.take (lastRuneSegment (c :: t)) (c :: t)).reverse).2
        ≠ lastRuneSegment (c :: t)
    · left; simp [h2]
    · simp only [h2, if_false]
      have h2' := not_not.mp h2
      generalize hn : lastRuneSegment (c :: t) = n at h2'
      cases hs : (List.take n (c :: t)).reverse with
      | nil =>
        exfalso
        have hp := lastRuneSegment_pos (c :: t)
        rw [hn] at hp
        have hl := congrArg List.length hs
        simp at hl
        omega
      | cons s0 t' =>
        rw [hs] at h2'
        rcases DecodeRune_spec s0 t' with h | ⟨h0, w, hw, hle, hall⟩
        · left; exact h
        · right
          have hlen : (List.take n (c :: t)).reverse.length = t'.length + 1 := by
            rw [hs]; simp
          simp only [List.length_reverse, List.length_take] at hlen
          have hn2 : n = w + 1 := by omega
          have hw2 : t'.length = w := by omega
          rw [h2']
          refine ⟨by simp at hlen ⊢; omega, ?_⟩
          intro b hb
          have hb' : b ∈ (List.take n (c :: t)).reverse := List.mem_reverse.mpr hb
          rw [hs] at hb'
          rcases List.mem_cons.mp hb' with rfl | hb''
          · exact h0
          · apply hall
            rw [← hw2, List.take_length]
            exact hb''

theorem DecodeLastRune_width_pos (c : Nat) (t : Bytes) : 1 ≤ (DecodeLastRune (c :: t)).2 := by
  unfold DecodeLastRune
  by_cases h1 : c < 0x80
  · simp [h1]
  · simp only [h1, if_false]
    split_ifs with h2
    · simp
    · have h2' := not_not.mp h2
      rw [h2']
      exact lastRuneSegment_pos _

theorem IsSpace_visible (x : Nat) (h : visible x) : IsSpace x = false := by
  obtain ⟨h1, h2⟩ := h
  simp [asciiSpace] at h2
  simp [IsSpace]
  have : x ≤ 255 := by omega
  simp [this]
  omega

theorem DecodeLastRune_before_visible (y : Nat) (r : Bytes) (x : Nat) (arev : Bytes)
    (hx : visible x) : (DecodeLastRune (y :: (r ++ x :: arev))).2 ≤ r.length + 1 := by
  rcases DecodeLastRune_spec y (r ++ x :: arev) with h | ⟨_, hall⟩
  · omega
  · by_contra hc
    have hmem : x ∈ (y :: (r ++ x :: arev)).take (DecodeLastRune (y :: (r ++ x :: arev))).2 := by
      have hsplit : y :: (r ++ x :: arev) = (y :: r) ++ x :: arev := rfl
      rw [hsplit, List.take_append_eq_append_take]
      apply List.mem_append_right
      have : (DecodeLastRune ((y :: r) ++ x :: arev)).2 - (y :: r).length
          = ((DecodeLastRune ((y :: r) ++ x :: arev)).2 - (y :: r).length - 1) + 1 := by
        rw [← hsplit]
        simp
        omega
      rw [this]
      simp
    have := hall x hmem
    have := hx.1
    omega

/-- Scanning back from the end, `lastIndexFunc` stops at or after a visible
byte. -/
theorem lastIndexNotSpace_visible (r : Bytes) (x : Nat) (arev : Bytes) (k : Nat)
    (hx : visible x) (hk : k ≤ r.length) :
    ∃ i, lastIndexNotSpace k (r ++ x :: arev) = some i ∧ arev.length ≤ i ∧
      i < r.length + 1 + arev.length := by
  induction r generalizing k with
  | nil =>
    simp at hk
    subst hk
    simp only [List.nil_append, lastIndexNotSpace, DecodeLastRune, hx.1, if_true,
      IsSpace_visible x hx]
    exact ⟨arev.length, by simp, by simp, by simp⟩
  | cons y r ih =>
    cases k with
    | succ k =>
      simp only [List.cons_append, lastIndexNotSpace]
      obtain ⟨i, h1, h2, h3⟩ := ih k (by simpa using hk)
      exact ⟨i, h1, h2, by simp; omega⟩
    | zero =>
      simp only [List.cons_append, lastIndexNotSpace]
      have hw := DecodeLastRune_before_visible y r x arev hx
      have hp := DecodeLastRune_width_pos y (r ++ x :: arev)
      split_ifs with hsp
      · obtain ⟨i, h1, h2, h3⟩ := ih ((DecodeLastRune (y :: (r ++ x :: arev))).2 - 1) (by omega)
        exact ⟨i, h1, h2, by simp; omega⟩
      · refine ⟨_, rfl, ?_, ?_⟩
        · simp; omega
        · simp; omega

/-- `strings.TrimRightFunc(s, unicode.IsSpace)` keeps everything up to a
visible byte, and cuts what follows it to a prefix. -/
theorem TrimRightFunc_visible (a : Bytes) (x : Nat) (b : Bytes) (hx : visible x) :
    ∃ b', b' <+: b ∧ TrimRightFunc (a ++ x :: b) = a ++ x :: b' := by
  unfold TrimRightFunc
  have hrev : (a ++ x :: b).reverse = b.reverse ++ x :: a.reverse := by simp
  obtain ⟨i, h1, h2, h3⟩ := lastIndexNotSpace_visible b.reverse x a.reverse 0 hx (Nat.zero_le _)
  rw [hrev, h1]
  simp only [List.length_reverse] at h2 h3
  have key : ∀ n, a.length + 1 ≤ n →
      ∃ b', b' <+: b ∧ (a ++ x :: b).take n = a ++ x :: b' := by
    intro n hn
    refine ⟨b.take (n - a.length - 1), List.take_prefix _ _, ?_⟩
    rw [List.take_append_eq_append_take, List.take_of_length_le (by omega)]
    obtain ⟨m, hm⟩ : ∃ m, n - a.length = m + 1 := ⟨n - a.length - 1, by omega⟩
    rw [hm, List.take_succ_cons]
    simp
  simp only
  split_ifs
  · apply key
    have hdrop : (a ++ x :: b).drop i ≠ [] := by
      intro hc
      have := congrArg List.length hc
      simp at this
      omega
    cases hd : (a ++ x :: b).drop i with
    | nil => exact absurd hd hdrop
    | cons s0 t =>
      have := DecodeRune_width_pos s0 t
      omega
  · apply key
    omega

theorem trimSpaceRight_visible (r : Bytes) (x : Nat) (arev : Bytes) (hx : visible x) :
    ∃ b', b' <+: r.reverse ∧
      (trimSpaceRight (r ++ x :: arev)).reverse = arev.reverse ++ x :: b' := by
  induction r with
  | nil =>
    refine ⟨[], by simp, ?_⟩
    have h1 : ¬ 0x80 ≤ x := by have := hx.1; omega
    simp [trimSpaceRight, h1, hx.2]
  | cons y r ih =>
    simp only [List.cons_append, trimSpaceRight]
    split_ifs with h1 h2
    · obtain ⟨b', hb, heq⟩ := TrimRightFunc_visible arev.reverse x (y :: r).reverse hx
      refine ⟨b', hb, ?_⟩
      have : (y :: r.append (x :: arev)).reverse = arev.reverse ++ x :: (y :: r).reverse := by
        show (y :: (r ++ x :: arev)).reverse = _
        simp
      rw [this, heq, List.reverse_reverse]
    · obtain ⟨b', hb, heq⟩ := ih
      refine ⟨b', ?_, heq⟩
      simp only [List.reverse_cons]
      exact hb.trans (List.prefix_append _ _)
    · refine ⟨(y :: r).reverse, List.prefix_refl _, ?_⟩
      simp

/-- `strings.TrimSpace` of a string that starts with spaces and then a visible
byte: the leading spaces go, everything up to any visible byte `x` stays, and
what follows `x` is cut to a prefix. -/
theorem TrimSpace_visible (sp a : Bytes) (x : Nat) (b : Bytes)
    (hsp : ∀ c ∈ sp, c < 0x80 ∧ asciiSpace c = true)
    (ha : ∀ c, (a ++ [x]).head? = some c → visible c) (hx : visible x) :
    ∃ b', b' <+: b ∧ TrimSpace (sp ++ (a ++ x :: b)) = a ++ x :: b' := by
  induction sp with
  | nil =>
    simp only [List.nil_append]
    cases hs : a ++ x :: b with
    | nil => simp at hs
    | cons c t =>
      have hc : visible c := by
        apply ha
        cases a with
        | nil => simp at hs ⊢; exact hs.1
        | cons a0 a' => simp at hs ⊢; exact hs.1
      have h1 : ¬ 0x80 ≤ c := by have := hc.1; omega
      simp only [TrimSpace, h1, if_false, hc.2]
      obtain ⟨b', hb, heq⟩ := trimSpaceRight_visible b.reverse x a.reverse hx
      refine ⟨b', by simpa using hb, ?_⟩
      have : (c :: t).reverse = b.reverse ++ x :: a.reverse := by
        rw [← hs]; simp
      rw [this]
      simpa using heq
  | cons c sp ih =>
    obtain ⟨h1, h2⟩ := hsp c (List.mem_cons_self _ _)
    have h3 : ¬ 0x80 ≤ c := by omega
    simp only [List.cons_append, TrimSpace, h3, if_false, h2, if_true]
    exact ih (fun c' hc' => hsp c' (List.mem_cons_of_mem _ hc'))

end Pdf

namespace Pdf

/-! ## Words of the window -/

theorem Split_ne_nil (sep : Nat) (s : Bytes) : Split sep s ≠ [] := by
  induction s with
  | nil => simp [Split]
  | cons c t ih =>
    unfold Split
    split_ifs
    · simp
    · split <;> simp

theorem Split_word (sep : Nat) (w : Bytes) (hw : ∀ c ∈ w, c ≠ sep) : Split sep w = [w] := by
  induction w with
  | nil => rfl
  | cons c t ih =>
    unfold Split
    rw [if_neg (hw c (List.mem_cons_self _ _)), ih (fun c' hc' => hw c' (List.mem_cons_of_mem _ hc'))]

theorem Split_word_sep (sep : Nat) (w s : Bytes) (hw : ∀ c ∈ w, c ≠ sep) :
    Split sep (w ++ sep :: s) = w :: Split sep s := by
  induction w with
  | nil => simp [Split]
  | cons c t ih =>
    simp only [List.cons_append]
    rw [Split, if_neg (hw c (List.mem_cons_self _ _)),
      ih (fun c' hc' => hw c' (List.mem_cons_of_mem _ hc'))]

/-- The first word of a string that starts with a byte other than the
separator starts with that byte. -/
theorem Split_cons_ne (sep c : Nat) (t : Bytes) (hc : c ≠ sep) :
    ∃ w ws, Split sep (c :: t) = (c :: w) :: ws := by
  unfold Split
  rw [if_neg hc]
  cases h : Split sep t with
  | nil => exact absurd h (Split_ne_nil sep t)
  | cons w ws => exact ⟨w, ws, rfl⟩

/-- For a string of bytes below `0x80`, ranging over the runes yields the
bytes. -/
theorem rangeBytes_ascii (s : Bytes) (h : ∀ c ∈ s, c < 0x80) : rangeBytes 0 s = s := by
  induction s with
  | nil => rfl
  | cons c t ih =>
    have hc := h c (List.mem_cons_self _ _)
    simp only [rangeBytes, DecodeRune_ascii c t hc]
    rw [ih (fun c' hc' => h c' (List.mem_cons_of_mem _ hc'))]
    have : c % 256 = c := Nat.mod_eq_of_lt (by omega)
    simp [this]

theorem rangeBytes_head (c : Nat) (t : Bytes) (hc : c < 0x80) :
    ∃ r, rangeBytes 0 (c :: t) = c :: r := by
  simp only [rangeBytes, DecodeRune_ascii c t hc]
  have : c % 256 = c := Nat.mod_eq_of_lt (by omega)
  exact ⟨_, by rw [this]⟩

/-- A word that starts with a byte below `0x80` that is neither a digit nor
`-` does not pass `isNumber`. -/
theorem isNumber_head_false (c : Nat) (t : Bytes) (hc : c < 0x80) (hd : isDigit c = false)
    (hm : c ≠ 45) : isNumber (c :: t) = false := by
  unfold isNumber
  have hp : (B "-").isPrefixOf (c :: t) = false := by
    have : B "-" = [45] := by decide
    rw [this]
    simp [List.isPrefixOf, hm]
    exact fun h => hm h.symm
  simp only [hp]
  obtain ⟨r, hr⟩ := rangeBytes_head c t hc
  simp [hr, hd]

theorem thirdWord_none (w0 : Bytes) (ws : List Bytes) (h : isNumber w0 = false) :
    thirdWord (w0 :: ws) = none := by
  unfold thirdWord
  split
  · rename_i a b c d heq
    injection heq with h1 h2
    subst h1
    simp [h]
  · rfl

theorem classify_not_number (w0 : Bytes) (ws : List Bytes) (h : isNumber w0 = false) :
    classify (w0 :: ws) = classifyWord w0 := by
  simp [classify, thirdWord_none w0 ws h, h]

theorem classify_name (t : Bytes) (ws : List Bytes) : classify ((47 :: t) :: ws) = .Name := by
  rw [classify_not_number _ _ (isNumber_head_false 47 t (by omega) (by decide) (by omega))]
  have h1 : (47 :: t) ≠ B "<<" := by
    have : B "<<" = [60, 60] := by decide
    rw [this]; simp
  have h2 : (47 :: t) ≠ B ">>" := by
    have : B ">>" = [62, 62] := by decide
    rw [this]; simp
  have h3 : (47 :: t) ≠ B "endobj" := by
    have : B "endobj" = [101, 110, 100, 111, 98, 106] := by decide
    rw [this]; simp
  have h4 : (B "stream").isPrefixOf (47 :: t) = false := by
    have : B "stream" = [115, 116, 114, 101, 97, 109] := by decide
    rw [this]; simp [List.isPrefixOf]
  have h5 : (B "[").isPrefixOf (47 :: t) = false := by
    have : B "[" = [91] := by decide
    rw [this]; simp [List.isPrefixOf]
  have h6 : (B "/").isPrefixOf (47 :: t) = true := by
    have : B "/" = [47] := by decide
    rw [this]; simp [List.isPrefixOf]
  simp [classifyWord, h1, h2, h3, h4, h5, h6]

theorem classify_dictOpen (ws : List Bytes) : classify (B "<<" :: ws) = .Dict := by
  rw [classify_not_number _ _ (by decide)]
  decide

theorem classify_dictClose (ws : List Bytes) : classify (B ">>" :: ws) = .CmdEndDict := by
  rw [classify_not_number _ _ (by decide)]
  decide

theorem classify_arrayOpen (ws : List Bytes) : classify (B "[" :: ws) = .Array := by
  rw [classify_not_number _ _ (by decide)]
  decide

theorem classify_arrayClose (ws : List Bytes) : classify (B "]" :: ws) = .CmdEndArray := by
  rw [classify_not_number _ _ (by decide)]
  decide

end Pdf

namespace Pdf

/-! ## `strconv.Itoa` and `strconv.Atoi` -/

theorem digitsVal_append (ds : Bytes) (d : Nat) :
    digitsVal (ds ++ [d]) = digitsVal ds * 10 + (d - 48) := by
  simp [digitsVal, List.foldl_append]

/-- With enough fuel `natDigits` gives the decimal digits of `n`: they are
digits, there is at least one, their value is `n`, and there are at most `k`
of them when `n < 10 ^ k`. -/
theorem natDigits_spec (f n : Nat) (h : n < f) :
    (∀ c ∈ natDigits f n, isDigit c = true) ∧ natDigits f n ≠ [] ∧
      digitsVal (natDigits f n) = n ∧
      ∀ k, 1 ≤ k → n < 10 ^ k → (natDigits f n).length ≤ k := by
  induction f generalizing n with
  | zero => omega
  | succ f ih =>
    unfold natDigits
    by_cases h10 : n < 10
    · rw [if_pos h10]
      refine ⟨?_, by simp, ?_, ?_⟩
      · intro c hc
        simp at hc
        subst hc
        simp [isDigit]
        omega
      · simp [digitsVal]
      · intro k hk _
        simpa using hk
    · rw [if_neg h10]
      have hlt : n / 10 < f := by omega
      obtain ⟨h1, h2, h3, h4⟩ := ih (n / 10) hlt
      refine ⟨?_, by simp, ?_, ?_⟩
      · intro c hc
        rcases List.mem_append.mp hc with hc | hc
        · exact h1 c hc
        · simp at hc
          subst hc
          simp [isDigit]
          omega
      · rw [digitsVal_append, h3]
        omega
      · intro k hk hn
        rw [List.length_append]
        simp only [List.length_singleton]
        have hk2 : 2 ≤ k := by
          by_contra hc
          have : k = 1 := by omega
          subst this
          simp at hn
          omega
        have := h4 (k - 1) (by omega) (by
          have hpow : 10 ^ k = 10 ^ (k - 1) * 10 := by
            rw [← pow_succ]
            congr 1
            omega
          rw [hpow] at hn
          omega)
        omega

theorem Itoa_isIntText (v : Int) : isIntText (Itoa v) := by
  unfold Itoa
  cases v with
  | ofNat n =>
    obtain ⟨h1, h2, _, _⟩ := natDigits_spec (n + 1) n (by omega)
    exact ⟨_, h2, h1, Or.inl rfl⟩
  | negSucc n =>
    obtain ⟨h1, h2, _, _⟩ := natDigits_spec (n + 2) (n + 1) (by omega)
    exact ⟨_, h2, h1, Or.inr rfl⟩

theorem Atoi_Itoa (v : Int) (hlo : -(2 : Int) ^ 63 ≤ v) (hhi : v < (2 : Int) ^ 63) :
    Atoi (Itoa v) = (v, true) := by
  unfold Itoa
  cases v with
  | ofNat n =>
    obtain ⟨h1, h2, h3, _⟩ := natDigits_spec (n + 1) n (by omega)
    simp only
    generalize hds : natDigits (n + 1) n = ds at h1 h2 h3
    cases ds with
    | nil => exact absurd rfl h2
    | cons d0 dt =>
      have hd0 := h1 d0 (List.mem_cons_self _ _)
      simp [isDigit] at hd0
      have hn45 : d0 ≠ 45 := by omega
      have hn43 : d0 ≠ 43 := by omega
      have hall : (d0 :: dt).all isDigit = true := by
        rw [List.all_eq_true]; exact h1
      unfold Atoi
      simp only [List.head?_cons, Option.some.injEq, hn45, hn43, or_self, if_false]
      simp only [hall, not_true_eq_false, or_false, if_false]
      rw [if_neg (by simp)]
      simp only [h3]
      have hhi' : n < 2 ^ 63 := by
        have : (n : Int) < (2 : Int) ^ 63 := hhi
        exact_mod_cast this
      have hhi2 : n < 9223372036854775808 := by
        have : (2 : Nat) ^ 63 = 9223372036854775808 := by norm_num
        omega
      simp [hhi2]
  | negSucc n =>
    obtain ⟨h1, h2, h3, _⟩ := natDigits_spec (n + 2) (n + 1) (by omega)
    simp only
    generalize hds : natDigits (n + 2) (n + 1) = ds at h1 h2 h3
    have hall : ds.all isDigit = true := by
      rw [List.all_eq_true]; exact h1
    unfold Atoi
    simp only [List.head?_cons, true_or, if_true, List.tail_cons]
    rw [if_neg (by simp [h2, hall])]
    simp only [h3]
    have hlo' : n + 1 ≤ 2 ^ 63 := by
      have : -(2 : Int) ^ 63 ≤ Int.negSucc n := hlo
      rw [Int.negSucc_eq] at this
      have h2 : ((n : Int) + 1) ≤ (2 : Int) ^ 63 := by omega
      exact_mod_cast h2
    have hlo2 : n ≤ 9223372036854775807 := by
      have : (2 : Nat) ^ 63 = 9223372036854775808 := by norm_num
      omega
    simp [hlo2, Int.negSucc_eq]

end Pdf

namespace Pdf

/-! ## `detectType` on the text the writer emits -/

theorem ReplaceNL_append (s t : Bytes) : ReplaceNL (s ++ t) = ReplaceNL s ++ ReplaceNL t := by
  simp [ReplaceNL]

theorem ReplaceNL_id (s : Bytes) (h : ∀ c ∈ s, c ≠ 10) : ReplaceNL s = s := by
  induction s with
  | nil => rfl
  | cons c t ih =>
    have hc := h c (List.mem_cons_self _ _)
    simp only [ReplaceNL, List.map_cons, hc, if_false]
    congr 1
    exact ih (fun c' hc' => h c' (List.mem_cons_of_mem _ hc'))

theorem ReplaceNL_take (n : Nat) (s : Bytes) : ReplaceNL (s.take n) = (ReplaceNL s).take n := by
  simp [ReplaceNL, List.map_take]

theorem ReplaceNL_sep (sp : Bytes) (h : ∀ c ∈ sp, isSep c) :
    ∀ c ∈ ReplaceNL sp, c < 0x80 ∧ asciiSpace c = true := by
  intro c hc
  simp only [ReplaceNL, List.mem_map] at hc
  obtain ⟨c0, hc0, rfl⟩ := hc
  rcases h c0 hc0 with rfl | rfl <;> simp [asciiSpace]

/-- The window of `detectType`, trimmed: when the input starts with the
separators `sp` and the window after them reads `a`, the visible byte `x`,
and `b`, the words classified are those of `a`, `x` and a prefix of `b`. -/
theorem detectType_trim (sp s a : Bytes) (x : Nat) (b : Bytes)
    (hsp : ∀ c ∈ sp, isSep c) (hlen : sp.length ≤ 20)
    (hwin : ReplaceNL (s.take (20 - sp.length)) = a ++ x :: b)
    (ha : ∀ c, (a ++ [x]).head? = some c → visible c) (hx : visible x) :
    ∃ b', b' <+: b ∧ detectType (sp ++ s) = classify (Split 32 (a ++ x :: b')) := by
  obtain ⟨b', hb, heq⟩ := TrimSpace_visible (ReplaceNL sp) a x b (ReplaceNL_sep sp hsp) ha hx
  refine ⟨b', hb, ?_⟩
  unfold detectType
  have hw : ReplaceNL ((sp ++ s).take 20) = ReplaceNL sp ++ (a ++ x :: b) := by
    rw [List.take_append_eq_append_take, List.take_of_length_le hlen, ReplaceNL_append, hwin]
  simp only [hw, heq]
  rw [if_neg (by simp)]

theorem detectType_name (sp t : Bytes) (hsp : ∀ c ∈ sp, isSep c) (hlen : sp.length ≤ 19) :
    detectType (sp ++ 47 :: t) = .Name := by
  have hv : visible 47 := ⟨by omega, by decide⟩
  obtain ⟨n, hn⟩ : ∃ n, 20 - sp.length = n + 1 := ⟨19 - sp.length, by omega⟩
  obtain ⟨b', _, heq⟩ := detectType_trim sp (47 :: t) [] 47 (ReplaceNL (t.take n)) hsp (by omega)
    (by rw [hn]; simp [ReplaceNL]) (by simp; exact hv) hv
  rw [heq]
  obtain ⟨w, ws, hs⟩ := Split_cons_ne 32 47 b' (by omega)
  simp only [List.nil_append]
  rw [hs, classify_name]

/-- The window for a text `tok` that fits in it together with the separator
`d` that follows: `detectType` classifies the words of `tok`, alone or
followed by a space and more. -/
theorem detectType_text (sp tok : Bytes) (d : Nat) (rest : Bytes) (a : Bytes) (x : Nat)
    (hsp : ∀ c ∈ sp, isSep c) (hd : isSep d)
    (htok : tok = a ++ [x]) (hnl : ∀ c ∈ tok, c ≠ 10)
    (hlen : sp.length + tok.length + 1 ≤ 20)
    (ha : ∀ c, tok.head? = some c → visible c) (hx : visible x) :
    ∃ b', (b' = [] ∨ ∃ b'', b' = 32 :: b'' ∧ b'' <+: ReplaceNL rest) ∧
      detectType (sp ++ (tok ++ d :: rest)) = classify (Split 32 (tok ++ b')) := by
  obtain ⟨n, hn⟩ : ∃ n, 20 - sp.length - tok.length = n + 1 :=
    ⟨20 - sp.length - tok.length - 1, by omega⟩
  have hwin : ReplaceNL ((tok ++ d :: rest).take (20 - sp.length))
      = a ++ x :: (32 :: ReplaceNL (rest.take n)) := by
    rw [List.take_append_eq_append_take, List.take_of_length_le (by omega), hn,
      List.take_succ_cons, ReplaceNL_append, ReplaceNL_id tok hnl, htok]
    have : ReplaceNL (d :: rest.take n) = 32 :: ReplaceNL (rest.take n) := by
      rcases hd with rfl | rfl <;> simp [ReplaceNL]
    rw [this]
    simp
  obtain ⟨b', hb, heq⟩ := detectType_trim sp (tok ++ d :: rest) a x _ hsp (by omega) hwin
    (by rw [← htok]; exact ha) hx
  refine ⟨b', ?_, ?_⟩
  · cases b' with
    | nil => exact Or.inl rfl
    | cons c b'' =>
      right
      have hb2 := List.prefix_cons_iff.mp hb
      rcases hb2 with h | ⟨t, ht, hpre⟩
      · cases h
      · injection ht with h1 h2
        subst h1 h2
        refine ⟨b'', rfl, hpre.trans ?_⟩
        rw [ReplaceNL_take]
        exact List.take_prefix _ _
  · rw [heq, htok]
    simp

/-- A token without spaces that fits in the window with its separator is the
first word `detectType` classifies. -/
theorem detectType_token (sp tok : Bytes) (d : Nat) (rest : Bytes) (a : Bytes) (x : Nat)
    (hsp : ∀ c ∈ sp, isSep c) (hd : isSep d)
    (htok : tok = a ++ [x]) (hclean : ∀ c ∈ tok, c ≠ 32 ∧ c ≠ 10)
    (hlen : sp.length + tok.length + 1 ≤ 20)
    (ha : ∀ c, tok.head? = some c → visible c) (hx : visible x) :
    ∃ ws, detectType (sp ++ (tok ++ d :: rest)) = classify (tok :: ws) := by
  obtain ⟨b', hb, heq⟩ := detectType_text sp tok d rest a x hsp hd htok
    (fun c hc => (hclean c hc).2) hlen ha hx
  rcases hb with rfl | ⟨b'', rfl, _⟩
  · refine ⟨[], ?_⟩
    rw [heq, List.append_nil, Split_word 32 tok (fun c hc => (hclean c hc).1)]
  · refine ⟨Split 32 b'', ?_⟩
    rw [heq, Split_word_sep 32 tok b'' (fun c hc => (hclean c hc).1)]

theorem head_visible (c0 : Nat) (t : Bytes) (hv : visible c0) :
    ∀ c, (c0 :: t).head? = some c → visible c := by
  intro c hc
  simp at hc
  subst hc
  exact hv

theorem visible_of (x : Nat) (h1 : x < 0x80) (h2 : asciiSpace x = false) : visible x :=
  ⟨h1, h2⟩

theorem detectType_dictClose (d : Nat) (rest : Bytes) (hd : isSep d) :
    detectType (10 :: (B ">>" ++ d :: rest)) = .CmdEndDict := by
  obtain ⟨ws, h⟩ := detectType_token [10] (B ">>") d rest [62] 62 (by simp [isSep]) hd
    (by decide) (by decide) (by decide)
    (head_visible 62 [62] (visible_of 62 (by omega) (by decide)))
    (visible_of 62 (by omega) (by decide))
  have : (10 : Nat) :: (B ">>" ++ d :: rest) = [10] ++ (B ">>" ++ d :: rest) := rfl
  rw [this, h, classify_dictClose]

theorem detectType_dictOpen (d : Nat) (rest : Bytes) (hd : isSep d) :
    detectType (10 :: (B "<<" ++ d :: rest)) = .Dict := by
  obtain ⟨ws, h⟩ := detectType_token [10] (B "<<") d rest [60] 60 (by simp [isSep]) hd
    (by decide) (by decide) (by decide)
    (head_visible 60 [60] (visible_of 60 (by omega) (by decide)))
    (visible_of 60 (by omega) (by decide))
  have : (10 : Nat) :: (B "<<" ++ d :: rest) = [10] ++ (B "<<" ++ d :: rest) := rfl
  rw [this, h, classify_dictOpen]

theorem detectType_arrayOpen (d : Nat) (rest : Bytes) (hd : isSep d) :
    detectType (32 :: (B "[" ++ d :: rest)) = .Array := by
  obtain ⟨ws, h⟩ := detectType_token [32] (B "[") d rest [] 91 (by simp [isSep]) hd
    (by decide) (by decide) (by decide)
    (head_visible 91 [] (visible_of 91 (by omega) (by decide)))
    (visible_of 91 (by omega) (by decide))
  have : (32 : Nat) :: (B "[" ++ d :: rest) = [32] ++ (B "[" ++ d :: rest) := rfl
  rw [this, h, classify_arrayOpen]

theorem detectType_arrayClose (sp : Bytes) (d : Nat) (rest : Bytes)
    (hsp : ∀ c ∈ sp, isSep c) (hlen : sp.length ≤ 2) (hd : isSep d) :
    detectType (sp ++ (B "]" ++ d :: rest)) = .CmdEndArray := by
  obtain ⟨ws, h⟩ := detectType_token sp (B "]") d rest [] 93 hsp hd
    (by decide) (by decide) (by simp [B]; omega)
    (head_visible 93 [] (visible_of 93 (by omega) (by decide)))
    (visible_of 93 (by omega) (by decide))
  rw [h, classify_arrayClose]

end Pdf

namespace Pdf

/-! ## The read primitives on the text the writer emits -/

theorem skipSpace_seps (sp : Bytes) (c : Nat) (t : Bytes) (hsp : ∀ x ∈ sp, isSep x)
    (hc : ¬ isSep c) : skipSpace (sp ++ c :: t) = c :: t := by
  have h : skipSpaceLoop (sp ++ c :: t) = some (c :: t) := by
    induction sp with
    | nil =>
      rw [List.nil_append, skipSpaceLoop, if_neg (show ¬ (c = 32 ∨ c = 10) from hc)]
    | cons x sp ih =>
      rw [List.cons_append, skipSpaceLoop,
        if_pos (show x = 32 ∨ x = 10 from hsp x (List.mem_cons_self _ _))]
      exact ih (fun y hy => hsp y (List.mem_cons_of_mem _ hy))
  simp [skipSpace, h]

theorem readStringLoop_token (tok : Bytes) (d : Nat) (rest : Bytes)
    (hclean : ∀ c ∈ tok, ¬ isSep c) (hd : isSep d) :
    readStringLoop (tok ++ d :: rest) = some (tok, d :: rest) := by
  induction tok with
  | nil =>
    rw [List.nil_append, readStringLoop, if_pos (show d = 32 ∨ d = 10 from hd)]
  | cons c t ih =>
    rw [List.cons_append, readStringLoop,
      if_neg (show ¬ (c = 32 ∨ c = 10) from hclean c (List.mem_cons_self _ _)),
      ih (fun y hy => hclean y (List.mem_cons_of_mem _ hy))]

theorem readString_token (sp tok : Bytes) (d : Nat) (rest : Bytes)
    (hsp : ∀ x ∈ sp, isSep x) (hne : tok ≠ []) (hclean : ∀ c ∈ tok, ¬ isSep c)
    (hd : isSep d) :
    readString (sp ++ (tok ++ d :: rest)) = (.ok tok, d :: rest) := by
  cases tok with
  | nil => exact absurd rfl hne
  | cons c t =>
    unfold readString
    have h1 : skipSpace (sp ++ (c :: t ++ d :: rest)) = c :: t ++ d :: rest :=
      skipSpace_seps sp c (t ++ d :: rest) hsp (hclean c (List.mem_cons_self _ _))
    simp only [h1, readStringLoop_token (c :: t) d rest hclean hd]

theorem isIntText_digit_or_minus (s : Bytes) (h : isIntText s) :
    ∀ c ∈ s, isDigit c = true ∨ c = 45 := by
  obtain ⟨ds, _, hds, rfl | rfl⟩ := h
  · exact fun c hc => Or.inl (hds c hc)
  · intro c hc
    rcases List.mem_cons.mp hc with rfl | hc
    · exact Or.inr rfl
    · exact Or.inl (hds c hc)

theorem isIntText_ne_nil (s : Bytes) (h : isIntText s) : s ≠ [] := by
  obtain ⟨ds, hne, _, rfl | rfl⟩ := h
  · exact hne
  · simp

theorem not_isSep_of_digit_or_minus (c : Nat) (h : isDigit c = true ∨ c = 45) : ¬ isSep c := by
  simp [isDigit] at h
  unfold isSep
  omega

theorem isSep_not_digit (d : Nat) (hd : isSep d) : ¬ (isDigit d = true ∨ d = 45) := by
  unfold isSep at hd
  simp [isDigit]
  omega

theorem readDigits_text (s : Bytes) (d : Nat) (rest : Bytes)
    (hs : ∀ c ∈ s, isDigit c = true ∨ c = 45) (hd : isSep d) :
    readDigits (s ++ d :: rest) = some (s, d :: rest) := by
  induction s with
  | nil =>
    rw [List.nil_append, readDigits, if_neg (isSep_not_digit d hd)]
  | cons c t ih =>
    rw [List.cons_append, readDigits, if_pos (hs c (List.mem_cons_self _ _)),
      ih (fun y hy => hs y (List.mem_cons_of_mem _ hy))]

theorem readInt_Itoa (sp : Bytes) (v : Int) (d : Nat) (rest : Bytes)
    (hsp : ∀ x ∈ sp, isSep x) (hv : goodInt v) (hd : isSep d) :
    readInt (sp ++ (Itoa v ++ d :: rest)) = ((v, true), d :: rest) := by
  have htext := Itoa_isIntText v
  have hdm := isIntText_digit_or_minus _ htext
  cases hs : Itoa v with
  | nil => exact absurd hs (isIntText_ne_nil _ htext)
  | cons c t =>
    have hc : isDigit c = true ∨ c = 45 := hdm c (by rw [hs]; exact List.mem_cons_self _ _)
    have hnsep : ¬ isSep c := not_isSep_of_digit_or_minus c hc
    unfold readInt
    have h1 : skipSpace (sp ++ (c :: t ++ d :: rest)) = c :: t ++ d :: rest :=
      skipSpace_seps sp c (t ++ d :: rest) hsp hnsep
    have h2 : skipBlanks (c :: t ++ d :: rest) = some (c :: t ++ d :: rest) := by
      rw [List.cons_append, skipBlanks, if_neg (fun h => hnsep (Or.inl h))]
    have h3 : readDigits (c :: t ++ d :: rest) = some (c :: t, d :: rest) :=
      readDigits_text (c :: t) d rest (by rw [← hs]; exact hdm) hd
    simp only [h1, h2, h3]
    rw [← hs, Atoi_Itoa v hv.1 hv.2]

theorem goodInt_of_small (v : Int) (h0 : 0 ≤ v) (h1 : v < 10 ^ 7) : goodInt v := by
  unfold goodInt
  constructor
  · have : (0 : Int) ≤ (2 : Int) ^ 63 := by positivity
    omega
  · have : (10 : Int) ^ 7 < (2 : Int) ^ 63 := by norm_num
    omega

theorem readObjRef_text (sp : Bytes) (id gen : Int) (d : Nat) (rest : Bytes)
    (hsp : ∀ x ∈ sp, isSep x) (h : goodRef id gen) (hd : isSep d) :
    readObjRef (sp ++ (writeObjRef id gen ++ d :: rest)) = .ok (.ref id gen, d :: rest) := by
  obtain ⟨h1, h2, h3, h4⟩ := h
  have hgid := goodInt_of_small id h1 h2
  have hggen := goodInt_of_small gen h3 (by omega)
  have hshape : writeObjRef id gen ++ d :: rest
      = Itoa id ++ 32 :: ([] ++ (Itoa gen ++ 32 :: ([] ++ (B "R" ++ d :: rest)))) := by
    simp [writeObjRef, B]
  unfold readObjRef
  rw [hshape, readInt_Itoa sp id 32 _ hsp hgid (Or.inl rfl)]
  simp only
  have e1 : (32 : Nat) :: ([] ++ (Itoa gen ++ 32 :: ([] ++ (B "R" ++ d :: rest))))
      = [32] ++ (Itoa gen ++ 32 :: ([] ++ (B "R" ++ d :: rest))) := rfl
  rw [e1, readInt_Itoa [32] gen 32 _ (by simp [isSep]) hggen (Or.inl rfl)]
  simp only
  have e2 : (32 : Nat) :: ([] ++ (B "R" ++ d :: rest)) = [32] ++ (B "R" ++ d :: rest) := rfl
  rw [e2, readString_token [32] (B "R") d rest (by simp [isSep]) (by decide)
    (by intro c hc; simp [B] at hc; subst hc; simp [isSep]) hd]
  simp

end Pdf

namespace Pdf

/-! ## Numbers and references in the window -/

theorem rangeBytes_digits (ds : Bytes) (h : ∀ c ∈ ds, isDigit c = true) :
    (rangeBytes 0 ds).all isDigit = true := by
  have hascii : ∀ c ∈ ds, c < 0x80 := by
    intro c hc
    have := h c hc
    simp [isDigit] at this
    omega
  rw [rangeBytes_ascii ds hascii]
  exact List.all_eq_true.mpr h

/-- Digits, with or without a `-` before them, pass `isNumber`; so does a
lone `-` and the empty string. -/
theorem isNumber_digits (ds : Bytes) (h : ∀ c ∈ ds, isDigit c = true) :
    isNumber ds = true ∧ isNumber (45 :: ds) = true := by
  have hB : B "-" = [45] := by decide
  constructor
  · unfold isNumber
    rw [hB]
    cases ds with
    | nil => rfl
    | cons c t =>
      have hc := h c (List.mem_cons_self _ _)
      have hne : c ≠ 45 := by
        simp [isDigit] at hc
        omega
      have hp : [45].isPrefixOf (c :: t) = false := by
        simp [List.isPrefixOf]
        exact fun hh => hne hh.symm
      simp only [hp]
      exact rangeBytes_digits _ h
  · unfold isNumber
    rw [hB]
    have hp : [45].isPrefixOf (45 :: ds) = true := by simp [List.isPrefixOf]
    simp only [hp, if_true, List.drop_succ_cons, List.drop_zero]
    exact rangeBytes_digits _ h

theorem isNumber_intText (s : Bytes) (h : isIntText s) : isNumber s = true := by
  obtain ⟨ds, _, hds, rfl | rfl⟩ := h
  · exact (isNumber_digits _ hds).1
  · exact (isNumber_digits _ hds).2

theorem isNumber_intText_take (s : Bytes) (n : Nat) (h : isIntText s) :
    isNumber (s.take n) = true := by
  obtain ⟨ds, _, hds, rfl | rfl⟩ := h
  · exact (isNumber_digits _ (fun c hc => hds c (List.mem_of_mem_take hc))).1
  · cases n with
    | zero => rfl
    | succ n =>
      rw [List.take_succ_cons]
      exact (isNumber_digits _ (fun c hc => hds c (List.mem_of_mem_take hc))).2

theorem digit_visible (c : Nat) (h : isDigit c = true ∨ c = 45) : visible c := by
  have h2 : (48 ≤ c ∧ c ≤ 57) ∨ c = 45 := by
    simpa [isDigit] using h
  refine ⟨by omega, ?_⟩
  unfold asciiSpace
  simp
  omega

theorem intText_clean (s : Bytes) (h : isIntText s) : ∀ c ∈ s, c ≠ 32 ∧ c ≠ 10 := by
  intro c hc
  have := isIntText_digit_or_minus s h c hc
  simp [isDigit] at this
  omega

/-- The text of an integer, split at its last byte. -/
theorem intText_snoc (s : Bytes) (h : isIntText s) :
    ∃ a x, s = a ++ [x] ∧ visible x ∧ ∀ c, s.head? = some c → visible c := by
  have hne := isIntText_ne_nil s h
  have hdm := isIntText_digit_or_minus s h
  refine ⟨s.dropLast, s.getLast hne, (List.dropLast_append_getLast hne).symm, ?_, ?_⟩
  · exact digit_visible _ (hdm _ (List.getLast_mem hne))
  · intro c hc
    exact digit_visible _ (hdm _ (List.mem_of_mem_head? hc))

theorem Itoa_length (v : Int) (k : Nat) (hk : 1 ≤ k) (h0 : 0 ≤ v) (h1 : v < 10 ^ k) :
    (Itoa v).length ≤ k := by
  cases v with
  | ofNat n =>
    unfold Itoa
    obtain ⟨_, _, _, h4⟩ := natDigits_spec (n + 1) n (by omega)
    apply h4 k hk
    have : ((n : Nat) : Int) < ((10 ^ k : Nat) : Int) := by
      push_cast
      exact h1
    exact_mod_cast this
  | negSucc n => exact absurd h0 (by simp)

theorem Itoa_digits (v : Int) (h0 : 0 ≤ v) : ∀ c ∈ Itoa v, isDigit c = true := by
  cases v with
  | ofNat n =>
    unfold Itoa
    exact (natDigits_spec (n + 1) n (by omega)).1
  | negSucc n => exact absurd h0 (by simp)

theorem noRefAhead_head (c : Nat) (t : Bytes) (hc : c < 0x80) (hd : isDigit c = false)
    (hm : c ≠ 45) (hs : c ≠ 32) (hn : c ≠ 10) : noRefAhead (c :: t) := by
  intro b hb w1 w2 tl hsplit hnum
  have hr : ReplaceNL (c :: t) = c :: ReplaceNL t := by simp [ReplaceNL, hn]
  rw [hr] at hb
  rcases List.prefix_cons_iff.mp hb with rfl | ⟨t', rfl, _⟩
  · simp [Split] at hsplit
  · obtain ⟨w, ws, hw⟩ := Split_cons_ne 32 c t' hs
    rw [hw] at hsplit
    injection hsplit with h1 _
    subst h1
    rw [isNumber_head_false c w hc hd hm] at hnum
    exact absurd hnum (by simp)

theorem prefix_append_sep (b tok : Bytes) (x : Nat) (r : Bytes) (h : b <+: tok ++ x :: r) :
    b <+: tok ∨ ∃ b3, b = tok ++ x :: b3 ∧ b3 <+: r := by
  induction tok generalizing b with
  | nil =>
    rcases List.prefix_cons_iff.mp h with rfl | ⟨t, rfl, ht⟩
    · exact Or.inl (List.prefix_refl _)
    · exact Or.inr ⟨t, rfl, ht⟩
  | cons c tok ih =>
    rw [List.cons_append] at h
    rcases List.prefix_cons_iff.mp h with rfl | ⟨t, rfl, ht⟩
    · exact Or.inl (List.nil_prefix)
    · rcases ih t ht with h1 | ⟨b3, rfl, h3⟩
      · exact Or.inl (List.prefix_cons_iff.mpr (Or.inr ⟨t, rfl, h1⟩))
      · exact Or.inr ⟨b3, rfl, h3⟩

theorem noRefAhead_word (tok r : Bytes) (hclean : ∀ c ∈ tok, c ≠ 32 ∧ c ≠ 10)
    (hr : ∀ c, r.head? = some c → c ≠ 32 ∧ c ≠ 10 ∧ c ≠ 82 ∧ c ≠ 111) :
    noRefAhead (tok ++ 32 :: r) := by
  intro b hb w1 w2 tl hsplit _
  have hrep : ReplaceNL (tok ++ 32 :: r) = tok ++ 32 :: ReplaceNL r := by
    rw [ReplaceNL_append, ReplaceNL_id tok (fun c hc => (hclean c hc).2)]
    simp [ReplaceNL]
  rw [hrep] at hb
  rcases prefix_append_sep b tok 32 _ hb with h1 | ⟨b3, rfl, h3⟩
  · have : Split 32 b = [b] := Split_word 32 b (fun c hc => (hclean c (h1.subset hc)).1)
    rw [this] at hsplit
    simp at hsplit
  · rw [Split_word_sep 32 tok b3 (fun c hc => (hclean c hc).1)] at hsplit
    injection hsplit with _ h2
    cases b3 with
    | nil =>
      simp [Split] at h2
      rw [h2.1]
      constructor <;> decide
    | cons c3 t3 =>
      cases r with
      | nil => simp [ReplaceNL] at h3
      | cons c r' =>
        obtain ⟨h32, h10, h82, h111⟩ := hr c rfl
        have hrr : ReplaceNL (c :: r') = c :: ReplaceNL r' := by simp [ReplaceNL, h10]
        rw [hrr] at h3
        rcases List.prefix_cons_iff.mp h3 with h | ⟨t, ht, _⟩
        · cases h
        · injection ht with e1 e2
          subst e1
          obtain ⟨w, ws, hw⟩ := Split_cons_ne 32 c3 t3 h32
          rw [hw] at h2
          injection h2 with e3 _
          subst e3
          have hR : B "R" = [82] := by decide
          have hO : B "obj" = [111, 98, 106] := by decide
          rw [hR, hO]
          constructor
          · intro hh
            injection hh with e _
            exact h82 e
          · intro hh
            injection hh with e _
            exact h111 e

theorem classify_num_single (w : Bytes) (h : isNumber w = true) : classify [w] = .Num := by
  simp [classify, thirdWord, h]

theorem classify_num (w : Bytes) (ws : List Bytes) (h : isNumber w = true)
    (hws : ∀ w1 w2 tl, ws = w1 :: w2 :: tl → isNumber w1 = true → w2 ≠ B "R" ∧ w2 ≠ B "obj") :
    classify (w :: ws) = .Num := by
  have h3 : thirdWord (w :: ws) ≠ some (B "R") ∧ thirdWord (w :: ws) ≠ some (B "obj") := by
    unfold thirdWord
    split
    · rename_i a b c d heq
      injection heq with e1 e2
      subst e1 e2
      by_cases hb : isNumber b = true
      · have := hws b c d rfl hb
        simp [h, hb]
        exact this
      · simp [hb]
    · simp
  simp [classify, h3.1, h3.2, h]

/-- The integer `v` written after one space and followed by a separator is
classified as a number, whatever its length, when what follows cannot make
it look like a reference. -/
theorem detectType_num (v : Int) (d : Nat) (rest : Bytes) (hd : isSep d)
    (hrest : noRefAhead rest) : detectType (32 :: (Itoa v ++ d :: rest)) = .Num := by
  have htext := Itoa_isIntText v
  have hcons : (32 : Nat) :: (Itoa v ++ d :: rest) = [32] ++ (Itoa v ++ d :: rest) := rfl
  have hsp : ∀ c ∈ [(32 : Nat)], isSep c := by simp [isSep]
  by_cases hlen : (Itoa v).length ≤ 18
  · obtain ⟨a, x, hax, hx, hhead⟩ := intText_snoc _ htext
    obtain ⟨b', hb, heq⟩ := detectType_text [32] (Itoa v) d rest a x hsp hd hax
      (fun c hc => (intText_clean _ htext c hc).2) (by simp; omega) hhead hx
    rw [hcons, heq]
    rcases hb with rfl | ⟨b'', rfl, hpre⟩
    · rw [List.append_nil, Split_word 32 _ (fun c hc => (intText_clean _ htext c hc).1)]
      exact classify_num_single _ (isNumber_intText _ htext)
    · rw [Split_word_sep 32 _ b'' (fun c hc => (intText_clean _ htext c hc).1)]
      exact classify_num _ _ (isNumber_intText _ htext)
        (fun w1 w2 tl hs hn => hrest b'' hpre w1 w2 tl hs hn)
  · have htake : isIntText ((Itoa v).take 19) := by
      obtain ⟨ds, hne, hds, h | h⟩ := htext
      · refine ⟨ds.take 19, ?_, fun c hc => hds c (List.mem_of_mem_take hc), Or.inl (by rw [h])⟩
        intro h0
        rcases List.take_eq_nil_iff.mp h0 with h19 | h19
        · omega
        · exact hne h19
      · refine ⟨ds.take 18, ?_, fun c hc => hds c (List.mem_of_mem_take hc),
          Or.inr (by rw [h, List.take_succ_cons])⟩
        intro h0
        rcases List.take_eq_nil_iff.mp h0 with h18 | h18
        · omega
        · exact hne h18
    obtain ⟨a, x, hax, hx, hhead⟩ := intText_snoc _ htake
    have hwin : ReplaceNL ((Itoa v ++ d :: rest).take (20 - [(32 : Nat)].length)) = a ++ x :: [] := by
      have : (Itoa v ++ d :: rest).take 19 = (Itoa v).take 19 := by
        rw [List.take_append_eq_append_take]
        have : 19 - (Itoa v).length = 0 := by omega
        rw [this]
        simp
      simp only [List.length_singleton]
      rw [this, ReplaceNL_id _ (fun c hc => (intText_clean _ htake c hc).2), hax]
    obtain ⟨b', hb, heq⟩ := detectType_trim [32] (Itoa v ++ d :: rest) a x [] hsp (by simp) hwin
      (by rw [← hax]; exact hhead) hx
    have hb0 : b' = [] := List.prefix_nil.mp hb
    rw [hcons, heq, hb0, ← hax,
      Split_word 32 _ (fun c hc => (intText_clean _ htake c hc).1)]
    exact classify_num_single _ (isNumber_intText _ htake)

theorem writeObjRef_eq (id gen : Int) :
    writeObjRef id gen = Itoa id ++ 32 :: (Itoa gen ++ 32 :: [82]) := by
  simp [writeObjRef, B]

/-- The reference `id gen R` written after one space and followed by a
separator is classified as a reference. -/
theorem detectType_ref (id gen : Int) (d : Nat) (rest : Bytes) (h : goodRef id gen)
    (hd : isSep d) : detectType (32 :: (writeObjRef id gen ++ d :: rest)) = .ObjRef := by
  obtain ⟨h1, h2, h3, h4⟩ := h
  have hid := Itoa_isIntText id
  have hgen := Itoa_isIntText gen
  have hl1 := Itoa_length id 7 (by omega) h1 h2
  have hl2 := Itoa_length gen 5 (by omega) h3 h4
  have hcons : (32 : Nat) :: (writeObjRef id gen ++ d :: rest)
      = [32] ++ (writeObjRef id gen ++ d :: rest) := rfl
  have hnl : ∀ c ∈ writeObjRef id gen, c ≠ 10 := by
    intro c hc
    rw [writeObjRef_eq] at hc
    simp at hc
    rcases hc with hc | rfl | hc | rfl | rfl
    · exact (intText_clean _ hid c hc).2
    · omega
    · exact (intText_clean _ hgen c hc).2
    · omega
    · omega
  have hhead : ∀ c, (writeObjRef id gen).head? = some c → visible c := by
    intro c hc
    rw [writeObjRef_eq] at hc
    obtain ⟨_, _, _, _, hh⟩ := intText_snoc _ hid
    apply hh
    cases hI : Itoa id with
    | nil => exact absurd hI (isIntText_ne_nil _ hid)
    | cons c0 t0 =>
      rw [hI] at hc
      simpa using hc
  obtain ⟨b', hb, heq⟩ := detectType_text [32] (writeObjRef id gen) d rest
    (Itoa id ++ 32 :: (Itoa gen ++ [32])) 82 (by simp [isSep]) hd
    (by rw [writeObjRef_eq]; simp) hnl
    (by rw [writeObjRef_eq]; simp; omega) hhead (visible_of 82 (by omega) (by decide))
  rw [hcons, heq, writeObjRef_eq]
  have hshape : Itoa id ++ 32 :: (Itoa gen ++ 32 :: [82]) ++ b'
      = Itoa id ++ 32 :: (Itoa gen ++ 32 :: (82 :: b')) := by simp
  rw [hshape, Split_word_sep 32 _ _ (fun c hc => (intText_clean _ hid c hc).1),
    Split_word_sep 32 _ _ (fun c hc => (intText_clean _ hgen c hc).1)]
  have h3w : ∃ ws, Split 32 (82 :: b') = B "R" :: ws := by
    rcases hb with rfl | ⟨b'', rfl, _⟩
    · exact ⟨[], by decide⟩
    · exact ⟨Split 32 b'', by
        have : (82 : Nat) :: 32 :: b'' = [82] ++ 32 :: b'' := rfl
        rw [this, Split_word_sep 32 [82] b'' (by simp)]
        rfl⟩
  obtain ⟨ws, hws⟩ := h3w
  rw [hws]
  simp [classify, thirdWord, isNumber_intText _ hid, isNumber_intText _ hgen]

end Pdf

namespace Pdf

/-! ## `readArray` on the text of `writeArray` -/

theorem goodName_cons (n : Bytes) (h : goodName n) : ∃ t, n = 47 :: t := by
  obtain ⟨hh, _⟩ := h
  cases n with
  | nil => simp at hh
  | cons c t =>
    simp at hh
    exact ⟨t, by rw [hh]⟩

theorem goodName_clean (n : Bytes) (h : goodName n) : ∀ c ∈ n, ¬ isSep c := by
  intro c hc hs
  have := h.2 c hc
  rcases hs with rfl | rfl
  · exact this.1 rfl
  · exact this.2 rfl

theorem goodName_ne_nil (n : Bytes) (h : goodName n) : n ≠ [] := by
  obtain ⟨t, rfl⟩ := goodName_cons n h
  simp

theorem itemText_ne_nil (i : Value) (h : goodItem i) : itemText i ≠ [] := by
  cases i with
  | name n => exact goodName_ne_nil n h.1
  | int v => exact isIntText_ne_nil _ (Itoa_isIntText v)
  | ref id gen =>
    simp only [itemText]
    rw [writeObjRef_eq]
    simp
  | dict d => exact absurd h (by simp [goodItem])
  | array a => exact absurd h (by simp [goodItem])
  | str s => exact absurd h (by simp [goodItem])

/-- The byte an array tail starts with: `]`, `/`, a digit or `-`. -/
theorem arrayTail_head (a : List Value) (F : Bytes) (ha : ∀ i ∈ a, goodItem i) :
    ∃ c t, arrayTail a F = c :: t ∧ c < 0x80 ∧ c ≠ 32 ∧ c ≠ 10 ∧ c ≠ 82 ∧ c ≠ 111 ∧
      (isDigit c = true ∨ c = 45 ∨ c = 47 ∨ c = 93) := by
  cases a with
  | nil => exact ⟨93, 10 :: F, rfl, by omega, by omega, by omega, by omega, by omega, by simp⟩
  | cons i r =>
    have hi := ha i (List.mem_cons_self _ _)
    have hdig : ∀ s : Bytes, ∀ rest : Bytes, isIntText s →
        ∃ c t, s ++ rest = c :: t ∧ c < 0x80 ∧ c ≠ 32 ∧ c ≠ 10 ∧ c ≠ 82 ∧ c ≠ 111 ∧
          (isDigit c = true ∨ c = 45 ∨ c = 47 ∨ c = 93) := by
      intro s rest hs
      cases hs0 : s with
      | nil => exact absurd hs0 (isIntText_ne_nil _ hs)
      | cons c t =>
        have hc := isIntText_digit_or_minus s hs c (by rw [hs0]; exact List.mem_cons_self _ _)
        have hc2 : (48 ≤ c ∧ c ≤ 57) ∨ c = 45 := by simpa [isDigit] using hc
        refine ⟨c, t ++ rest, rfl, by omega, by omega, by omega, by omega, by omega, ?_⟩
        rcases hc with hc | hc
        · exact Or.inl hc
        · exact Or.inr (Or.inl hc)
    cases i with
    | name n =>
      obtain ⟨t, rfl⟩ := goodName_cons n hi.1
      exact ⟨47, t ++ 32 :: arrayTail r F, rfl, by omega, by omega, by omega, by omega,
        by omega, by simp⟩
    | int v => exact hdig (Itoa v) _ (Itoa_isIntText v)
    | ref id gen =>
      simp only [arrayTail, itemText]
      rw [writeObjRef_eq, List.append_assoc]
      exact hdig (Itoa id) _ (Itoa_isIntText id)
    | dict d => exact absurd hi (by simp [goodItem])
    | array a => exact absurd hi (by simp [goodItem])
    | str s => exact absurd hi (by simp [goodItem])

/-- Nothing in an array tail makes the number before it look like a
reference. -/
theorem noRefAhead_arrayTail (a : List Value) (F : Bytes) (ha : ∀ i ∈ a, goodItem i) :
    noRefAhead (arrayTail a F) := by
  have hshape : ∀ (s : Bytes) (r : List Value), isIntText s → (∀ i ∈ r, goodItem i) →
      noRefAhead (s ++ 32 :: arrayTail r F) := by
    intro s r hs hr
    apply noRefAhead_word s _ (intText_clean s hs)
    intro c hc
    obtain ⟨c0, t0, h0, _, h32, h10, h82, h111, _⟩ := arrayTail_head r F hr
    rw [h0] at hc
    simp at hc
    subst hc
    exact ⟨h32, h10, h82, h111⟩
  cases a with
  | nil => exact noRefAhead_head 93 _ (by omega) (by decide) (by omega) (by omega) (by omega)
  | cons i r =>
    have hi := ha i (List.mem_cons_self _ _)
    have hr : ∀ j ∈ r, goodItem j := fun j hj => ha j (List.mem_cons_of_mem _ hj)
    cases i with
    | name n =>
      obtain ⟨t, rfl⟩ := goodName_cons n hi.1
      exact noRefAhead_head 47 _ (by omega) (by decide) (by omega) (by omega) (by omega)
    | int v => exact hshape (Itoa v) r (Itoa_isIntText v) hr
    | ref id gen =>
      simp only [arrayTail, itemText]
      rw [writeObjRef_eq, List.append_assoc]
      apply noRefAhead_word (Itoa id) _ (intText_clean _ (Itoa_isIntText id))
      intro c hc
      have hg := Itoa_isIntText gen
      cases hs0 : Itoa gen with
      | nil => exact absurd hs0 (isIntText_ne_nil _ hg)
      | cons c0 t0 =>
        rw [hs0] at hc
        simp at hc
        subst hc
        have hc := isIntText_digit_or_minus _ hg c0 (by rw [hs0]; exact List.mem_cons_self _ _)
        have hc2 : (48 ≤ c0 ∧ c0 ≤ 57) ∨ c0 = 45 := by simpa [isDigit] using hc
        omega
    | dict d => exact absurd hi (by simp [goodItem])
    | array a => exact absurd hi (by simp [goodItem])
    | str s => exact absurd hi (by simp [goodItem])

theorem readString_close (sp : Bytes) (F : Bytes) (hsp : ∀ x ∈ sp, isSep x) :
    readString (sp ++ 93 :: 10 :: F) = (.ok [93], 10 :: F) := by
  have := readString_token sp [93] 10 F hsp (by simp) (by simp [isSep]) (Or.inr rfl)
  simpa using this

/-- The last turn of the loop of `readArray`: at `]` it returns the items
read so far and leaves the newline after `]`. -/
theorem readArrayLoop_close (sp : Bytes) (F : Bytes) (acc : List Value) (fuel : Nat)
    (hsp : ∀ x ∈ sp, isSep x) (hlen : sp.length ≤ 2) :
    readArrayLoop (fuel + 1) (sp ++ 93 :: 10 :: F) acc = .ok (acc, 10 :: F) := by
  have hdt : detectType (sp ++ 93 :: 10 :: F) = .CmdEndArray := by
    have := detectType_arrayClose sp 10 F hsp hlen (Or.inr rfl)
    simpa [B] using this
  rw [readArrayLoop, hdt]
  simp only [readString_close sp F hsp]
  simp

/-- The loop of `readArray` reads the items `a` in order. -/
theorem readArrayLoop_tail (a : List Value) (ha : ∀ i ∈ a, goodItem i) (F : Bytes) :
    ∀ (acc : List Value) (fuel : Nat), a.length + 1 ≤ fuel →
      readArrayLoop fuel (32 :: arrayTail a F) acc = .ok (acc ++ a, 10 :: F) := by
  induction a with
  | nil =>
    intro acc fuel hf
    obtain ⟨f, rfl⟩ : ∃ f, fuel = f + 1 := ⟨fuel - 1, by simp at hf; omega⟩
    have := readArrayLoop_close [32] F acc f (by simp [isSep]) (by simp)
    simpa [arrayTail] using this
  | cons i r ih =>
    intro acc fuel hf
    obtain ⟨f, rfl⟩ : ∃ f, fuel = f + 1 := ⟨fuel - 1, by simp at hf; omega⟩
    have hf2 : r.length + 1 ≤ f := by simp at hf; omega
    have hi := ha i (List.mem_cons_self _ _)
    have hr : ∀ j ∈ r, goodItem j := fun j hj => ha j (List.mem_cons_of_mem _ hj)
    have hsp : ∀ x ∈ [(32 : Nat)], isSep x := by simp [isSep]
    have ih2 := ih hr (acc ++ [i]) f hf2
    rw [List.append_assoc, List.singleton_append] at ih2
    cases i with
    | name n =>
      obtain ⟨t, rfl⟩ := goodName_cons n hi.1
      have hdt : detectType (32 :: arrayTail (.name (47 :: t) :: r) F) = .Name :=
        detectType_name [32] _ hsp (by simp)
      have hrs : readString (32 :: arrayTail (.name (47 :: t) :: r) F)
          = (.ok (47 :: t), 32 :: arrayTail r F) :=
        readString_token [32] (47 :: t) 32 (arrayTail r F) hsp (by simp)
          (goodName_clean _ hi.1) (Or.inl rfl)
      have hsuf : (B "]").isSuffixOf (47 :: t) = false := by
        have h93 := hi.2
        have hB : B "]" = [93] := by decide
        rw [hB]
        cases hsx : [93].isSuffixOf (47 :: t) with
        | false => rfl
        | true =>
          exfalso
          apply h93
          obtain ⟨p, hp⟩ := List.isSuffixOf_iff_suffix.mp hsx
          rw [← hp]
          simp
      rw [readArrayLoop, hdt]
      simp only [hrs, hsuf]
      exact ih2
    | int v =>
      have hdt : detectType (32 :: arrayTail (.int v :: r) F) = .Num :=
        detectType_num v 32 (arrayTail r F) (Or.inl rfl) (noRefAhead_arrayTail r F hr)
      have hri : readInt (32 :: arrayTail (.int v :: r) F) = ((v, true), 32 :: arrayTail r F) :=
        readInt_Itoa [32] v 32 (arrayTail r F) hsp hi (Or.inl rfl)
      rw [readArrayLoop, hdt]
      simp only [hri]
      exact ih2
    | ref id gen =>
      have hdt : detectType (32 :: arrayTail (.ref id gen :: r) F) = .ObjRef :=
        detectType_ref id gen 32 (arrayTail r F) hi (Or.inl rfl)
      have hro : readObjRef (32 :: arrayTail (.ref id gen :: r) F)
          = .ok (.ref id gen, 32 :: arrayTail r F) :=
        readObjRef_text [32] id gen 32 (arrayTail r F) hsp hi (Or.inl rfl)
      rw [readArrayLoop, hdt]
      simp only [hro]
      exact ih2
    | dict d => exact absurd hi (by simp [goodItem])
    | array a => exact absurd hi (by simp [goodItem])
    | str s => exact absurd hi (by simp [goodItem])

/-- What `writeArrayItems` writes, followed by ` ]` and a newline, is the
array tail of the items. -/
theorem writeArrayItems_tail (a : List Value) (ha : ∀ i ∈ a, goodItem i) (hne : a ≠ []) :
    ∃ t, writeArrayItems a = .ok t ∧ a.length ≤ t.length ∧
      ∀ F, t ++ 32 :: 93 :: 10 :: F = arrayTail a F := by
  induction a with
  | nil => exact absurd rfl hne
  | cons i r ih =>
    have hi := ha i (List.mem_cons_self _ _)
    have hr : ∀ j ∈ r, goodItem j := fun j hj => ha j (List.mem_cons_of_mem _ hj)
    have hlen : 1 ≤ (itemText i).length := by
      have := itemText_ne_nil i hi
      cases h : itemText i with
      | nil => exact absurd h this
      | cons c t => simp
    cases r with
    | nil =>
      refine ⟨itemText i, ?_, by simpa using hlen, ?_⟩
      · cases i with
        | name n => simp [writeArrayItems, itemText]
        | int v => simp [writeArrayItems, itemText]
        | ref id gen => simp [writeArrayItems, itemText]
        | dict d => exact absurd hi (by simp [goodItem])
        | array a => exact absurd hi (by simp [goodItem])
        | str s => exact absurd hi (by simp [goodItem])
      · intro F
        simp [arrayTail]
    | cons j r2 =>
      obtain ⟨t, ht, hl, htail⟩ := ih hr (by simp)
      refine ⟨itemText i ++ [32] ++ t, ?_, ?_, ?_⟩
      · cases i with
        | name n =>
          rw [writeArrayItems]
          simp only [ht]
          simp [itemText]
        | int v =>
          rw [writeArrayItems]
          simp only [ht]
          simp [itemText]
        | ref id gen =>
          rw [writeArrayItems]
          simp only [ht]
          simp [itemText]
        | dict d => exact absurd hi (by simp [goodItem])
        | array a => exact absurd hi (by simp [goodItem])
        | str s => exact absurd hi (by simp [goodItem])
      · simp at hl ⊢
        omega
      · intro F
        rw [arrayTail, ← htail F]
        simp

/-- `readArray` on what `writeArray` writes for the items `a`, after the
space `writeDict` puts before it, returns `a`. -/
theorem readArray_writeArray (a : List Value) (ha : ∀ i ∈ a, goodItem i) :
    ∃ t, writeArray a = .ok t ∧ a.length + 4 ≤ t.length ∧
      ∃ d rest0, t = B "[" ++ d :: rest0 ∧ isSep d ∧
      ∀ F fuel, a.length + 1 ≤ fuel →
        readArray fuel (32 :: (t ++ 10 :: F)) = .ok (a, 10 :: F) := by
  have hsk : ∀ s : Bytes, skipSpace (32 :: 91 :: s) = 91 :: s := by
    intro s
    exact skipSpace_seps [32] 91 s (by simp [isSep]) (by simp [isSep])
  by_cases hne : a = []
  · subst hne
    refine ⟨B "[ " ++ [] ++ B " ]", rfl, by decide, 32, B " ]", by decide, Or.inl rfl, ?_⟩
    intro F fuel hf
    obtain ⟨f, rfl⟩ : ∃ f, fuel = f + 1 := ⟨fuel - 1, by simp at hf; omega⟩
    have hs : (32 : Nat) :: (B "[ " ++ [] ++ B " ]" ++ 10 :: F)
        = 32 :: 91 :: ([32, 32] ++ 93 :: 10 :: F) := by simp [B]
    rw [hs, readArray, hsk]
    simp only [ne_eq, not_true_eq_false, if_false]
    exact readArrayLoop_close [32, 32] F [] f (by simp [isSep]) (by simp)
  · obtain ⟨t, ht, hl, htail⟩ := writeArrayItems_tail a ha hne
    refine ⟨B "[ " ++ t ++ B " ]", ?_, ?_, 32, t ++ B " ]", by simp [B], Or.inl rfl, ?_⟩
    · simp [writeArray, ht]
    · simp [B]
      omega
    · intro F fuel hf
      have hs : (32 : Nat) :: (B "[ " ++ t ++ B " ]" ++ 10 :: F)
          = 32 :: 91 :: (32 :: arrayTail a F) := by
        rw [← htail F]
        simp [B]
      rw [hs, readArray, hsk]
      simp only [ne_eq, not_true_eq_false, if_false]
      have := readArrayLoop_tail a ha F [] fuel hf
      simpa using this

end Pdf

namespace Pdf

/-! ## `readDict` on the text of `writeDict` -/

theorem detectType_key (k : Bytes) (hk : goodName k) (s : Bytes) :
    detectType (10 :: (k ++ s)) = .Name := by
  obtain ⟨t, rfl⟩ := goodName_cons k hk
  exact detectType_name [10] (t ++ s) (by simp [isSep]) (by simp)

theorem readString_key (k : Bytes) (hk : goodName k) (d : Nat) (s : Bytes) (hd : isSep d) :
    readString (10 :: (k ++ d :: s)) = (.ok k, d :: s) :=
  readString_token [10] k d s (by simp [isSep]) (goodName_ne_nil k hk) (goodName_clean k hk) hd

/-- The last turn of the loop of `readDict`: at `>>` it returns the pairs
read so far and leaves the newline after `>>`. -/
theorem readDictLoop_end (rest : Bytes) (acc : List Pair) (f : Nat) :
    readDictLoop (f + 1) (10 :: (B ">>" ++ 10 :: rest)) acc = .ok (acc, 10 :: rest) := by
  have hrs : readString (10 :: (B ">>" ++ 10 :: rest)) = (.ok (B ">>"), 10 :: rest) :=
    readString_token [10] (B ">>") 10 rest (by simp [isSep]) (by decide)
      (by intro c hc; simp [B] at hc; subst hc; simp [isSep]) (Or.inr rfl)
  rw [readDictLoop, detectType_dictClose 10 rest (Or.inr rfl), hrs]

theorem readDictLoop_name (k n F : Bytes) (hk : goodName k) (hn : goodName n)
    (acc : List Pair) (f : Nat) :
    readDictLoop (f + 1) (10 :: (k ++ 32 :: (n ++ 10 :: F))) acc
      = readDictLoop f (10 :: F) (acc ++ [(k, .name n)]) := by
  have hsp : ∀ x ∈ [(32 : Nat)], isSep x := by simp [isSep]
  have h2 : detectType (32 :: (n ++ 10 :: F)) = .Name := by
    obtain ⟨t, rfl⟩ := goodName_cons n hn
    exact detectType_name [32] _ hsp (by simp)
  have h3 : readString (32 :: (n ++ 10 :: F)) = (.ok n, 10 :: F) :=
    readString_token [32] n 10 F hsp (goodName_ne_nil n hn) (goodName_clean n hn) (Or.inr rfl)
  rw [readDictLoop, detectType_key k hk]
  simp only [readString_key k hk 32 _ (Or.inl rfl), h2, h3]

theorem readDictLoop_int (k : Bytes) (v : Int) (F : Bytes) (hk : goodName k) (hv : goodInt v)
    (hF : noRefAhead F) (acc : List Pair) (f : Nat) :
    readDictLoop (f + 1) (10 :: (k ++ 32 :: (Itoa v ++ 10 :: F))) acc
      = readDictLoop f (10 :: F) (acc ++ [(k, .int v)]) := by
  have hsp : ∀ x ∈ [(32 : Nat)], isSep x := by simp [isSep]
  have h2 : detectType (32 :: (Itoa v ++ 10 :: F)) = .Num :=
    detectType_num v 10 F (Or.inr rfl) hF
  have h3 : readInt (32 :: (Itoa v ++ 10 :: F)) = ((v, true), 10 :: F) :=
    readInt_Itoa [32] v 10 F hsp hv (Or.inr rfl)
  rw [readDictLoop, detectType_key k hk]
  simp only [readString_key k hk 32 _ (Or.inl rfl), h2, h3]

theorem readDictLoop_ref (k : Bytes) (id gen : Int) (F : Bytes) (hk : goodName k)
    (hr : goodRef id gen) (acc : List Pair) (f : Nat) :
    readDictLoop (f + 1) (10 :: (k ++ 32 :: (writeObjRef id gen ++ 10 :: F))) acc
      = readDictLoop f (10 :: F) (acc ++ [(k, .ref id gen)]) := by
  have hsp : ∀ x ∈ [(32 : Nat)], isSep x := by simp [isSep]
  have h2 : detectType (32 :: (writeObjRef id gen ++ 10 :: F)) = .ObjRef :=
    detectType_ref id gen 10 F hr (Or.inr rfl)
  have h3 : readObjRef (32 :: (writeObjRef id gen ++ 10 :: F)) = .ok (.ref id gen, 10 :: F) :=
    readObjRef_text [32] id gen 10 F hsp hr (Or.inr rfl)
  rw [readDictLoop, detectType_key k hk]
  simp only [readString_key k hk 32 _ (Or.inl rfl), h2, h3]

theorem readDictLoop_array (k t : Bytes) (a : List Value) (F : Bytes) (hk : goodName k)
    (d : Nat) (rest0 : Bytes) (ht : t = B "[" ++ d :: rest0) (hd : isSep d)
    (f : Nat) (hread : readArray f (32 :: (t ++ 10 :: F)) = .ok (a, 10 :: F))
    (acc : List Pair) :
    readDictLoop (f + 1) (10 :: (k ++ 32 :: (t ++ 10 :: F))) acc
      = readDictLoop f (10 :: F) (acc ++ [(k, .array a)]) := by
  have h2 : detectType (32 :: (t ++ 10 :: F)) = .Array := by
    rw [ht, List.append_assoc]
    exact detectType_arrayOpen d _ hd
  rw [readDictLoop, detectType_key k hk]
  simp only [readString_key k hk 32 _ (Or.inl rfl), h2, hread]

theorem readDictLoop_dict (k inner : Bytes) (sub : List Pair) (F : Bytes) (hk : goodName k)
    (f : Nat) (hread : readDictLoop f (10 :: inner) [] = .ok (sub, 10 :: F))
    (acc : List Pair) :
    readDictLoop (f + 1) (10 :: (k ++ 10 :: (B "<<" ++ 10 :: inner))) acc
      = readDictLoop f (10 :: F) (acc ++ [(k, .dict sub)]) := by
  have h2 : detectType (10 :: (B "<<" ++ 10 :: inner)) = .Dict :=
    detectType_dictOpen 10 inner (Or.inr rfl)
  have h3 : readString (10 :: (B "<<" ++ 10 :: inner)) = (.ok (B "<<"), 10 :: inner) :=
    readString_token [10] (B "<<") 10 inner (by simp [isSep]) (by decide)
      (by intro c hc; simp [B] at hc; subst hc; simp [isSep]) (Or.inr rfl)
  rw [readDictLoop, detectType_key k hk]
  simp only [readString_key k hk 10 _ (Or.inr rfl), h2, h3, hread]
  simp

/-- What follows a value in the text of a dictionary starts with `/` or `>`. -/
theorem noRefAhead_pairs (t rest : Bytes) (ht : t = [] ∨ ∃ u, t = 47 :: u) :
    noRefAhead (t ++ (B ">>" ++ 10 :: rest)) := by
  rcases ht with rfl | ⟨u, rfl⟩
  · exact noRefAhead_head 62 _ (by omega) (by decide) (by omega) (by omega) (by omega)
  · exact noRefAhead_head 47 _ (by omega) (by decide) (by omega) (by omega) (by omega)

/-- The loop of `readDict` on what the loop of `writeDict` writes for the
pairs `d`, followed by `>>`, returns the pairs in order, given fuel for the
length of the text. -/
theorem readDictLoop_writePairs : ∀ (d : List Pair), goodDict d →
    ∃ t, writePairs d = .ok t ∧ (t = [] ∨ ∃ u, t = 47 :: u) ∧
      ∀ (acc : List Pair) (rest : Bytes) (f : Nat), t.length + 1 ≤ f →
        readDictLoop f (10 :: (t ++ (B ">>" ++ 10 :: rest))) acc = .ok (acc ++ d, 10 :: rest)
  | [], _ => by
    refine ⟨[], by simp [writePairs], Or.inl rfl, ?_⟩
    intro acc rest f hf
    obtain ⟨f0, rfl⟩ : ∃ f0, f = f0 + 1 := ⟨f - 1, by simp at hf; omega⟩
    simpa using readDictLoop_end rest acc f0
  | (k, v) :: r, h => by
    have hk : goodName k := by
      simp only [goodDict] at h
      exact h.1
    have hv : goodValue v := by
      simp only [goodDict] at h
      exact h.2.1
    have hr : goodDict r := by
      simp only [goodDict] at h
      exact h.2.2
    obtain ⟨rt, hrt, hrhead, hrread⟩ := readDictLoop_writePairs r hr
    obtain ⟨ku, hku⟩ := goodName_cons k hk
    have hklen : 1 ≤ k.length := by rw [hku]; simp
    match v, hv with
    | .name n, hv =>
      have hn : goodName n := by simpa [goodValue] using hv
      refine ⟨k ++ ([32] ++ n ++ [10]) ++ rt, by simp [writePairs, writeValue, hrt],
        Or.inr ⟨ku ++ ([32] ++ n ++ [10]) ++ rt, by rw [hku]; simp⟩, ?_⟩
      intro acc rest f hf
      obtain ⟨f0, rfl⟩ : ∃ f0, f = f0 + 1 := ⟨f - 1, by omega⟩
      have hs : (10 : Nat) :: (k ++ ([32] ++ n ++ [10]) ++ rt ++ (B ">>" ++ 10 :: rest))
          = 10 :: (k ++ 32 :: (n ++ 10 :: (rt ++ (B ">>" ++ 10 :: rest)))) := by simp
      rw [hs, readDictLoop_name k n _ hk hn acc f0,
        hrread _ rest f0 (by simp at hf; omega)]
      simp
    | .int i, hv =>
      have hi : goodInt i := by simpa [goodValue] using hv
      refine ⟨k ++ ([32] ++ Itoa i ++ [10]) ++ rt, by simp [writePairs, writeValue, hrt],
        Or.inr ⟨ku ++ ([32] ++ Itoa i ++ [10]) ++ rt, by rw [hku]; simp⟩, ?_⟩
      intro acc rest f hf
      obtain ⟨f0, rfl⟩ : ∃ f0, f = f0 + 1 := ⟨f - 1, by omega⟩
      have hs : (10 : Nat) :: (k ++ ([32] ++ Itoa i ++ [10]) ++ rt ++ (B ">>" ++ 10 :: rest))
          = 10 :: (k ++ 32 :: (Itoa i ++ 10 :: (rt ++ (B ">>" ++ 10 :: rest)))) := by simp
      rw [hs, readDictLoop_int k i _ hk hi (noRefAhead_pairs rt rest hrhead) acc f0,
        hrread _ rest f0 (by simp at hf; omega)]
      simp
    | .ref id gen, hv =>
      have hg : goodRef id gen := by simpa [goodValue] using hv
      refine ⟨k ++ ([32] ++ writeObjRef id gen ++ [10]) ++ rt,
        by simp [writePairs, writeValue, hrt],
        Or.inr ⟨ku ++ ([32] ++ writeObjRef id gen ++ [10]) ++ rt, by rw [hku]; simp⟩, ?_⟩
      intro acc rest f hf
      obtain ⟨f0, rfl⟩ : ∃ f0, f = f0 + 1 := ⟨f - 1, by omega⟩
      have hs : (10 : Nat) :: (k ++ ([32] ++ writeObjRef id gen ++ [10]) ++ rt
            ++ (B ">>" ++ 10 :: rest))
          = 10 :: (k ++ 32 :: (writeObjRef id gen ++ 10 :: (rt ++ (B ">>" ++ 10 :: rest)))) := by
        simp
      rw [hs, readDictLoop_ref k id gen _ hk hg acc f0,
        hrread _ rest f0 (by simp at hf; omega)]
      simp
    | .array a, hv =>
      have ha : ∀ i ∈ a, goodItem i := by simpa [goodValue] using hv
      obtain ⟨t, ht, hl, d0, rest0, hshape, hd0, hread⟩ := readArray_writeArray a ha
      refine ⟨k ++ ([32] ++ t ++ [10]) ++ rt, by simp [writePairs, writeValue, ht, hrt],
        Or.inr ⟨ku ++ ([32] ++ t ++ [10]) ++ rt, by rw [hku]; simp⟩, ?_⟩
      intro acc rest f hf
      obtain ⟨f0, rfl⟩ : ∃ f0, f = f0 + 1 := ⟨f - 1, by omega⟩
      have hs : (10 : Nat) :: (k ++ ([32] ++ t ++ [10]) ++ rt ++ (B ">>" ++ 10 :: rest))
          = 10 :: (k ++ 32 :: (t ++ 10 :: (rt ++ (B ">>" ++ 10 :: rest)))) := by simp
      rw [hs, readDictLoop_array k t a _ hk d0 rest0 hshape hd0 f0
          (hread _ f0 (by simp at hf; omega)) acc,
        hrread _ rest f0 (by simp at hf; omega)]
      simp
    | .dict sub, hv =>
      have hsub : goodDict sub := by simpa [goodValue] using hv
      obtain ⟨st, hst, _, hsread⟩ := readDictLoop_writePairs sub hsub
      refine ⟨k ++ ([10] ++ (B "<<\n" ++ st ++ B ">>\n")) ++ rt,
        by simp [writePairs, writeValue, dictFrame, hst, hrt],
        Or.inr ⟨ku ++ ([10] ++ (B "<<\n" ++ st ++ B ">>\n")) ++ rt, by rw [hku]; simp⟩, ?_⟩
      intro acc rest f hf
      obtain ⟨f0, rfl⟩ : ∃ f0, f = f0 + 1 := ⟨f - 1, by omega⟩
      have hs : (10 : Nat) :: (k ++ ([10] ++ (B "<<\n" ++ st ++ B ">>\n")) ++ rt
            ++ (B ">>" ++ 10 :: rest))
          = 10 :: (k ++ 10 :: (B "<<" ++ 10 :: (st ++ (B ">>" ++ 10 ::
              (rt ++ (B ">>" ++ 10 :: rest)))))) := by
        simp [B]
      have hlen : st.length + 1 ≤ f0 := by
        simp [B] at hf
        omega
      rw [hs, readDictLoop_dict k _ sub _ hk f0 (by simpa using hsread [] _ f0 hlen) acc,
        hrread _ rest f0 (by simp [B] at hf; omega)]
      simp
    | .str s, hv => exact absurd hv (by simp [goodValue])
termination_by d => sizeOf d

end Pdf

namespace Pdf

/-- C7: for a dictionary `d` whose keys and name values begin with `/` and
hold no space and no newline, and whose values are names, integers of Go's
`int` range, references with a non-negative id below `10^7` and generation
below `10^5`, nested dictionaries of the same kind, or arrays of names not
ending in `]`, integers and such references, `writeDict` succeeds and
`readDict`, run on the text it wrote followed by any input `rest` with fuel
for the length of the text, returns exactly the pairs `d`, in order, and
leaves the newline after the closing `>>`. -/
theorem readDict_writeDict (d : List Pair) (hd : goodDict d) (rest : Bytes) :
    ∃ text, writeDict d = .ok text ∧
      ∀ fuel, text.length ≤ fuel → readDict fuel (text ++ rest) = .ok (d, 10 :: rest) := by
  obtain ⟨t, ht, _, hread⟩ := readDictLoop_writePairs d hd
  refine ⟨B "<<\n" ++ t ++ B ">>\n", by simp [writeDict, dictFrame, ht], ?_⟩
  intro fuel hf
  have hs : B "<<\n" ++ t ++ B ">>\n" ++ rest
      = [] ++ (B "<<" ++ 10 :: (t ++ (B ">>" ++ 10 :: rest))) := by simp [B]
  have hrs : readString ([] ++ (B "<<" ++ 10 :: (t ++ (B ">>" ++ 10 :: rest))))
      = (.ok (B "<<"), 10 :: (t ++ (B ">>" ++ 10 :: rest))) :=
    readString_token [] (B "<<") 10 _ (by simp) (by decide)
      (by intro c hc; simp [B] at hc; subst hc; simp [isSep]) (Or.inr rfl)
  rw [hs, readDict]
  simp only [hrs]
  have := hread [] rest fuel (by simp [B] at hf; omega)
  simpa using this

/-- C7 at `dictSample`, followed by `endobj`. -/
theorem readDict_writeDict_witness :
    goodDict dictSample ∧ ∃ text, writeDict dictSample = .ok text ∧
      ∀ fuel, text.length ≤ fuel →
        readDict fuel (text ++ B "endobj") = .ok (dictSample, 10 :: B "endobj") :=
  have h : goodDict dictSample := by
    simp [dictSample, goodDict, goodValue, goodItem, goodName, goodInt, goodRef, B]
  ⟨h, readDict_writeDict dictSample h (B "endobj")⟩

end Pdf

namespace Pdf

/-! ## The lines of the cross-reference table -/

end Pdf

namespace Pdf

/-! ## The segments of the cross-reference table -/

end Pdf

namespace Pdf

/-! ## No error is returned on the way to the file -/

set_option maxRecDepth 100000

end Pdf

namespace Pdf

set_option maxRecDepth 100000

/-- C13 (the code fails it): `docNoFilter` holds an image stream with no
`/Filter` pair and `docFilterArray` one whose `/Filter` is an array;
`getNameObjByKey` returns nil for both, and `compressImageObj`, which reads
`filter.Name` without a nil check, ends in a nil pointer dereference whatever
the re-encoder does, and so does `SaveFile` with compress=true. -/
theorem compressImageObj_nil_filter :
    ((docNoFilter.Objects.get? 0).map Obj.IsImageStream = some true ∧
      (docNoFilter.Objects.get? 0).map (fun o => getNameObjByKey o.Dict (B "/Filter"))
        = some none) ∧
    ((docFilterArray.Objects.get? 0).map Obj.IsImageStream = some true ∧
      (docFilterArray.Objects.get? 0).map (fun o => getNameObjByKey o.Dict (B "/Filter"))
        = some none) ∧
    (∀ c, compressImageObj c docNoFilter = .crash "nil pointer dereference") ∧
    (∀ c, compressImageObj c docFilterArray = .crash "nil pointer dereference") ∧
    (∀ c, SaveFile c docNoFilter true = .crash "nil pointer dereference") ∧
    (∀ c, SaveFile c docFilterArray true = .crash "nil pointer dereference") ∧
    (SaveFile failCodec docNoFilter false).isOk = true :=
  ⟨⟨rfl, rfl⟩, ⟨rfl, rfl⟩, fun _ => rfl, fun _ => rfl, fun _ => rfl, fun _ => rfl, rfl⟩

end Pdf

namespace Pdf

set_option maxRecDepth 100000

/-- C14 (the code fails it): at ` - 0 R` the classifier sees a reference,
`readInt` fails on the id `-`, and `readObjRef` returns the zero object
`0 0` with a nil error instead of the error.  In `fileBadOffset` the offset
of the cross-reference entry is `-`: `readXref` drops the error of `readInt`
and `Parse` succeeds with the entry's `Offset` set to 0. -/
theorem readInt_failure_substituted :
    detectType (B " - 0 R\n") = .ObjRef ∧
    (readInt (B " - 0 R\n")).1 = (0, false) ∧
    readObjRef (B " - 0 R\n") = .ok (.ref 0 0, B " 0 R\n") ∧
    (readInt (B "- 00000 n \n")).1 = (0, false) ∧
    (∀ n, Parse (n + 5) (PDF.ofBytes fileBadOffset) = .ok docBadOffset) ∧
    docBadOffset.Xref = [⟨1, 0, 0, B "n"⟩] :=
  ⟨rfl, rfl, rfl, rfl, fun _ => rfl, rfl⟩

end Pdf

namespace Pdf

end Pdf

namespace Pdf

/-! ## Items of an array before a glued `]` -/

theorem readDigits_stop (s : Bytes) (d : Nat) (rest : Bytes)
    (hs : ∀ c ∈ s, isDigit c = true ∨ c = 45) (hd : ¬ (isDigit d = true ∨ d = 45)) :
    readDigits (s ++ d :: rest) = some (s, d :: rest) := by
  induction s with
  | nil =>
    rw [List.nil_append, readDigits, if_neg hd]
  | cons c t ih =>
    rw [List.cons_append, readDigits, if_pos (hs c (List.mem_cons_self _ _)),
      ih (fun y hy => hs y (List.mem_cons_of_mem _ hy))]

/-- `readInt` reads the integer `v` up to the first byte that is neither a
digit nor `-`, and leaves that byte. -/
theorem readInt_Itoa_stop (sp : Bytes) (v : Int) (d : Nat) (rest : Bytes)
    (hsp : ∀ x ∈ sp, isSep x) (hv : goodInt v) (hd : ¬ (isDigit d = true ∨ d = 45)) :
    readInt (sp ++ (Itoa v ++ d :: rest)) = ((v, true), d :: rest) := by
  have htext := Itoa_isIntText v
  have hdm := isIntText_digit_or_minus _ htext
  cases hs : Itoa v with
  | nil => exact absurd hs (isIntText_ne_nil _ htext)
  | cons c t =>
    have hc : isDigit c = true ∨ c = 45 := hdm c (by rw [hs]; exact List.mem_cons_self _ _)
    have hnsep : ¬ isSep c := not_isSep_of_digit_or_minus c hc
    unfold readInt
    have h1 : skipSpace (sp ++ (c :: t ++ d :: rest)) = c :: t ++ d :: rest :=
      skipSpace_seps sp c (t ++ d :: rest) hsp hnsep
    have h2 : skipBlanks (c :: t ++ d :: rest) = some (c :: t ++ d :: rest) := by
      rw [List.cons_append, skipBlanks, if_neg (fun h => hnsep (Or.inl h))]
    have h3 : readDigits (c :: t ++ d :: rest) = some (c :: t, d :: rest) :=
      readDigits_stop (c :: t) d rest (by rw [← hs]; exact hdm) hd
    simp only [h1, h2, h3]
    rw [← hs, Atoi_Itoa v hv.1 hv.2]

/-- An integer of 19 bytes or more after one space fills the window, and is
classified as a number whatever follows it. -/
theorem detectType_num_long (v : Int) (tail : Bytes) (hlen : 19 ≤ (Itoa v).length) :
    detectType (32 :: (Itoa v ++ tail)) = .Num := by
  have htext := Itoa_isIntText v
  have hcons : (32 : Nat) :: (Itoa v ++ tail) = [32] ++ (Itoa v ++ tail) := rfl
  have hsp : ∀ c ∈ [(32 : Nat)], isSep c := by simp [isSep]
  have htake : isIntText ((Itoa v).take 19) := by
    obtain ⟨ds, hne, hds, h | h⟩ := htext
    · refine ⟨ds.take 19, ?_, fun c hc => hds c (List.mem_of_mem_take hc), Or.inl (by rw [h])⟩
      intro h0
      rcases List.take_eq_nil_iff.mp h0 with h19 | h19
      · omega
      · exact hne h19
    · refine ⟨ds.take 18, ?_, fun c hc => hds c (List.mem_of_mem_take hc),
        Or.inr (by rw [h, List.take_succ_cons])⟩
      intro h0
      rcases List.take_eq_nil_iff.mp h0 with h18 | h18
      · omega
      · exact hne h18
  obtain ⟨a, x, hax, hx, hhead⟩ := intText_snoc _ htake
  have hwin : ReplaceNL ((Itoa v ++ tail).take (20 - [(32 : Nat)].length)) = a ++ x :: [] := by
    have : (Itoa v ++ tail).take 19 = (Itoa v).take 19 := by
      rw [List.take_append_eq_append_take]
      have : 19 - (Itoa v).length = 0 := by omega
      rw [this]
      simp
    simp only [List.length_singleton]
    rw [this, ReplaceNL_id _ (fun c hc => (intText_clean _ htake c hc).2), hax]
  obtain ⟨b', hb, heq⟩ := detectType_trim [32] (Itoa v ++ tail) a x [] hsp (by simp) hwin
    (by rw [← hax]; exact hhead) hx
  have hb0 : b' = [] := List.prefix_nil.mp hb
  rw [hcons, heq, hb0, ← hax,
    Split_word 32 _ (fun c hc => (intText_clean _ htake c hc).1)]
  exact classify_num_single _ (isNumber_intText _ htake)

/-- A token without spaces that fits in the window, with or without the
separator after it, is the first word `detectType` classifies. -/
theorem detectType_fit (sp tok : Bytes) (d : Nat) (rest : Bytes) (a : Bytes) (x : Nat)
    (hsp : ∀ c ∈ sp, isSep c) (hd : isSep d)
    (htok : tok = a ++ [x]) (hclean : ∀ c ∈ tok, c ≠ 32 ∧ c ≠ 10)
    (hlen : sp.length + tok.length ≤ 20)
    (ha : ∀ c, tok.head? = some c → visible c) (hx : visible x) :
    ∃ ws, detectType (sp ++ (tok ++ d :: rest)) = classify (tok :: ws) := by
  by_cases h : sp.length + tok.length + 1 ≤ 20
  · exact detectType_token sp tok d rest a x hsp hd htok hclean h ha hx
  · have hwin : ReplaceNL ((tok ++ d :: rest).take (20 - sp.length)) = a ++ x :: [] := by
      have h20 : 20 - sp.length = tok.length := by omega
      rw [h20, List.take_left' rfl, ReplaceNL_id tok (fun c hc => (hclean c hc).2), htok]
    obtain ⟨b', hb, heq⟩ := detectType_trim sp (tok ++ d :: rest) a x [] hsp (by omega) hwin
      (by rw [← htok]; exact ha) hx
    have hb0 : b' = [] := List.prefix_nil.mp hb
    refine ⟨[], ?_⟩
    rw [heq, hb0, ← htok, Split_word 32 tok (fun c hc => (hclean c hc).1)]

/-- The text of an integer with `]` glued onto it does not pass `isNumber`. -/
theorem isNumber_glued (s : Bytes) (hs : isIntText s) : isNumber (s ++ [93]) = false := by
  have hB : B "-" = [45] := by decide
  have hall : ∀ ds : Bytes, (∀ c ∈ ds, isDigit c = true) →
      (rangeBytes 0 (ds ++ [93])).all isDigit = false := by
    intro ds hds
    have hascii : ∀ c ∈ ds ++ [93], c < 0x80 := by
      intro c hc
      rcases List.mem_append.mp hc with hc | hc
      · have := hds c hc
        simp [isDigit] at this
        omega
      · simp at hc
        omega
    rw [rangeBytes_ascii _ hascii]
    simp [isDigit]
  obtain ⟨ds, hne, hds, rfl | rfl⟩ := hs
  · unfold isNumber
    rw [hB]
    cases hsd : s with
    | nil => exact absurd hsd hne
    | cons c t =>
      have hc := hds c (by rw [hsd]; exact List.mem_cons_self _ _)
      have hne45 : c ≠ 45 := by
        simp [isDigit] at hc
        omega
      have hp : [45].isPrefixOf (c :: t ++ [93]) = false := by
        simp [List.isPrefixOf]
        exact fun hh => hne45 hh.symm
      simp only [hp]
      rw [← hsd]
      simpa using hall s hds
  · unfold isNumber
    rw [hB]
    have hp : [45].isPrefixOf (45 :: ds ++ [93]) = true := by simp [List.isPrefixOf]
    simp only [hp, if_true, List.cons_append, List.drop_succ_cons, List.drop_zero]
    simpa using hall ds hds

/-- The text of an integer with `]` glued onto it is classified as the end
of the array. -/
theorem classify_glued_int (s : Bytes) (hs : isIntText s) (ws : List Bytes) :
    classify ((s ++ [93]) :: ws) = .CmdEndArray := by
  rw [classify_not_number _ _ (isNumber_glued s hs)]
  cases hsd : s with
  | nil => exact absurd hsd (isIntText_ne_nil s hs)
  | cons c t =>
    have hc := isIntText_digit_or_minus s hs c (by rw [hsd]; exact List.mem_cons_self _ _)
    have hc2 : (48 ≤ c ∧ c ≤ 57) ∨ c = 45 := by simpa [isDigit] using hc
    rw [List.cons_append]
    have h1 : (c :: (t ++ [93])) ≠ B "<<" := by
      have : B "<<" = [60, 60] := by decide
      rw [this]; simp; omega
    have h2 : (c :: (t ++ [93])) ≠ B ">>" := by
      have : B ">>" = [62, 62] := by decide
      rw [this]; simp; omega
    have h3 : (c :: (t ++ [93])) ≠ B "endobj" := by
      have : B "endobj" = [101, 110, 100, 111, 98, 106] := by decide
      rw [this]; simp; omega
    have h4 : (B "stream").isPrefixOf (c :: (t ++ [93])) = false := by
      have : B "stream" = [115, 116, 114, 101, 97, 109] := by decide
      rw [this]; simp [List.isPrefixOf]; omega
    have h5 : (B "[").isPrefixOf (c :: (t ++ [93])) = false := by
      have : B "[" = [91] := by decide
      rw [this]; simp [List.isPrefixOf]; omega
    have h6 : (B "/").isPrefixOf (c :: (t ++ [93])) = false := by
      have : B "/" = [47] := by decide
      rw [this]; simp [List.isPrefixOf]; omega
    have h7 : (B "]").isSuffixOf (c :: (t ++ [93])) = true := by
      have : B "]" = [93] := by decide
      rw [this, List.isSuffixOf_iff_suffix]
      exact ⟨c :: t, by simp⟩
    simp [classifyWord, h1, h2, h3, h4, h5, h6, h7]

/-- After a number, a word that is no number cannot make it look like a
reference. -/
theorem noRefAhead_notnum (tok : Bytes) (d : Nat) (r : Bytes)
    (hclean : ∀ c ∈ tok, c ≠ 32 ∧ c ≠ 10) (hnum : isNumber tok = false) (hd : isSep d) :
    noRefAhead (tok ++ d :: r) := by
  intro b hb w1 w2 tl hsplit hn
  have hrep : ReplaceNL (tok ++ d :: r) = tok ++ 32 :: ReplaceNL r := by
    rw [ReplaceNL_append, ReplaceNL_id tok (fun c hc => (hclean c hc).2)]
    rcases hd with rfl | rfl <;> simp [ReplaceNL]
  rw [hrep] at hb
  rcases prefix_append_sep b tok 32 _ hb with h1 | ⟨b3, rfl, _⟩
  · have : Split 32 b = [b] := Split_word 32 b (fun c hc => (hclean c (h1.subset hc)).1)
    rw [this] at hsplit
    simp at hsplit
  · rw [Split_word_sep 32 tok b3 (fun c hc => (hclean c hc).1)] at hsplit
    injection hsplit with e1 _
    rw [← e1, hnum] at hn
    exact absurd hn (by simp)

/-- The turn of the loop of `readArray` at a `]` of its own, followed by a
space or a newline. -/
theorem readArrayLoop_close_sep (sp : Bytes) (d : Nat) (rest : Bytes) (acc : List Value)
    (fuel : Nat) (hsp : ∀ x ∈ sp, isSep x) (hlen : sp.length ≤ 2) (hd : isSep d) :
    readArrayLoop (fuel + 1) (sp ++ 93 :: d :: rest) acc = .ok (acc, d :: rest) := by
  have hdt : detectType (sp ++ 93 :: d :: rest) = .CmdEndArray := by
    have := detectType_arrayClose sp d rest hsp hlen hd
    simpa [B] using this
  have hrs : readString (sp ++ 93 :: d :: rest) = (.ok [93], d :: rest) := by
    have := readString_token sp [93] d rest hsp (by simp) (by simp [isSep]) hd
    simpa using this
  rw [readArrayLoop, hdt]
  simp only [hrs]
  simp

end Pdf

namespace Pdf

/-! ## `readArray` with the closing `]` apart or glued -/

/-- The byte the text of an item starts with: `/`, a digit or `-`. -/
theorem itemText_head (i : Value) (hi : goodItem i) :
    ∃ c t, itemText i = c :: t ∧ c ≠ 32 ∧ c ≠ 10 ∧ c ≠ 82 ∧ c ≠ 111 := by
  have hdig : ∀ s : Bytes, ∀ more : Bytes, isIntText s →
      ∃ c t, s ++ more = c :: t ∧ c ≠ 32 ∧ c ≠ 10 ∧ c ≠ 82 ∧ c ≠ 111 := by
    intro s more hs
    cases hs0 : s with
    | nil => exact absurd hs0 (isIntText_ne_nil _ hs)
    | cons c t =>
      have hc := isIntText_digit_or_minus s hs c (by rw [hs0]; exact List.mem_cons_self _ _)
      have hc2 : (48 ≤ c ∧ c ≤ 57) ∨ c = 45 := by simpa [isDigit] using hc
      exact ⟨c, t ++ more, rfl, by omega, by omega, by omega, by omega⟩
  cases i with
  | name n =>
    obtain ⟨t, rfl⟩ := goodName_cons n hi.1
    exact ⟨47, t, rfl, by omega, by omega, by omega, by omega⟩
  | int v =>
    have := hdig (Itoa v) [] (Itoa_isIntText v)
    simpa [itemText] using this
  | ref id gen =>
    simp only [itemText]
    rw [writeObjRef_eq]
    exact hdig (Itoa id) _ (Itoa_isIntText id)
  | dict d => exact absurd hi (by simp [goodItem])
  | array a => exact absurd hi (by simp [goodItem])
  | str s => exact absurd hi (by simp [goodItem])

/-- What follows the space after an item, up to the closing `]` (apart or
glued) and beyond, cannot make a number before it look like a reference. -/
theorem noRefAhead_items (r : List Value) (hr : ∀ j ∈ r, goodItem j) (close : Bytes) (d : Nat)
    (rest : Bytes) (hclose : close = 32 :: 93 :: d :: rest ∨ close = 93 :: d :: rest)
    (hd : isSep d) (Y : Bytes) (hY : spacedItems r ++ close = 32 :: Y) : noRefAhead Y := by
  have h93 : ∀ t : Bytes, noRefAhead (93 :: t) := fun t =>
    noRefAhead_head 93 t (by omega) (by decide) (by omega) (by omega) (by omega)
  cases r with
  | nil =>
    simp only [spacedItems, List.nil_append] at hY
    rcases hclose with h | h
    · rw [h] at hY
      injection hY with _ h2
      rw [← h2]
      exact h93 _
    · rw [h] at hY
      injection hY with h1 _
      omega
  | cons j r2 =>
    have hj := hr j (List.mem_cons_self _ _)
    have hr2 : ∀ k ∈ r2, goodItem k := fun k hk => hr k (List.mem_cons_of_mem _ hk)
    simp only [spacedItems, List.cons_append, List.append_assoc] at hY
    injection hY with _ hY2
    rw [← hY2]
    have hint : ∀ s : Bytes, isIntText s → noRefAhead (s ++ (spacedItems r2 ++ close)) := by
      intro s hs
      cases r2 with
      | nil =>
        simp only [spacedItems, List.nil_append]
        rcases hclose with h | h
        · rw [h]
          apply noRefAhead_word s _ (intText_clean s hs)
          intro c hc
          simp at hc
          subst hc
          exact ⟨by omega, by omega, by omega, by omega⟩
        · rw [h]
          have e : s ++ 93 :: d :: rest = (s ++ [93]) ++ d :: rest := by simp
          rw [e]
          apply noRefAhead_notnum _ d rest _ (isNumber_glued s hs) hd
          intro c hc
          rcases List.mem_append.mp hc with hc | hc
          · exact intText_clean s hs c hc
          · simp at hc
            subst hc
            exact ⟨by omega, by omega⟩
      | cons k r3 =>
        obtain ⟨c0, t0, h0, h32, h10, h82, h111⟩ :=
          itemText_head k (hr2 k (List.mem_cons_self _ _))
        simp only [spacedItems, List.cons_append]
        apply noRefAhead_word s _ (intText_clean s hs)
        intro c hc
        rw [h0] at hc
        simp at hc
        subst hc
        exact ⟨h32, h10, h82, h111⟩
    cases j with
    | name n =>
      obtain ⟨t, rfl⟩ := goodName_cons n hj.1
      exact noRefAhead_head 47 _ (by omega) (by decide) (by omega) (by omega) (by omega)
    | int v => exact hint (Itoa v) (Itoa_isIntText v)
    | ref id gen =>
      have e : itemText (.ref id gen) ++ (spacedItems r2 ++ close)
          = Itoa id ++ 32 :: (Itoa gen ++ 32 :: 82 :: (spacedItems r2 ++ close)) := by
        simp only [itemText]
        rw [writeObjRef_eq]
        simp
      rw [e]
      apply noRefAhead_word (Itoa id) _ (intText_clean _ (Itoa_isIntText id))
      intro c hc
      have hg := Itoa_isIntText gen
      cases hs0 : Itoa gen with
      | nil => exact absurd hs0 (isIntText_ne_nil _ hg)
      | cons c0 t0 =>
        rw [hs0] at hc
        simp at hc
        subst hc
        have hc := isIntText_digit_or_minus _ hg c0 (by rw [hs0]; exact List.mem_cons_self _ _)
        have hc2 : (48 ≤ c0 ∧ c0 ≤ 57) ∨ c0 = 45 := by simpa [isDigit] using hc
        omega
    | dict d => exact absurd hj (by simp [goodItem])
    | array a => exact absurd hj (by simp [goodItem])
    | str s => exact absurd hj (by simp [goodItem])

/-- A turn of the loop of `readArray` at an item that a space follows. -/
theorem readArrayLoop_item (i : Value) (hi : goodItem i) (Y : Bytes) (hY : noRefAhead Y)
    (acc : List Value) (f : Nat) :
    readArrayLoop (f + 1) (32 :: (itemText i ++ 32 :: Y)) acc
      = readArrayLoop f (32 :: Y) (acc ++ [i]) := by
  have hsp : ∀ x ∈ [(32 : Nat)], isSep x := by simp [isSep]
  cases i with
  | name n =>
    obtain ⟨t, rfl⟩ := goodName_cons n hi.1
    have hdt : detectType (32 :: (itemText (.name (47 :: t)) ++ 32 :: Y)) = .Name :=
      detectType_name [32] _ hsp (by simp)
    have hrs : readString (32 :: (itemText (.name (47 :: t)) ++ 32 :: Y))
        = (.ok (47 :: t), 32 :: Y) :=
      readString_token [32] (47 :: t) 32 Y hsp (by simp) (goodName_clean _ hi.1) (Or.inl rfl)
    have hsuf : (B "]").isSuffixOf (47 :: t) = false := by
      have h93 := hi.2
      have hB : B "]" = [93] := by decide
      rw [hB]
      cases hsx : [93].isSuffixOf (47 :: t) with
      | false => rfl
      | true =>
        exfalso
        apply h93
        obtain ⟨p, hp⟩ := List.isSuffixOf_iff_suffix.mp hsx
        rw [← hp]
        simp
    rw [readArrayLoop, hdt]
    simp only [hrs, hsuf]
    rfl
  | int v =>
    have hdt : detectType (32 :: (itemText (.int v) ++ 32 :: Y)) = .Num :=
      detectType_num v 32 Y (Or.inl rfl) hY
    have hri : readInt (32 :: (itemText (.int v) ++ 32 :: Y)) = ((v, true), 32 :: Y) :=
      readInt_Itoa [32] v 32 Y hsp hi (Or.inl rfl)
    rw [readArrayLoop, hdt]
    simp only [hri]
  | ref id gen =>
    have hdt : detectType (32 :: (itemText (.ref id gen) ++ 32 :: Y)) = .ObjRef :=
      detectType_ref id gen 32 Y hi (Or.inl rfl)
    have hro : readObjRef (32 :: (itemText (.ref id gen) ++ 32 :: Y))
        = .ok (.ref id gen, 32 :: Y) :=
      readObjRef_text [32] id gen 32 Y hsp hi (Or.inl rfl)
    rw [readArrayLoop, hdt]
    simp only [hro]
  | dict d => exact absurd hi (by simp [goodItem])
  | array a => exact absurd hi (by simp [goodItem])
  | str s => exact absurd hi (by simp [goodItem])

/-- The last turns of the loop of `readArray` at a name or an integer with
the `]` glued onto it: the item is read without the `]`. -/
theorem readArrayLoop_glued_last (i : Value) (hi : goodItem i) (hlast : lastNameOrInt [i])
    (d : Nat) (rest : Bytes) (hd : isSep d) (acc : List Value) (f : Nat) :
    readArrayLoop (f + 2) (32 :: (itemText i ++ 93 :: d :: rest)) acc
      = .ok (acc ++ [i], d :: rest) := by
  have hsp : ∀ x ∈ [(32 : Nat)], isSep x := by simp [isSep]
  have hB : B "]" = [93] := by decide
  cases i with
  | name n =>
    obtain ⟨t, rfl⟩ := goodName_cons n hi.1
    have hdt : detectType (32 :: (itemText (.name (47 :: t)) ++ 93 :: d :: rest)) = .Name :=
      detectType_name [32] _ hsp (by simp)
    have hclean : ∀ c ∈ (47 :: t) ++ [93], ¬ isSep c := by
      intro c hc
      rcases List.mem_append.mp hc with hc | hc
      · exact goodName_clean _ hi.1 c hc
      · simp at hc
        subst hc
        simp [isSep]
    have hrs : readString (32 :: (itemText (.name (47 :: t)) ++ 93 :: d :: rest))
        = (.ok ((47 :: t) ++ [93]), d :: rest) := by
      have := readString_token [32] ((47 :: t) ++ [93]) d rest hsp (by simp) hclean hd
      simpa [itemText] using this
    have hsuf : (B "]").isSuffixOf ((47 :: t) ++ [93]) = true := by
      rw [hB, List.isSuffixOf_iff_suffix]
      exact ⟨47 :: t, rfl⟩
    rw [readArrayLoop, hdt]
    simp only [hrs, hsuf, if_true]
    simp
  | int v =>
    have htext := Itoa_isIntText v
    by_cases hlen : (Itoa v).length ≤ 18
    · obtain ⟨_, _, _, _, hhead⟩ := intText_snoc _ htext
      have hclean : ∀ c ∈ Itoa v ++ [93], c ≠ 32 ∧ c ≠ 10 := by
        intro c hc
        rcases List.mem_append.mp hc with hc | hc
        · exact intText_clean _ htext c hc
        · simp at hc
          subst hc
          exact ⟨by omega, by omega⟩
      have hh : ∀ c, (Itoa v ++ [93]).head? = some c → visible c := by
        intro c hc
        apply hhead
        cases hI : Itoa v with
        | nil => exact absurd hI (isIntText_ne_nil _ htext)
        | cons c0 t0 =>
          rw [hI] at hc
          simpa using hc
      obtain ⟨ws, hws⟩ := detectType_fit [32] (Itoa v ++ [93]) d rest (Itoa v) 93 hsp hd rfl
        hclean (by simp; omega) hh (visible_of 93 (by omega) (by decide))
      have hshape : (32 : Nat) :: (itemText (.int v) ++ 93 :: d :: rest)
          = [32] ++ ((Itoa v ++ [93]) ++ d :: rest) := by simp [itemText]
      have hdt : detectType (32 :: (itemText (.int v) ++ 93 :: d :: rest)) = .CmdEndArray := by
        rw [hshape, hws, classify_glued_int _ htext]
      have hrs : readString (32 :: (itemText (.int v) ++ 93 :: d :: rest))
          = (.ok (Itoa v ++ [93]), d :: rest) := by
        rw [hshape]
        exact readString_token [32] (Itoa v ++ [93]) d rest hsp (by simp)
          (fun c hc hs => by
            have := hclean c hc
            rcases hs with h | h
            · exact this.1 h
            · exact this.2 h) hd
      have htake : (Itoa v ++ [93]).take ((Itoa v ++ [93]).length - 1) = Itoa v := by
        simp
      rw [readArrayLoop, hdt]
      simp only [hrs, htake, isNumber_intText _ htext, Atoi_Itoa v hi.1 hi.2]
      simp [isIntText_ne_nil _ htext]
    · have hdt : detectType (32 :: (itemText (.int v) ++ 93 :: d :: rest)) = .Num :=
        detectType_num_long v _ (by omega)
      have hri : readInt (32 :: (itemText (.int v) ++ 93 :: d :: rest))
          = ((v, true), 93 :: d :: rest) :=
        readInt_Itoa_stop [32] v 93 (d :: rest) hsp hi (by simp [isDigit])
      rw [readArrayLoop, hdt]
      simp only [hri]
      exact readArrayLoop_close_sep [] d rest _ f (by simp) (by simp) hd
  | ref id gen => exact absurd hlast (by simp [lastNameOrInt])
  | dict sub => exact absurd hi (by simp [goodItem])
  | array a => exact absurd hi (by simp [goodItem])
  | str s => exact absurd hi (by simp [goodItem])

/-- The loop of `readArray` over items followed by a `]` of its own. -/
theorem readArrayLoop_spaced (a : List Value) (ha : ∀ i ∈ a, goodItem i) (d : Nat)
    (rest : Bytes) (hd : isSep d) :
    ∀ (acc : List Value) (fuel : Nat), a.length + 1 ≤ fuel →
      readArrayLoop fuel (spacedItems a ++ 32 :: 93 :: d :: rest) acc
        = .ok (acc ++ a, d :: rest) := by
  induction a with
  | nil =>
    intro acc fuel hf
    obtain ⟨f, rfl⟩ : ∃ f, fuel = f + 1 := ⟨fuel - 1, by simp at hf; omega⟩
    have := readArrayLoop_close_sep [32] d rest acc f (by simp [isSep]) (by simp) hd
    simpa [spacedItems] using this
  | cons i r ih =>
    intro acc fuel hf
    obtain ⟨f, rfl⟩ : ∃ f, fuel = f + 1 := ⟨fuel - 1, by simp at hf; omega⟩
    have hf2 : r.length + 1 ≤ f := by simp at hf; omega
    have hi := ha i (List.mem_cons_self _ _)
    have hr : ∀ j ∈ r, goodItem j := fun j hj => ha j (List.mem_cons_of_mem _ hj)
    obtain ⟨Y, hY⟩ : ∃ Y, spacedItems r ++ 32 :: 93 :: d :: rest = 32 :: Y := by
      cases r with
      | nil => exact ⟨_, rfl⟩
      | cons j r2 => exact ⟨_, rfl⟩
    have hno := noRefAhead_items r hr _ d rest (Or.inl rfl) hd Y hY
    have hs : spacedItems (i :: r) ++ 32 :: 93 :: d :: rest = 32 :: (itemText i ++ 32 :: Y) := by
      rw [← hY]
      simp [spacedItems]
    rw [hs, readArrayLoop_item i hi Y hno acc f, ← hY, ih hr (acc ++ [i]) f hf2]
    simp

/-- The loop of `readArray` over items with the `]` glued onto the last. -/
theorem readArrayLoop_glued (a : List Value) (ha : ∀ i ∈ a, goodItem i)
    (hlast : lastNameOrInt a) (d : Nat) (rest : Bytes) (hd : isSep d) :
    ∀ (acc : List Value) (fuel : Nat), a.length + 1 ≤ fuel →
      readArrayLoop fuel (spacedItems a ++ 93 :: d :: rest) acc
        = .ok (acc ++ a, d :: rest) := by
  induction a with
  | nil => exact absurd hlast (by simp [lastNameOrInt])
  | cons i r ih =>
    intro acc fuel hf
    have hi := ha i (List.mem_cons_self _ _)
    have hr : ∀ j ∈ r, goodItem j := fun j hj => ha j (List.mem_cons_of_mem _ hj)
    cases r with
    | nil =>
      obtain ⟨f, rfl⟩ : ∃ f, fuel = f + 2 := ⟨fuel - 2, by simp at hf; omega⟩
      have := readArrayLoop_glued_last i hi hlast d rest hd acc f
      simpa [spacedItems] using this
    | cons j r2 =>
      obtain ⟨f, rfl⟩ : ∃ f, fuel = f + 1 := ⟨fuel - 1, by simp at hf; omega⟩
      have hf2 : (j :: r2).length + 1 ≤ f := by simp at hf ⊢; omega
      have hlast2 : lastNameOrInt (j :: r2) := by
        simpa [lastNameOrInt, List.getLast?_cons_cons] using hlast
      obtain ⟨Y, hY⟩ : ∃ Y, spacedItems (j :: r2) ++ 93 :: d :: rest = 32 :: Y := ⟨_, rfl⟩
      have hno := noRefAhead_items (j :: r2) hr _ d rest (Or.inr rfl) hd Y hY
      have hs : spacedItems (i :: j :: r2) ++ 93 :: d :: rest
          = 32 :: (itemText i ++ 32 :: Y) := by
        rw [← hY]
        simp [spacedItems]
      rw [hs, readArrayLoop_item i hi Y hno acc f, ← hY, ih hr hlast2 (acc ++ [i]) f hf2]
      simp

/-- C17: for items `a` that are names (beginning with `/`, without space or
newline, not ending in `]`), integers of Go's `int` range and references
(id below `10^7`, generation below `10^5`, not negative), the last a name or
an integer, `readArray` returns exactly `a` and leaves the same input, from
the separator after the `]` on, for the text with the `]` apart,
`[ e1 ... en ]`, and for the text with the `]` glued onto the last item,
`[ e1 ... en]`; `fuel` is the number of turns of the loop, `len(a) + 1` are
enough. -/
theorem readArray_glued (a : List Value) (ha : ∀ i ∈ a, goodItem i) (hlast : lastNameOrInt a)
    (sp : Bytes) (hsp : ∀ x ∈ sp, isSep x) (d : Nat) (hd : isSep d) (rest : Bytes)
    (fuel : Nat) (hf : a.length + 1 ≤ fuel) :
    readArray fuel (sp ++ (arraySpaced a ++ d :: rest)) = .ok (a, d :: rest) ∧
    readArray fuel (sp ++ (arrayGlued a ++ d :: rest)) = .ok (a, d :: rest) := by
  have hsk : ∀ s : Bytes, skipSpace (sp ++ 91 :: s) = 91 :: s := fun s =>
    skipSpace_seps sp 91 s hsp (by simp [isSep])
  constructor
  · have hs : sp ++ (arraySpaced a ++ d :: rest)
        = sp ++ 91 :: (spacedItems a ++ 32 :: 93 :: d :: rest) := by simp [arraySpaced]
    rw [hs, readArray, hsk]
    simp only [ne_eq, not_true_eq_false, if_false]
    simpa using readArrayLoop_spaced a ha d rest hd [] fuel hf
  · have hs : sp ++ (arrayGlued a ++ d :: rest)
        = sp ++ 91 :: (spacedItems a ++ 93 :: d :: rest) := by simp [arrayGlued]
    rw [hs, readArray, hsk]
    simp only [ne_eq, not_true_eq_false, if_false]
    simpa using readArrayLoop_glued a ha hlast d rest hd [] fuel hf

/-- C17 at `arraySample`, after a space and before a newline and `endobj`. -/
theorem readArray_glued_witness :
    (∀ i ∈ arraySample, goodItem i) ∧ lastNameOrInt arraySample ∧
    readArray 6 (B " " ++ (arraySpaced arraySample ++ 10 :: B "endobj"))
      = .ok (arraySample, 10 :: B "endobj") ∧
    readArray 6 (B " " ++ (arrayGlued arraySample ++ 10 :: B "endobj"))
      = .ok (arraySample, 10 :: B "endobj") :=
  have h1 : ∀ i ∈ arraySample, goodItem i := by
    intro i hi
    simp only [arraySample, List.mem_cons, List.mem_singleton, List.not_mem_nil,
      or_false] at hi
    rcases hi with rfl | rfl | rfl | rfl | rfl <;>
      simp [goodItem, goodName, goodInt, goodRef, B]
  have h2 : lastNameOrInt arraySample := by simp [lastNameOrInt, arraySample]
  ⟨h1, h2, readArray_glued arraySample h1 h2 (B " ") (by simp [B, isSep]) 10 (Or.inr rfl)
    (B "endobj") 6 (by decide)⟩

end Pdf

namespace Pdf

/-! ## `readHexString` -/

/-- The scan of `readHexString` over bytes below `0x80`: it stops at the
first `>`. -/
theorem indexGT_ascii (pre post : Bytes) (h : ∀ c ∈ pre, c < 0x80 ∧ c ≠ 62) :
    ∀ i, indexGT 0 i (pre ++ 62 :: post) = i + pre.length := by
  induction pre with
  | nil =>
    intro i
    simp [indexGT, DecodeRune_ascii 62 post (by omega)]
  | cons c t ih =>
    intro i
    obtain ⟨h1, h2⟩ := h c (List.mem_cons_self _ _)
    have hmod : c % 256 = c := Nat.mod_eq_of_lt (by omega)
    rw [List.cons_append, indexGT, DecodeRune_ascii c _ h1]
    simp only [hmod, h2, if_false]
    rw [ih (fun x hx => h x (List.mem_cons_of_mem _ hx)) (i + 1)]
    simp only [List.length_cons]
    omega

/-- C18 as stated fails: a token that ends the input has no space or newline
after it, and `readString`, and so `readHexString`, returns the error of the
reader instead of `<ab>`.  (Besides, the scan compares the low byte of each
rune with `>`: for the token `<`, U+013E, `>` it stops inside the rune.) -/
theorem readHexString_at_end :
    readHexString (B "<ab>") = .err "EOF" ∧
    readHexString ([60, 0xC4, 0xBE, 62] ++ B " ") = .ok ([60, 0xC4], [0xBE, 62] ++ B " ") :=
  ⟨rfl, rfl⟩

/-- C18, amended: when the input is spaces and newlines `sp`, then a token
`tok` that starts with `<` and holds no space and no newline, then a space or
newline `d` and `rest`, `readHexString` returns a string and leaves an input
that together are the old input without `sp`: no byte is discarded.  When
the bytes of the token before its first `>` are below `0x80`, what it returns
is the token up to and including that `>`, and the input left is the rest of
the token followed by `d` and `rest`. -/
theorem readHexString_token (sp tok t0 : Bytes) (d : Nat) (rest : Bytes)
    (hsp : ∀ x ∈ sp, isSep x) (htok : tok = 60 :: t0) (hclean : ∀ c ∈ tok, ¬ isSep c)
    (hd : isSep d) :
    skipSpace (sp ++ (tok ++ d :: rest)) = tok ++ d :: rest ∧
    (∃ num left, readHexString (sp ++ (tok ++ d :: rest)) = .ok (num, left) ∧
      num ++ left = tok ++ d :: rest) ∧
    (∀ pre post, tok = pre ++ 62 :: post → (∀ c ∈ pre, c < 0x80 ∧ c ≠ 62) →
      readHexString (sp ++ (tok ++ d :: rest)) = .ok (pre ++ [62], post ++ d :: rest)) := by
  have hne : tok ≠ [] := by rw [htok]; simp
  have hrs := readString_token sp tok d rest hsp hne hclean hd
  have hpre : (B "<").isPrefixOf tok = true := by
    have hB : B "<" = [60] := by decide
    rw [hB, htok]
    simp [List.isPrefixOf]
  have hread : readHexString (sp ++ (tok ++ d :: rest))
      = .ok (tok.take (indexGT 0 0 tok + 1), tok.drop (indexGT 0 0 tok + 1) ++ d :: rest) := by
    unfold readHexString
    simp only [hrs, hpre, if_true]
  refine ⟨?_, ⟨_, _, hread, ?_⟩, ?_⟩
  · rw [htok]
    exact skipSpace_seps sp 60 (t0 ++ d :: rest) hsp
      (hclean 60 (by rw [htok]; exact List.mem_cons_self _ _))
  · rw [← List.append_assoc, List.take_append_drop]
  · intro pre post hsplit hascii
    rw [hread, hsplit, indexGT_ascii pre post hascii 0]
    have h1 : (pre ++ 62 :: post).take (0 + pre.length + 1) = pre ++ [62] := by
      have : pre ++ 62 :: post = (pre ++ [62]) ++ post := by simp
      rw [this, List.take_left' (by simp)]
    have h2 : (pre ++ 62 :: post).drop (0 + pre.length + 1) = post := by
      have : pre ++ 62 :: post = (pre ++ [62]) ++ post := by simp
      rw [this, List.drop_left' (by simp)]
    rw [h1, h2]

/-- C18, amended, at the input `<4e6f>]` after a newline and a space and
before a newline and `endobj`: the hex string is returned and `]` is put back
before the newline. -/
theorem readHexString_token_witness :
    skipSpace (B "\n " ++ (B "<4e6f>]" ++ 10 :: B "endobj")) = B "<4e6f>]" ++ 10 :: B "endobj" ∧
    readHexString (B "\n " ++ (B "<4e6f>]" ++ 10 :: B "endobj"))
      = .ok (B "<4e6f>", B "]" ++ 10 :: B "endobj") :=
  have h := readHexString_token (B "\n ") (B "<4e6f>]") (B "4e6f>]") 10 (B "endobj")
    (by simp [B, isSep]) rfl (by simp [B, isSep]) (Or.inr rfl)
  ⟨h.1, h.2.2 (B "<4e6f") (B "]") rfl (by simp [B])⟩

end Pdf

namespace Pdf

set_option maxRecDepth 100000

theorem not_isIntText_minus : ¬ isIntText (B "-") := by
  rintro ⟨ds, hne, hd, h | h⟩
  · have h45 : (45 : Nat) ∈ ds := by
      rw [← h]
      decide
    have := hd 45 h45
    simp [isDigit] at this
  · have : ds = [] := by
      have h2 : B "-" = [45] := by decide
      rw [h2] at h
      injection h with _ h3
      exact h3.symm
    exact hne this

theorem not_isIntText_nil : ¬ isIntText [] := by
  rintro ⟨ds, hne, _, h | h⟩
  · exact hne h.symm
  · cases h

/-- Three words of the window that are an integer, an integer and `R` are a
reference; an integer, an integer and `obj` are the start of an object. -/
theorem detectType_of_integers (s w0 w1 : Bytes) (ws : List Bytes)
    (h0 : isIntText w0) (h1 : isIntText w1) :
    (windowWords s = w0 :: w1 :: B "R" :: ws → detectType s = .ObjRef) ∧
    (windowWords s = w0 :: w1 :: B "obj" :: ws → detectType s = .Obj) := by
  have hne : ∀ w2, windowWords s = w0 :: w1 :: w2 :: ws →
      TrimSpace (ReplaceNL (s.take 20)) ≠ [] := by
    intro w2 hw hnil
    unfold windowWords at hw
    rw [hnil] at hw
    simp [Split] at hw
  have n0 := isNumber_intText w0 h0
  have n1 := isNumber_intText w1 h1
  constructor
  · intro hw
    have hb := hne _ hw
    unfold windowWords at hw
    unfold detectType
    simp only [hb, if_false, hw]
    simp [classify, thirdWord, n0, n1]
  · intro hw
    have hb := hne _ hw
    unfold windowWords at hw
    unfold detectType
    simp only [hb, if_false, hw]
    have hne2 : B "obj" ≠ B "R" := by decide
    simp [classify, thirdWord, n0, n1, hne2]

/-- C19 (the code fails it): integers followed by `R` or `obj` are classified
as the claim says, but so are words that are no integers: `isNumber` accepts
a lone `-`, the empty word between two spaces, and a rune whose low byte is a
digit (here U+0130), so `- 0 R`, `1  R` and `- - obj` are a reference, a
reference and an object start. -/
theorem detectType_ref_without_integers :
    (∀ (s w0 w1 : Bytes) (ws : List Bytes), isIntText w0 → isIntText w1 →
      (windowWords s = w0 :: w1 :: B "R" :: ws → detectType s = .ObjRef) ∧
      (windowWords s = w0 :: w1 :: B "obj" :: ws → detectType s = .Obj)) ∧
    ¬ isIntText (B "-") ∧ ¬ isIntText [] ∧
    windowWords (B "- 0 R\n") = [B "-", B "0", B "R"] ∧
    detectType (B "- 0 R\n") = .ObjRef ∧
    windowWords (B "1  R\n") = [B "1", [], B "R"] ∧
    detectType (B "1  R\n") = .ObjRef ∧
    windowWords (B "- - obj\n") = [B "-", B "-", B "obj"] ∧
    detectType (B "- - obj\n") = .Obj ∧
    windowWords ([0xC4, 0xB0] ++ B " 0 R\n") = [[0xC4, 0xB0], B "0", B "R"] ∧
    detectType ([0xC4, 0xB0] ++ B " 0 R\n") = .ObjRef :=
  ⟨fun s w0 w1 ws h0 h1 => detectType_of_integers s w0 w1 ws h0 h1,
    not_isIntText_minus, not_isIntText_nil, rfl, rfl, rfl, rfl, rfl, rfl, rfl, rfl⟩

end Pdf

namespace Pdf

set_option maxRecDepth 100000

/-- C20 (the code fails it): after `1 0 obj` in `fileMinus` the first word of
the window is a lone `-`, no three-word pattern applies, and `detectType`
returns integer although `-` is no integer: `strconv.Atoi` rejects it,
`readInt` fails there and `Parse` returns its error. -/
theorem detectType_num_without_integer :
    windowWords (B "\n-\nendobj\nxref\n1 1\n0000") = [B "-", B "endobj", B "xref", B "1", B "1", B "0"] ∧
    detectType (B "\n-\nendobj\nxref\n1 1\n0000") = .Num ∧
    ¬ isIntText (B "-") ∧
    Atoi (B "-") = (0, false) ∧
    (readInt (skipSpace (B "\n-\nendobj\nxref\n1 1\n0000"))).1 = (0, false) ∧
    (∀ n, Parse (n + 2) (PDF.ofBytes fileMinus) = .err "strconv.Atoi") := by
  refine ⟨rfl, rfl, ?_, rfl, rfl, fun _ => rfl⟩
  rintro ⟨ds, hne, hd, h | h⟩
  · have h45 : (45 : Nat) ∈ ds := by
      rw [← h]
      decide
    have := hd 45 h45
    simp [isDigit] at this
  · have : ds = [] := by
      have h2 : B "-" = [45] := by decide
      rw [h2] at h
      injection h with _ h3
      exact h3.symm
    exact hne this

end Pdf

namespace Pdf

set_option maxRecDepth 100000

/-! ## Hex strings in the window -/

/-- A first word `<`, digits `0-9` or `a-f`, `>` is classified as a hex
string. -/
theorem detectType_hex_lower (s hex : Bytes) (ws : List Bytes)
    (hhex : ∀ c ∈ hex, isDigit c = true ∨ (97 ≤ c ∧ c ≤ 102))
    (hw : windowWords s = (60 :: (hex ++ [62])) :: ws) : detectType s = .HexString := by
  have hb : TrimSpace (ReplaceNL (s.take 20)) ≠ [] := by
    intro hnil
    unfold windowWords at hw
    rw [hnil] at hw
    simp [Split] at hw
  have hascii : ∀ c ∈ hex, c < 0x80 := by
    intro c hc
    rcases hhex c hc with h | h
    · simp [isDigit] at h
      omega
    · omega
  have hne62 : ∀ c ∈ hex, c ≠ 62 := by
    intro c hc
    rcases hhex c hc with h | h
    · simp [isDigit] at h
      omega
    · omega
  have hishex : isHex (60 :: (hex ++ [62])) = true := by
    have hB1 : B "<" = [60] := by decide
    have hB2 : B ">" = [62] := by decide
    have hp : [60].isPrefixOf (60 :: (hex ++ [62])) = true := by simp [List.isPrefixOf]
    have hsuf : [62].isSuffixOf (hex ++ [62]) = true := by
      rw [List.isSuffixOf_iff_suffix]
      exact ⟨hex, rfl⟩
    unfold isHex
    rw [hB1, hB2]
    simp only [hp, if_true, List.drop_succ_cons, List.drop_zero, hsuf]
    have htake : (hex ++ [62]).take ((hex ++ [62]).length - 1) = hex := by simp
    rw [htake, rangeBytes_ascii hex hascii, List.all_eq_true]
    intro c hc
    rcases hhex c hc with h | h
    · simp [h]
    · simp [h]
  have hnum : isNumber (60 :: (hex ++ [62])) = false :=
    isNumber_head_false 60 _ (by omega) (by decide) (by omega)
  unfold windowWords at hw
  unfold detectType
  simp only [hb, if_false, hw]
  rw [classify_not_number _ _ hnum]
  have h1 : (60 :: (hex ++ [62])) ≠ B "<<" := by
    have : B "<<" = [60, 60] := by decide
    rw [this]
    intro h
    injection h with _ h2
    cases hex with
    | nil => simp at h2
    | cons c t => simp at h2
  have h2 : (60 :: (hex ++ [62])) ≠ B ">>" := by
    have : B ">>" = [62, 62] := by decide
    rw [this]; simp
  have h3 : (60 :: (hex ++ [62])) ≠ B "endobj" := by
    have : B "endobj" = [101, 110, 100, 111, 98, 106] := by decide
    rw [this]; simp
  have h4 : (B "stream").isPrefixOf (60 :: (hex ++ [62])) = false := by
    have : B "stream" = [115, 116, 114, 101, 97, 109] := by decide
    rw [this]; simp [List.isPrefixOf]
  have h5 : (B "[").isPrefixOf (60 :: (hex ++ [62])) = false := by
    have : B "[" = [91] := by decide
    rw [this]; simp [List.isPrefixOf]
  have h6 : (B "/").isPrefixOf (60 :: (hex ++ [62])) = false := by
    have : B "/" = [47] := by decide
    rw [this]; simp [List.isPrefixOf]
  have h7 : (B "]").isSuffixOf (60 :: (hex ++ [62])) = false := by
    have : B "]" = [93] := by decide
    rw [this]
    cases hsx : [93].isSuffixOf (60 :: (hex ++ [62])) with
    | false => rfl
    | true =>
      exfalso
      obtain ⟨p, hp⟩ := List.isSuffixOf_iff_suffix.mp hsx
      have hp2 : p ++ [93] = (60 :: hex) ++ [62] := hp
      have := List.append_inj_right' hp2 rfl
      simp at this
  have h8 : (B "(").isPrefixOf (60 :: (hex ++ [62])) = false := by
    have : B "(" = [40] := by decide
    rw [this]; simp [List.isPrefixOf]
  have h9 : (B "<").isPrefixOf (60 :: (hex ++ [62])) = true := by
    have : B "<" = [60] := by decide
    rw [this]; simp [List.isPrefixOf]
  unfold classifyWord
  rw [if_neg h1, if_neg h2, if_neg h3]
  simp only [h4, h5, h6, h7, h8, h9, hishex, Bool.false_eq_true, if_false, Bool.and_self,
    if_true]

/-- C21 (the code fails it): hex digits `0-9` and `a-f` between `<` and `>`
make a hex string, but `isHex` has no case for `A-F`: the word `<4E6F>` is
classified as unknown, and `Parse` of `fileHexUpper`, whose object 1 is
`[ <4E6F> ]`, ends in the fatal `unknown typ` of `readArray`, where the same
file in lower case parses. -/
theorem detectType_hex_upper :
    (∀ (s hex : Bytes) (ws : List Bytes),
      (∀ c ∈ hex, isDigit c = true ∨ (97 ≤ c ∧ c ≤ 102)) →
      windowWords s = (60 :: (hex ++ [62])) :: ws → detectType s = .HexString) ∧
    windowWords (B " <4E6F> ]\nendobj") = [B "<4E6F>", B "]", B "endobj"] ∧
    isHex (B "<4E6F>") = false ∧
    detectType (B " <4E6F> ]\nendobj") = .Unkown ∧
    detectType (B " <4e6f> ]\nendobj") = .HexString ∧
    (∀ n, Parse (n + 3) (PDF.ofBytes fileHexUpper) = .crash "unknown typ") ∧
    (∀ n, Parse (n + 5) (PDF.ofBytes fileHexLower) = .ok docHexLower) :=
  ⟨fun s hex ws h hw => detectType_hex_lower s hex ws h hw, rfl, rfl, rfl, rfl,
    fun _ => rfl, fun _ => rfl⟩

end Pdf

namespace Pdf

/-! ## What the mutation pass leaves alone -/

/-- One turn of the loop of `compressImageObj`: every object stays at its
index with its `ID`, `GenID`, `Array` and `typ`, and an object the pass
skips keeps its `Dict` and `Stream`. -/
theorem compressImageStep_keeps (c : Codec) (objects objects1 : List Obj) (k : Nat)
    (h : compressImageStep c objects k = .ok objects1) :
    ∀ (m : Nat) (o : Obj), objects[m]? = some o →
      ∃ o1 : Obj, objects1[m]? = some o1 ∧ o1.ID = o.ID ∧ o1.GenID = o.GenID ∧
        o1.Array = o.Array ∧ o1.typ = o.typ ∧
        (passSkips o → o1.Dict = o.Dict ∧ o1.Stream = o.Stream) := by
  rcases compressImageStep_ok c objects objects1 k h with h1 | h1
  · subst h1
    exact fun m o hm => ⟨o, hm, rfl, rfl, rfl, rfl, fun _ => ⟨rfl, rfl⟩⟩
  · obtain ⟨obj, filter, body, buf, hk, himg, hf, hne, _, _, h2⟩ := h1
    have hklt : k < objects.length := by
      rcases Nat.lt_or_ge k objects.length with h | h
      · exact h
      · rw [List.getElem?_eq_none h] at hk; cases hk
    have hnot : ¬ passSkips obj := by
      rintro (hs | hs)
      · rw [himg] at hs
        cases hs
      · rw [hf] at hs
        injection hs with hs
        exact hne hs
    rcases h2 with ⟨key, _, rfl⟩ | ⟨_, rfl⟩
    · intro m o hm
      rw [updateObjLen_get]
      by_cases hmk : m = k
      · subst hmk
        rw [hk] at hm
        cases hm
        simp only [List.getElem?_set_self hklt, Option.map_some']
        split
        · exact ⟨_, rfl, rfl, rfl, rfl, rfl, fun hs => absurd hs hnot⟩
        · exact ⟨_, rfl, rfl, rfl, rfl, rfl, fun hs => absurd hs hnot⟩
      · have hset : (objects.set k
            { obj with Stream := some ⟨B "stream\r\n" ++ CompressImage c buf⟩ })[m]?
            = some o := by
          rw [List.getElem?_set_ne (Ne.symm hmk)]; exact hm
        rw [hset]
        simp only [Option.map_some']
        split
        · exact ⟨_, rfl, rfl, rfl, rfl, rfl, fun _ => ⟨rfl, rfl⟩⟩
        · exact ⟨_, rfl, rfl, rfl, rfl, rfl, fun _ => ⟨rfl, rfl⟩⟩
    · intro m o hm
      by_cases hmk : m = k
      · subst hmk
        rw [hk] at hm
        cases hm
        exact ⟨_, List.getElem?_set_self hklt, rfl, rfl, rfl, rfl, fun hs => absurd hs hnot⟩
      · refine ⟨o, ?_, rfl, rfl, rfl, rfl, fun _ => ⟨rfl, rfl⟩⟩
        rw [List.getElem?_set_ne (Ne.symm hmk)]; exact hm

theorem passSkips_congr (a b : Obj) (hd : a.Dict = b.Dict) (hs : a.Stream = b.Stream)
    (h : passSkips b) : passSkips a := by
  unfold passSkips at h ⊢
  rw [IsImageStream_congr a b hd hs, hd]
  exact h

/-- Any number of turns of the loop of `compressImageObj`. -/
theorem compressImageLoop_keeps (c : Codec) (n s : Nat) (objects objects2 : List Obj)
    (h : compressImageLoop c n s objects = .ok objects2) :
    ∀ (m : Nat) (o : Obj), objects[m]? = some o →
      ∃ o2 : Obj, objects2[m]? = some o2 ∧ o2.ID = o.ID ∧ o2.GenID = o.GenID ∧
        o2.Array = o.Array ∧ o2.typ = o.typ ∧
        (passSkips o → o2.Dict = o.Dict ∧ o2.Stream = o.Stream) := by
  induction n generalizing s objects with
  | zero =>
    simp [compressImageLoop] at h
    subst h
    exact fun m o hm => ⟨o, hm, rfl, rfl, rfl, rfl, fun _ => ⟨rfl, rfl⟩⟩
  | succ n ih =>
    obtain ⟨objects1, h1, h2⟩ := compressImageLoop_succ_ok c n s objects objects2 h
    intro m o hm
    obtain ⟨o1, hm1, a1, a2, a3, a4, a5⟩ := compressImageStep_keeps c objects objects1 s h1 m o hm
    obtain ⟨o2, hm2, b1, b2, b3, b4, b5⟩ := ih (s + 1) objects1 h2 m o1 hm1
    refine ⟨o2, hm2, b1.trans a1, b2.trans a2, b3.trans a3, b4.trans a4, ?_⟩
    intro hs
    obtain ⟨d1, s1⟩ := a5 hs
    obtain ⟨d2, s2⟩ := b5 (passSkips_congr o1 o d1 s1 hs)
    exact ⟨d2.trans d1, s2.trans s1⟩

/-- C22: when `compressImageObj` completes, the header, the cross-reference
entries and the trailer are as before, there are as many objects as before,
every object stands at its index with its `ID`, `GenID`, `Array` and `typ`
(none added, removed or moved), and every object that is no image stream, and
every object whose `/Filter` is found as the name `/CCITTFaxDecode`, has the
`Dict` and the `Stream` it had. -/
theorem compressImageObj_frame (c : Codec) (p p' : PDF) (h : compressImageObj c p = .ok p') :
    p'.Header = p.Header ∧ p'.Xref = p.Xref ∧ p'.Trailer = p.Trailer ∧
    p'.Objects.length = p.Objects.length ∧
    ∀ (m : Nat) (o : Obj), p.Objects[m]? = some o →
      ∃ o' : Obj, p'.Objects[m]? = some o' ∧ o'.ID = o.ID ∧ o'.GenID = o.GenID ∧
        o'.Array = o.Array ∧ o'.typ = o.typ ∧
        (passSkips o → o'.Dict = o.Dict ∧ o'.Stream = o.Stream) := by
  obtain ⟨objects, hloop, rfl⟩ := compressImageObj_ok c p p' h
  refine ⟨rfl, rfl, rfl, ?_, ?_⟩
  · have hk := (compressImageLoop_frame c _ _ _ _ hloop).1
    have := congrArg List.length hk
    simpa [keysOf] using this
  · exact compressImageLoop_keeps c _ _ _ _ hloop

set_option maxRecDepth 100000

/-- C22 at `docMixed` with the re-encoder `shareCodec`: the pass completes
with `docMixedOut`. -/
theorem compressImageObj_frame_witness :
    compressImageObj shareCodec docMixed = .ok docMixedOut ∧
    docMixedOut.Header = docMixed.Header ∧ docMixedOut.Xref = docMixed.Xref ∧
    docMixedOut.Trailer = docMixed.Trailer ∧
    docMixedOut.Objects.length = docMixed.Objects.length ∧
    ∀ (m : Nat) (o : Obj), docMixed.Objects[m]? = some o →
      ∃ o' : Obj, docMixedOut.Objects[m]? = some o' ∧ o'.ID = o.ID ∧ o'.GenID = o.GenID ∧
        o'.Array = o.Array ∧ o'.typ = o.typ ∧
        (passSkips o → o'.Dict = o.Dict ∧ o'.Stream = o.Stream) :=
  ⟨rfl, compressImageObj_frame shareCodec docMixed docMixedOut rfl⟩

end Pdf

namespace Pdf

set_option maxRecDepth 100000

/-- A document without trailer is never written: `writeXref` stores the
offset of the section in `p.Trailer`, which is nil. -/
theorem SaveFile_needs_trailer (c : Codec) (p p' : PDF) (compress : Bool) (out : Bytes)
    (ht : p.Trailer = none) : SaveFile c p compress ≠ .ok (out, p') := by
  intro h
  obtain ⟨q, hq, hser⟩ := SaveFile_ok c p p' compress out h
  obtain ⟨_, _, tr, _, _, _, htr, _⟩ := serialize_ok q p' out hser
  cases compress with
  | false =>
    simp only [Bool.false_eq_true, if_false] at hq
    rw [hq, ht] at htr
    cases htr
  | true =>
    simp only [if_true] at hq
    obtain ⟨objects, _, hq2⟩ := compressImageObj_ok c p q hq
    rw [hq2] at htr
    simp only at htr
    rw [ht] at htr
    cases htr

/-- C23 (the code fails it): `fileNoTrailer` parses to `docNoTrailer`, whose
`Trailer` is nil, and `SaveFile` ends in a nil pointer dereference at the
first line of `writeXref`, after the objects and before the cross-reference
section, although it tests `p.Trailer != nil` before `writeTrailer`.  No
document without trailer is written, with or without the mutation pass. -/
theorem SaveFile_nil_trailer :
    (∀ n, Parse (n + 4) (PDF.ofBytes fileNoTrailer) = .ok docNoTrailer) ∧
    docNoTrailer.Trailer = none ∧
    (∀ w xref, writeXref w xref none = .crash "nil pointer dereference") ∧
    SaveFile failCodec docNoTrailer false = .crash "nil pointer dereference" ∧
    SaveFile failCodec docNoTrailer true = .crash "nil pointer dereference" ∧
    (∀ (c : Codec) (p p' : PDF) (compress : Bool) (out : Bytes),
      p.Trailer = none → SaveFile c p compress ≠ .ok (out, p')) :=
  ⟨fun _ => rfl, rfl, fun _ _ => rfl, rfl, rfl,
    fun c p p' compress out ht => SaveFile_needs_trailer c p p' compress out ht⟩

end Pdf

namespace Pdf

set_option maxRecDepth 100000

/-- C24 (the code fails it for the newline alone): `compressImageObj` drops
8 bytes whenever the body starts with `stream`.  After `stream\r\n` that
leaves exactly the payload.  `fileImageLF` parses to `docImageLF`, whose body
is `stream\nABCD`: the 8 bytes are the keyword line and the first byte of the
payload, the re-encoder gets `BCD`, and the body written back holds what it
made of `BCD`.  A body `stream\n` with an empty payload is shorter than 8
bytes and the slice panics. -/
theorem keyword_line_newline_alone :
    (∀ P, stripStreamLine (B "stream\r\n" ++ P) = some P) ∧
    stripStreamLine (B "stream\nABCD") = some (B "BCD") ∧
    stripStreamLine (B "stream\n") = none ∧
    (∀ n, Parse (n + 6) (PDF.ofBytes fileImageLF) = .ok docImageLF) ∧
    (∀ n, Parse (n + 6) (PDF.ofBytes fileImageCRLF) = .ok docImageCRLF) ∧
    (∀ c, (compressImageObj c docImageLF).isOk = true ∧
      ∀ q, compressImageObj c docImageLF = .ok q →
        ∃ o, q.Objects[0]? = some o ∧
          o.Stream = some ⟨B "stream\r\n" ++ CompressImage c (B "BCD")⟩) ∧
    (∀ c, (compressImageObj c docImageCRLF).isOk = true ∧
      ∀ q, compressImageObj c docImageCRLF = .ok q →
        ∃ o, q.Objects[0]? = some o ∧
          o.Stream = some ⟨B "stream\r\n" ++ CompressImage c (B "ABCD")⟩) ∧
    compressImageObj reverseCodec docImageLF
      = .ok { docImageLF with
              Objects := [ { Obj.zero with ID := 1, Dict := imageDict (.int 3),
                                           Stream := some ⟨B "stream\r\nDCB"⟩ } ] } := by
  refine ⟨stripStreamLine_crlf, rfl, rfl, fun _ => rfl, fun _ => rfl, ?_, ?_, rfl⟩
  · intro c
    have h := compressImageStep_image c docImageLF.Objects 0
      { Obj.zero with ID := 1, Dict := imageDict (.int 4), Stream := some ⟨B "stream\nABCD"⟩ }
      (B "/DCTDecode") (B "stream\nABCD") (B "BCD") rfl rfl rfl (by decide) rfl rfl
    constructor
    · unfold compressImageObj
      have hl : docImageLF.Objects.length = 1 := rfl
      rw [hl, compressImageLoop, h]
      rfl
    · intro q hq
      obtain ⟨o, ho, hs, _⟩ := compressImageObj_at c docImageLF q 0
        { Obj.zero with ID := 1, Dict := imageDict (.int 4), Stream := some ⟨B "stream\nABCD"⟩ }
        (B "/DCTDecode") (B "stream\nABCD") (B "BCD") hq rfl rfl rfl (by decide) rfl rfl
      exact ⟨o, ho, hs⟩
  · intro c
    have h := compressImageStep_image c docImageCRLF.Objects 0
      { Obj.zero with ID := 1, Dict := imageDict (.int 4), Stream := some ⟨B "stream\r\nABCD"⟩ }
      (B "/DCTDecode") (B "stream\r\nABCD") (B "ABCD") rfl rfl rfl (by decide) rfl rfl
    constructor
    · unfold compressImageObj
      have hl : docImageCRLF.Objects.length = 1 := rfl
      rw [hl, compressImageLoop, h]
      rfl
    · intro q hq
      obtain ⟨o, ho, hs, _⟩ := compressImageObj_at c docImageCRLF q 0
        { Obj.zero with ID := 1, Dict := imageDict (.int 4),
                        Stream := some ⟨B "stream\r\nABCD"⟩ }
        (B "/DCTDecode") (B "stream\r\nABCD") (B "ABCD") hq rfl rfl rfl (by decide) rfl rfl
      exact ⟨o, ho, hs⟩

end Pdf

namespace Pdf

set_option maxRecDepth 100000

/-- At `loopInput` a turn of the loop of `readArray` appends the zero
reference and leaves the input as it is: no number of turns ends the loop. -/
theorem readArrayLoop_loopInput : ∀ (fuel : Nat) (acc : List Value),
    readArrayLoop fuel loopInput acc = .fuel := by
  intro fuel
  induction fuel with
  | zero => intro acc; rfl
  | succ f ih =>
    intro acc
    have hdt : detectType loopInput = .ObjRef := rfl
    have hro : readObjRef loopInput = .ok (.ref 0 0, loopInput) := rfl
    rw [readArrayLoop, hdt]
    simp only [hro]
    exact ih _

/-- C25 (the code fails it): in `fileLoop` the array of object 1 holds the
word `İ` (U+0130, bytes C4 B0) before `0 R`.  `isNumber` looks at the low
byte of the rune, a `0`, so `detectType` sees a reference; `readInt` finds no
digit, consumes nothing and fails; `readObjRef` returns the zero object and
no error; `readArray` appends it and goes on at the same input.  The turn of
the loop neither shortens the input nor leaves the loop, and `Parse` has no
result whatever the fuel. -/
theorem Parse_loops_forever :
    detectType loopInput = .ObjRef ∧
    readInt loopInput = ((0, false), loopInput) ∧
    readObjRef loopInput = .ok (.ref 0 0, loopInput) ∧
    (∀ (fuel : Nat) (acc : List Value), readArrayLoop fuel loopInput acc = .fuel) ∧
    (∀ fuel, Parse fuel (PDF.ofBytes fileLoop) = .fuel) := by
  refine ⟨rfl, rfl, rfl, readArrayLoop_loopInput, ?_⟩
  have harr : ∀ g, readArray g (B "\n[ " ++ loopInput) = .fuel := by
    intro g
    cases g with
    | zero => rfl
    | succ h =>
      have h1 : readArray (h + 1) (B "\n[ " ++ loopInput)
          = readArrayLoop (h + 1) (32 :: loopInput) [] := rfl
      have hdt : detectType (32 :: loopInput) = .ObjRef := rfl
      have hro : readObjRef (32 :: loopInput) = .ok (.ref 0 0, loopInput) := rfl
      rw [h1, readArrayLoop, hdt]
      simp only [hro]
      exact readArrayLoop_loopInput h _
  have hobj : ∀ f, readObjects f (B "1 0 obj\n[ " ++ loopInput) = .fuel := by
    intro f
    have h1 : readObjects f (B "1 0 obj\n[ " ++ loopInput)
        = readObjectsLoop f (B "\n[ " ++ loopInput) { Obj.zero with ID := 1 } := rfl
    rw [h1]
    cases f with
    | zero => rfl
    | succ g =>
      have hdt : detectType (B "\n[ " ++ loopInput) = .Array := rfl
      rw [readObjectsLoop, hdt]
      simp only [harr g]
  intro fuel
  have h0 : Parse fuel (PDF.ofBytes fileLoop)
      = ParseLoop fuel { PDF.ofBytes fileLoop with
          bytes := B "1 0 obj\n[ " ++ loopInput, Header := B "%PDF-1.4" } := rfl
  rw [h0]
  cases fuel with
  | zero => rfl
  | succ f =>
    have hdt : detectType (B "1 0 obj\n[ " ++ loopInput) = .Obj := rfl
    rw [ParseLoop]
    simp only [hdt, hobj f]

end Pdf
